import Mathlib

/-!
Verification of the CLRS-Library graph module (`algorithms/graphs/graph.py`).

The Python source is shallowly embedded as follows.

* Vertex keys are the opaque hashable values supplied by the caller; the
  library's own demo uses integers, and this embedding fixes `Key := Int`.
* A Python `Vertex` object is identified with its key.  Every object of the
  class is created by `Graph.add_vertex`, which stores it in the `vertices`
  dict under its key with `id = key`, so (absent duplicate-key insertions,
  which replace the stored object) object references and keys are in
  bijection.  Adjacency maps, `dist` maps and `predecessor` links, which hold
  object references in Python, hold keys here.
* Python dicts preserve insertion order; they are modelled as association
  lists where updating an existing key rewrites the value in place and
  inserting appends.
* Machine integers: Python integers are unbounded, so distances and weights
  are plain `Int`.  `sys.maxsize` is the concrete constant `2 ^ 63 - 1` of a
  64-bit CPython build.
* Raising an exception is modelled with `Option`/`Except`/a returned flag;
  Python mutates the graph in place, so a raising call also returns the
  mutated state where the claims need it (`bellman_ford`).
* The unbounded loops of `dijkstra` (whose queue can regrow) and the
  recursions of `dfs` and `_print_path_util` (which do not terminate on
  cyclic predecessor chains) take a fuel parameter; `none` means the fuel
  was exhausted before the Python loop would have ended.
-/

namespace CLRSGraph

/-- Caller-supplied vertex keys (integers in this embedding). -/
abbrev Key := Int

/-- Colour constant `WHITE = 0` from graph.py. -/
def WHITE : Nat := 0

/-- Colour constant `BLACK = 1` from graph.py. -/
def BLACK : Nat := 1

/-- Colour constant `GRAY = 2` from graph.py. -/
def GRAY : Nat := 2

/-- `sys.maxsize` on a 64-bit CPython build. -/
def maxsize : Int := 2 ^ 63 - 1

/-- Insertion-ordered dict lookup (`d[k]`, as an `Option`). -/
def alookup {α : Type} : List (Key × α) → Key → Option α
  | [], _ => none
  | (k, a) :: rest, k' => if k = k' then some a else alookup rest k'

/-- Insertion-ordered dict update `d[k] = a`: rewrites the value in place if
the key is present, appends otherwise (CPython dict semantics). -/
def aset {α : Type} : List (Key × α) → Key → α → List (Key × α)
  | [], k, a => [(k, a)]
  | (k0, a0) :: rest, k, a =>
      if k0 = k then (k0, a) :: rest else (k0, a0) :: aset rest k a

/-- The `Vertex` class.  `connected_to`, `dist` key their entries by the
referenced object's key (see the module comment). -/
structure Vertex where
  id : Key
  connected_to : List (Key × Int)
  dist : List (Key × Int)
  color : Nat
  predecessor : Option Key
deriving DecidableEq, Repr

/-- `Vertex.__init__`. -/
def Vertex.init (key : Key) : Vertex :=
  { id := key, connected_to := [], dist := [], color := WHITE, predecessor := none }

/-- `Vertex.add_neighbour`. -/
def Vertex.add_neighbour (v : Vertex) (neighbour : Key) (weight : Int) : Vertex :=
  { v with connected_to := aset v.connected_to neighbour weight }

/-- `Vertex.get_connections` (the keys of the adjacency dict, in order). -/
def Vertex.get_connections (v : Vertex) : List Key :=
  v.connected_to.map Prod.fst

/-- `Vertex.get_weight` (raises `KeyError` when absent, hence `Option`). -/
def Vertex.get_weight (v : Vertex) (neighbour : Key) : Option Int :=
  alookup v.connected_to neighbour

/-- `v.dist[source]`.  The default `0` is never read by the algorithms: every
call site follows an initialisation that inserts the entry. -/
def Vertex.distAt (v : Vertex) (s : Key) : Int :=
  (alookup v.dist s).getD 0

/-- The `Graph` class. -/
structure Graph where
  vertices : List (Key × Vertex)
  num_vertices : Nat
  directed : Bool
deriving DecidableEq, Repr

/-- `Graph.__init__`. -/
def Graph.init (directed : Bool := true) : Graph :=
  { vertices := [], num_vertices := 0, directed := directed }

/-- `Graph.get_vertex` (raises `KeyError` when absent, hence `Option`). -/
def Graph.get_vertex (g : Graph) (key : Key) : Option Vertex :=
  alookup g.vertices key

/-- `Graph.get_vertices` (dict keys, in insertion order). -/
def Graph.get_vertices (g : Graph) : List Key :=
  g.vertices.map Prod.fst

/-- In-place mutation of the vertex object stored at `k` (Python mutates the
object through a reference; here the entry is rewritten). -/
def Graph.modifyVertex (g : Graph) (k : Key) (f : Vertex → Vertex) : Graph :=
  { g with vertices := g.vertices.map fun p => if p.1 = k then (p.1, f p.2) else p }

/-- `u.color` read through the graph.  The default `BLACK` is never read: the
algorithms only query colours of objects held in the graph. -/
def Graph.colorAt (g : Graph) (k : Key) : Nat :=
  ((g.get_vertex k).map Vertex.color).getD BLACK

/-- `u.dist[source]` read through the graph (see `Vertex.distAt`). -/
def Graph.distOf (g : Graph) (k s : Key) : Int :=
  ((g.get_vertex k).map (Vertex.distAt · s)).getD 0

/-- `u.predecessor` read through the graph. -/
def Graph.predOf (g : Graph) (k : Key) : Option Key :=
  ((g.get_vertex k).map Vertex.predecessor).getD none

/-- `Graph.get_edges`: one `(v, u, weight)` triple per adjacency entry, where
`v` and `u` are the `Vertex` objects themselves (the demo block calls
`g_edge[0].get_id()` on them).  The `Option.map`/`filterMap` is a formality:
in Python the adjacency dict holds the neighbour object itself. -/
def Graph.get_edges (g : Graph) : List (Vertex × Vertex × Int) :=
  g.vertices.flatMap fun p =>
    p.2.connected_to.filterMap fun q =>
      (g.get_vertex q.1).map fun u => (p.2, u, q.2)

/-- `Graph.add_vertex`: increments the counter unconditionally and stores a
fresh `Vertex` under `key` (replacing any previous one). -/
def Graph.add_vertex (g : Graph) (key : Key) : Graph :=
  { g with
    num_vertices := g.num_vertices + 1
    vertices := aset g.vertices key (Vertex.init key) }

/-- The body of `Graph.add_edge` after the tuple unpack
`vertex_1, vertex_2, *cost = edge` has succeeded. -/
def Graph.add_edge_core (g : Graph) (vertex_1 vertex_2 : Key) (cost : Option Int) : Graph :=
  let g := if (g.get_vertex vertex_1).isNone then g.add_vertex vertex_1 else g
  let g := if (g.get_vertex vertex_2).isNone then g.add_vertex vertex_2 else g
  let w := cost.getD 0
  let g := g.modifyVertex vertex_1 (fun v => v.add_neighbour vertex_2 w)
  if g.directed then g else g.modifyVertex vertex_2 (fun v => v.add_neighbour vertex_1 w)

/-- A positional argument of the variadic `Graph.add_edge(*edge)`: either an
integer (a key or a weight) or a tuple of integers (as passed — wrongly — by
`Graph.add_edges`).  Other Python values do not occur in this library. -/
inductive EV where
  | i (n : Int)
  | t (l : List Int)
deriving DecidableEq, Repr

/-- `Graph.add_edge(*edge)`: unpacks `vertex_1, vertex_2, *cost = edge`,
raising `ValueError` when fewer than two positional arguments were passed. -/
def Graph.add_edge (g : Graph) (edge : List EV) : Except String Graph :=
  match edge with
  | [] => .error "ValueError: not enough values to unpack (expected at least 2, got 0)"
  | [_] => .error "ValueError: not enough values to unpack (expected at least 2, got 1)"
  | EV.i vertex_1 :: EV.i vertex_2 :: cost =>
      .ok (g.add_edge_core vertex_1 vertex_2
        (match cost with
         | [] => none
         | EV.i c :: _ => some c
         | EV.t _ :: _ => some 0))
         -- tuple-valued weights never occur: weights are integers here
  | _ :: _ :: _ => .error "model: non-integer vertex keys are outside this embedding"

/-- `Graph.add_edges`: iterates `self.add_edge(edge)` — passing each tuple as
a single positional argument, so `add_edge` receives a one-element argument
list. -/
def Graph.add_edges (g : Graph) (edges : List (List Int)) : Except String Graph :=
  match edges with
  | [] => .ok g
  | e :: rest =>
      match g.add_edge [EV.t e] with
      | .ok g' => g'.add_edges rest
      | .error msg => .error msg

/-- Convenience for building graphs the way the demo block does, with direct
`add_edge(k1, k2, w)` calls. -/
def Graph.addE (g : Graph) (k1 k2 : Key) (w : Int) : Graph :=
  g.add_edge_core k1 k2 (some w)

/-- `Graph.connected`: true iff `key_2` is a direct out-neighbour of
`key_1` (raises `KeyError` when `key_1` is absent, hence `Option`). -/
def Graph.connected (g : Graph) (key_1 key_2 : Key) : Option Bool :=
  (g.get_vertex key_1).map fun v => v.get_connections.any fun nk => nk = key_2

/-- What `print_path` emits on stdout: vertex ids (with `end=" "`) and the
"No path from s to d exists!" line. -/
inductive PTok where
  | vid (k : Key)
  | noPath (s d : Key)
deriving DecidableEq, Repr

/-- `Graph._print_path_util`.  `source is destination` is object identity,
i.e. key equality here; the recursion follows `destination.predecessor`.
The fuel only cuts off predecessor cycles, on which the Python recursion
would not terminate either; `none` also covers a dangling predecessor key,
impossible for predecessors set by the algorithms. -/
def Graph.print_path_util (g : Graph) (source destination : Key) : Nat → Option (List PTok)
  | 0 => none
  | fuel + 1 =>
    if source = destination then some [PTok.vid source]
    else
      match g.get_vertex destination with
      | none => none
      | some v =>
        match v.predecessor with
        | none => some [PTok.noPath source destination]
        | some p =>
          match g.print_path_util source p fuel with
          | none => none
          | some toks => some (toks ++ [PTok.vid destination])

/-- `Graph.print_path`: looks both endpoints up (`KeyError` → `none`), then
runs `_print_path_util`. -/
def Graph.print_path (g : Graph) (key_source key_destination : Key) (fuel : Nat) :
    Option (List PTok) :=
  match g.get_vertex key_source, g.get_vertex key_destination with
  | some _, some _ => g.print_path_util key_source key_destination fuel
  | _, _ => none

/-- Number of WHITE vertices (termination measure for the BFS loop and DFS). -/
def Graph.whiteCount (g : Graph) : Nat :=
  g.vertices.countP fun p => p.2.color = WHITE

/-- The initialisation prefix of `Graph.bfs` (lines 190–198): every vertex
other than the source becomes WHITE with no predecessor and `dist[source] =
sys.maxsize`; the source becomes GRAY with `dist[source] = 0` and no
predecessor. -/
def Graph.bfs_init (g : Graph) (s : Key) : Graph :=
  let g' : Graph := { g with
    vertices := g.vertices.map fun p =>
      if p.1 = s then p
      else (p.1, { p.2 with
        color := WHITE
        predecessor := none
        dist := aset p.2.dist s maxsize }) }
  g'.modifyVertex s fun v =>
    { v with color := GRAY, dist := aset v.dist s 0, predecessor := none }

/-- The inner `for v in u.get_connections()` of the BFS loop: WHITE
neighbours become GRAY, get `dist[source] = u.dist[source] + 1` and
predecessor `u`, and are appended to the queue. -/
def Graph.bfs_scan (s u : Key) : Graph → List Key → List (Key × Int) → Graph × List Key
  | g, acc, [] => (g, acc)
  | g, acc, (vk, _) :: rest =>
    if g.colorAt vk = WHITE then
      let d := g.distOf u s + 1
      let g' := g.modifyVertex vk fun v =>
        { v with color := GRAY, dist := aset v.dist s d, predecessor := some u }
      g'.bfs_scan s u (acc ++ [vk]) rest
    else g.bfs_scan s u acc rest

theorem countP_white_map_le (k : Key) (f : Vertex → Vertex)
    (hf : ∀ v, ¬(f v).color = WHITE) :
    ∀ l : List (Key × Vertex),
      (l.map fun p => if p.1 = k then (p.1, f p.2) else p).countP
          (fun p => decide (p.2.color = WHITE)) ≤
        l.countP fun p => decide (p.2.color = WHITE) := by
  intro l
  induction l with
  | nil => simp
  | cons p ps ih =>
    by_cases hp : p.1 = k
    · have h1 : decide ((f p.2).color = WHITE) = false := by simp [hf p.2]
      have h4 := ih
      simp only [List.map_cons, if_pos hp, List.countP_cons, h1]
      simp only [Bool.false_eq_true, if_false]
      omega
    · have h4 := ih
      simp only [List.map_cons, if_neg hp, List.countP_cons]
      omega

theorem countP_white_map_lt (k : Key) (f : Vertex → Vertex)
    (hf : ∀ v, ¬(f v).color = WHITE) :
    ∀ (l : List (Key × Vertex)) (v : Vertex), alookup l k = some v → v.color = WHITE →
      (l.map fun p => if p.1 = k then (p.1, f p.2) else p).countP
          (fun p => decide (p.2.color = WHITE)) + 1 ≤
        l.countP fun p => decide (p.2.color = WHITE) := by
  intro l
  induction l with
  | nil => intro v hl _; simp [alookup] at hl
  | cons p ps ih =>
    intro v hl hw
    by_cases hp : p.1 = k
    · have hv : p.2 = v := by
        simpa [alookup, hp] using hl
      have h1 : decide ((f p.2).color = WHITE) = false := by simp [hf p.2]
      have h2 : decide (p.2.color = WHITE) = true := by simp [hv, hw]
      have h3 := countP_white_map_le k f hf ps
      simp only [List.map_cons, if_pos hp, List.countP_cons, h1, h2]
      simp only [Bool.false_eq_true, if_false, if_true]
      omega
    · have hl' : alookup ps k = some v := by
        simpa [alookup, hp] using hl
      have := ih v hl' hw
      simp only [List.map_cons, if_neg hp, List.countP_cons]
      omega

theorem whiteCount_modify_le (g : Graph) (k : Key) (f : Vertex → Vertex)
    (hf : ∀ v, ¬(f v).color = WHITE) :
    (g.modifyVertex k f).whiteCount ≤ g.whiteCount :=
  countP_white_map_le k f hf g.vertices

theorem whiteCount_modify_lt (g : Graph) (k : Key) (f : Vertex → Vertex)
    (hf : ∀ v, ¬(f v).color = WHITE) (h : g.colorAt k = WHITE) :
    (g.modifyVertex k f).whiteCount + 1 ≤ g.whiteCount := by
  unfold Graph.colorAt Graph.get_vertex at h
  rcases hv : alookup g.vertices k with _ | v
  · rw [hv] at h
    simp [BLACK, WHITE] at h
  · rw [hv] at h
    simp at h
    exact countP_white_map_lt k f hf g.vertices v hv h

theorem bfs_scan_whiteCount (s u : Key) :
    ∀ (adj : List (Key × Int)) (g : Graph) (acc : List Key),
      (g.bfs_scan s u acc adj).1.whiteCount + (g.bfs_scan s u acc adj).2.length ≤
        g.whiteCount + acc.length := by
  intro adj
  induction adj with
  | nil => intro g acc; simp [Graph.bfs_scan]
  | cons hd tl ih =>
    intro g acc
    by_cases h : g.colorAt hd.1 = WHITE
    · have heq : g.bfs_scan s u acc (hd :: tl) =
          (g.modifyVertex hd.1 fun v =>
            { v with color := GRAY, dist := aset v.dist s (g.distOf u s + 1),
                     predecessor := some u }).bfs_scan s u (acc ++ [hd.1]) tl := by
        simp [Graph.bfs_scan, h]
      have h1 := ih (g.modifyVertex hd.1 fun v =>
        { v with color := GRAY, dist := aset v.dist s (g.distOf u s + 1),
                 predecessor := some u }) (acc ++ [hd.1])
      have h2 := whiteCount_modify_lt g hd.1 (fun v =>
        { v with color := GRAY, dist := aset v.dist s (g.distOf u s + 1),
                 predecessor := some u }) (by intro v; simp [GRAY, WHITE]) h
      rw [heq]
      simp only [List.length_append, List.length_cons, List.length_nil] at h1 ⊢
      omega
    · have heq : g.bfs_scan s u acc (hd :: tl) = g.bfs_scan s u acc tl := by
        simp [Graph.bfs_scan, h]
      rw [heq]
      exact ih g acc

/-- The `while not q.empty()` loop of `Graph.bfs`.  The loop makes at most
`whiteCount + |q|` iterations (every enqueue turns a WHITE vertex GRAY), so
with the fuel `Graph.bfs` supplies the `0` case — which returns the state
unchanged — is never reached; see `bfs_loop_fuel_irrelevant`. -/
def Graph.bfs_loop (s : Key) : Nat → Graph → List Key → Graph
  | 0, g, _ => g
  | fuel + 1, g, q =>
    match q with
    | [] => g
    | u :: rest =>
      let adj := ((g.get_vertex u).map Vertex.connected_to).getD []
      let sc := g.bfs_scan s u [] adj
      let g2 := sc.1.modifyVertex u fun v => { v with color := BLACK }
      Graph.bfs_loop s fuel g2 (rest ++ sc.2)

/-- Any two fuels large enough for the queue to drain give the same
result: the loop's value is the value of Python's unbounded `while`. -/
theorem bfs_loop_fuel_irrelevant (s : Key) :
    ∀ (fuel fuel' : Nat) (g : Graph) (q : List Key),
      g.whiteCount + q.length < fuel → g.whiteCount + q.length < fuel' →
      Graph.bfs_loop s fuel g q = Graph.bfs_loop s fuel' g q := by
  intro fuel
  induction fuel with
  | zero => intro fuel' g q h _; omega
  | succ f ih =>
    intro fuel' g q h h'
    obtain ⟨f', rfl⟩ : ∃ f', fuel' = f' + 1 := ⟨fuel' - 1, by omega⟩
    match q with
    | [] => rfl
    | u :: rest =>
      simp only [Graph.bfs_loop]
      apply ih
      · have h1 := bfs_scan_whiteCount s u
          (((g.get_vertex u).map Vertex.connected_to).getD []) g []
        have h2 := whiteCount_modify_le
          (g.bfs_scan s u [] (((g.get_vertex u).map Vertex.connected_to).getD [])).1 u
          (fun v => { v with color := BLACK }) (fun v => by simp [BLACK, WHITE])
        simp only [List.length_append, List.length_cons, List.length_nil] at h1 h h' ⊢
        omega
      · have h1 := bfs_scan_whiteCount s u
          (((g.get_vertex u).map Vertex.connected_to).getD []) g []
        have h2 := whiteCount_modify_le
          (g.bfs_scan s u [] (((g.get_vertex u).map Vertex.connected_to).getD [])).1 u
          (fun v => { v with color := BLACK }) (fun v => by simp [BLACK, WHITE])
        simp only [List.length_append, List.length_cons, List.length_nil] at h1 h h' ⊢
        omega

/-- `Graph.bfs` (raises `KeyError` on an absent source, hence `Option`).
The FIFO queue, bounded by `num_vertices` in Python, never fills (at most
one live entry per vertex), so an unbounded list is a faithful model; the
fuel `whiteCount + 2` strictly bounds the loop's iteration count, so the
embedded loop runs to Python's completion. -/
def Graph.bfs (g : Graph) (source_key : Key) : Option Graph :=
  match g.get_vertex source_key with
  | none => none
  | some _ =>
    let g1 := g.bfs_init source_key
    some (Graph.bfs_loop source_key (g1.whiteCount + 2) g1 [source_key])

/-- `Graph.dfs_visit`: emits `u`, colours it GRAY, recursively visits WHITE
neighbours (setting their predecessor first), then colours `u` BLACK.  The
fuel never runs out when it is at least the number of vertices. -/
def Graph.dfs_visit : Nat → Graph × List Key → Key → Graph × List Key
  | 0, st, _ => st
  | fuel + 1, (g, out), u =>
    let out := out ++ [u]
    let g := g.modifyVertex u fun v => { v with color := GRAY }
    let adj := ((g.get_vertex u).map Vertex.connected_to).getD []
    let st := adj.foldl
      (fun st p =>
        if st.1.colorAt p.1 = WHITE then
          Graph.dfs_visit fuel
            (st.1.modifyVertex p.1 fun v => { v with predecessor := some u }, st.2) p.1
        else st)
      (g, out)
    (st.1.modifyVertex u fun v => { v with color := BLACK }, st.2)

/-- `Graph.dfs`: resets every colour to WHITE and predecessor to `None`,
then visits each still-WHITE vertex in storage order. -/
def Graph.dfs (g : Graph) (fuel : Nat) : Graph × List Key :=
  let g : Graph := { g with
    vertices := g.vertices.map fun p =>
      (p.1, { p.2 with color := WHITE, predecessor := none }) }
  (g.vertices.map Prod.fst).foldl
    (fun st k => if st.1.colorAt k = WHITE then Graph.dfs_visit fuel st k else st)
    (g, [])

/-- `Graph.initialize_single_source`. -/
def Graph.initialize_single_source (g : Graph) (s : Key) : Graph :=
  let g : Graph := { g with
    vertices := g.vertices.map fun p =>
      (p.1, { p.2 with dist := aset p.2.dist s maxsize, predecessor := none }) }
  g.modifyVertex s fun v => { v with dist := aset v.dist s 0 }

/-- `Graph.relax` (static). -/
def Graph.relax (g : Graph) (s u v : Key) (weight : Int) : Graph :=
  if g.distOf v s > g.distOf u s + weight then
    g.modifyVertex v fun vx =>
      { vx with dist := aset vx.dist s (g.distOf u s + weight), predecessor := some u }
  else g

/-- The `(from, to, weight)` key triples behind `get_edges()`: the triples
hold object references, and each object is the entry stored under its key. -/
def Graph.edge_list (g : Graph) : List (Key × Key × Int) :=
  g.vertices.flatMap fun p => p.2.connected_to.map fun q => (p.1, q.1, q.2)

/-- One pass `for edge in self.get_edges(): self.relax(source, edge[0],
edge[1], edge[2])` of `bellman_ford`.  The edge tuples are fixed at the start
of the pass; `relax` reads distances through the (current) object state. -/
def Graph.bf_pass (g : Graph) (s : Key) : Graph :=
  g.edge_list.foldl (fun h e => h.relax s e.1 e.2.1 e.2.2) g

/-- The final scan of `bellman_ford`: `True` iff some edge still admits a
strict relaxation, in which case Python raises
`ValueError("Negative Weight Cycle Found")`. -/
def Graph.bf_check (g : Graph) (s : Key) : Bool :=
  g.edge_list.any fun e => g.distOf e.2.1 s > g.distOf e.1 s + e.2.2

/-- `Graph.bellman_ford`: `none` on an absent source key (`KeyError`);
otherwise the mutated graph together with the raised-`ValueError` flag. -/
def Graph.bellman_ford (g : Graph) (source_key : Key) : Option (Graph × Bool) :=
  match g.get_vertex source_key with
  | none => none
  | some _ =>
    let g0 := g.initialize_single_source source_key
    let g1 := (fun h => h.bf_pass source_key)^[g0.num_vertices - 1] g0
    some (g1, g1.bf_check source_key)

/-- Modelled from the spec: the external collaborator `MutablePriorityQueue`
(`datastructures/heap.py`, not under src/).  Per the spec's contract it is a
mutable min-priority queue: `add_task(item, priority)` inserts the item if
absent or updates its priority in place; `pop_task()` removes and returns
the minimum-priority item; `empty()` tests emptiness.  Items are vertex
objects, i.e. keys here; ties are resolved towards the earliest-inserted
entry (the spec fixes no tie order). -/
abbrev MPQ := List (Key × Int)

/-- Modelled from the spec: `MutablePriorityQueue.add_task`. -/
def MPQ.add_task (pq : MPQ) (k : Key) (priority : Int) : MPQ :=
  aset pq k priority

/-- Modelled from the spec: `MutablePriorityQueue.pop_task`, returning the
removed (item, priority) entry and the remaining queue; `none` iff empty. -/
def MPQ.pop_entry : MPQ → Option ((Key × Int) × MPQ)
  | [] => none
  | e :: rest =>
    match MPQ.pop_entry rest with
    | none => some (e, [])
    | some (e', rest') => if e.2 ≤ e'.2 then some (e, rest) else some (e', e :: rest')

/-- `Graph.relax_with_priority_update` (static). -/
def Graph.relax_with_priority_update (g : Graph) (s u v : Key) (weight : Int)
    (priority_queue : MPQ) : Graph × MPQ :=
  if g.distOf v s > g.distOf u s + weight then
    let d := g.distOf u s + weight
    (g.modifyVertex v fun vx => { vx with dist := aset vx.dist s d, predecessor := some u },
     MPQ.add_task priority_queue v d)
  else (g, priority_queue)

/-- The `while not priority_queue.empty()` loop of `dijkstra`, with fuel
(the Python loop can run arbitrarily long — or forever, with negative
weights — because a relaxed vertex re-enters the queue). -/
def Graph.dijkstra_loop (s : Key) : Nat → Graph → MPQ → Option Graph
  | 0, _, _ => none
  | fuel + 1, g, pq =>
    match MPQ.pop_entry pq with
    | none => some g
    | some ((u, _), pq') =>
      let adj := ((g.get_vertex u).map Vertex.connected_to).getD []
      let st := adj.foldl
        (fun st p => st.1.relax_with_priority_update s u p.1 p.2 st.2) (g, pq')
      Graph.dijkstra_loop s fuel st.1 st.2

/-- `Graph.dijkstra`: `none` on an absent source key (`KeyError`) or when
the fuel runs out before the queue empties. -/
def Graph.dijkstra (g : Graph) (source_key : Key) (fuel : Nat) : Option Graph :=
  match g.get_vertex source_key with
  | none => none
  | some _ =>
    let g0 := g.initialize_single_source source_key
    let pq := g0.get_vertices.foldl
      (fun pq k =>
        match g0.get_vertex k with
        | some v => MPQ.add_task pq k (v.distAt source_key)
        | none => pq)
      ([] : MPQ)
    Graph.dijkstra_loop source_key fuel g0 pq

/-!  Specification-side notions (not from the source): well-formedness of a
graph value, reachability, hop counts, weighted walks. -/

/-- Graphs reachable through the public API without duplicate-key
`add_vertex` calls: keys are unique, each object's `id` is its key, adjacency
references live objects, adjacency dicts have unique keys, and the
`num_vertices` counter agrees with the stored count. -/
def WF (g : Graph) : Prop :=
  (g.vertices.map Prod.fst).Nodup ∧
  (∀ p ∈ g.vertices, p.2.id = p.1) ∧
  (∀ p ∈ g.vertices, ∀ q ∈ p.2.connected_to, (alookup g.vertices q.1).isSome = true) ∧
  (∀ p ∈ g.vertices, (p.2.connected_to.map Prod.fst).Nodup) ∧
  g.num_vertices = g.vertices.length

instance (g : Graph) : Decidable (WF g) := by
  unfold WF
  infer_instance

/-- `ReachHops g s v n`: some directed path of `n` edges leads from `s`
to `v` in `g`'s adjacency structure. -/
inductive ReachHops (g : Graph) (s : Key) : Key → Nat → Prop where
  | refl : ReachHops g s s 0
  | step {u v : Key} {w : Int} {n : Nat} (h : ReachHops g s u n) (vx : Vertex)
      (hu : alookup g.vertices u = some vx) (hv : (v, w) ∈ vx.connected_to) :
      ReachHops g s v (n + 1)

/-- `v` is reachable from `s` by some directed path. -/
def Reachable (g : Graph) (s v : Key) : Prop := ∃ n, ReachHops g s v n

/-- The weight of the edge from `u` to `v`, if present. -/
def edgeW (g : Graph) (u v : Key) : Option Int :=
  match alookup g.vertices u with
  | some vx => alookup vx.connected_to v
  | none => none

/-- Total weight of the walk starting at `u` and stepping through the key
list `l`; `none` if some step is not an edge of `g`. -/
def walkCost (g : Graph) : Key → List Key → Option Int
  | _, [] => some 0
  | u, v :: rest =>
    match edgeW g u v with
    | some w => (walkCost g v rest).map (fun c => w + c)
    | none => none

/-- Endpoint of the walk starting at `u` with step list `l`. -/
def walkEnd : Key → List Key → Key
  | u, [] => u
  | _, v :: rest => walkEnd v rest

/-- `IsWalk g u l v c`: `l` is the step list of a walk from `u` to `v` in
`g` of total weight `c`. -/
def IsWalk (g : Graph) (u : Key) (l : List Key) (v : Key) (c : Int) : Prop :=
  walkCost g u l = some c ∧ walkEnd u l = v

/-- The graph contains a closed walk (hence a cycle) of negative total
weight. -/
def HasNegCycle (g : Graph) : Prop :=
  ∃ u l c, IsWalk g u l u c ∧ l ≠ [] ∧ c < 0

/-- Every stored edge weight is non-negative. -/
def NonNegWeights (g : Graph) : Prop :=
  ∀ p ∈ g.vertices, ∀ q ∈ p.2.connected_to, 0 ≤ q.2

instance (g : Graph) : Decidable (NonNegWeights g) := by
  unfold NonNegWeights
  infer_instance

/-- The demonstration graph of the `__main__` block: six vertices `0..5`
and the nine weighted directed edges. -/
def demoGraph : Graph :=
  let g := (List.range 6).foldl (fun g i => g.add_vertex (Int.ofNat i)) Graph.init
  ((((((((g.addE 0 1 5).addE 0 5 2).addE 1 2 4).addE 2 3 9).addE 3 4
    7).addE 3 5 3).addE 4 0 1).addE 5 4 8).addE 5 2 1

/-- A graph whose only negative cycle is unreachable from vertex `0`:
`0` is isolated, and `1 ⇄ 2` carry weight `-1` each way. -/
def cycleGraph : Graph :=
  ((Graph.init.add_vertex 0).addE 1 2 (-1)).addE 2 1 (-1)

/-- Vertex `0` isolated, edge `1 → 2`; after `bfs(1)`, vertex `2`'s
predecessor chain is `2 → 1 → ∅` and never reaches `0`. -/
def strayGraph : Graph :=
  (Graph.init.add_vertex 0).addE 1 2 1

/-- A single directed edge `10 → 20` of weight `7`. -/
def pairGraph : Graph :=
  Graph.init.addE 10 20 7

/-- A graph built with a duplicate `add_vertex(9)` call: 3 stored vertices
but `num_vertices = 4`, plus the negative cycle `1 ⇄ 2`. -/
def dupGraph : Graph :=
  (((Graph.init.add_vertex 9).add_vertex 9).addE 1 2 (-1)).addE 2 1 (-1)

/-- A Python value appearing as a component of a `get_edges()` triple:
the dynamically-typed observation that distinguishes a `Vertex` object from
an integer key. -/
inductive GObj where
  | vx (v : Vertex)
  | intv (n : Int)
deriving DecidableEq, Repr

/-- `get_edges()` with its triple components regarded as Python values:
the code appends the `Vertex` objects themselves, not their keys. -/
def Graph.get_edges_py (g : Graph) : List (GObj × GObj × Int) :=
  g.get_edges.map fun e => (GObj.vx e.1, GObj.vx e.2.1, e.2.2)

/-- `deadChain g s (d :: cs)`: following predecessor links from `d` passes
through `cs` in order and ends at a vertex with no predecessor, never
meeting `s`. -/
def deadChain (g : Graph) (s : Key) : List Key → Bool
  | [] => false
  | [c] => (!(c == s)) && (g.get_vertex c).isSome && (g.predOf c == none)
  | c :: c' :: rest =>
      (!(c == s)) && (g.get_vertex c).isSome && (g.predOf c == some c') &&
        deadChain g s (c' :: rest)

/-- One construction step of the public build API. -/
inductive BuildOp where
  | addV (k : Key)
  | addEg (k1 k2 : Key) (w : Option Int)
deriving DecidableEq, Repr

/-- Execute one build step. -/
def applyOp (g : Graph) : BuildOp → Graph
  | .addV k => g.add_vertex k
  | .addEg k1 k2 w => g.add_edge_core k1 k2 w

/-- The graph obtained from an empty graph by a sequence of build steps. -/
def buildGraph (d : Bool) (ops : List BuildOp) : Graph :=
  ops.foldl applyOp (Graph.init d)

/-- No direct `add_vertex` call in the build sequence ever uses a key that
is already present at that moment (`add_edge` only auto-creates absent
keys, so its internal `add_vertex` calls are always fresh). -/
def noDupAdds (g : Graph) : List BuildOp → Bool
  | [] => true
  | .addV k :: rest => (alookup g.vertices k == none) && noDupAdds (g.add_vertex k) rest
  | .addEg k1 k2 w :: rest => noDupAdds (g.add_edge_core k1 k2 w) rest

/-- Symmetry of the adjacency structure over the stored keys (with
well-formedness this extends to all keys: edges only leave stored
vertices). -/
def SymAdjB (g : Graph) : Prop :=
  ∀ u ∈ g.vertices.map Prod.fst, ∀ v ∈ g.vertices.map Prod.fst,
    edgeW g u v = edgeW g v u

instance (g : Graph) : Decidable (SymAdjB g) := by
  unfold SymAdjB
  infer_instance

/-- The read-only topology of a graph: the stored key sequence, each
object's identity and adjacency (neighbours and edge weights), the vertex
counter and the directed flag — everything except the mutable
colour/dist/predecessor fields. -/
def topo (g : Graph) : List (Key × Key × List (Key × Int)) × Nat × Bool :=
  (g.vertices.map fun p => (p.1, p.2.id, p.2.connected_to), g.num_vertices, g.directed)

/-- The value `initialize_single_source` gives `dist[s]` at vertex `v`:
`0` at the source, the `sys.maxsize` sentinel elsewhere. -/
def pot (s v : Key) : Int := if v = s then 0 else maxsize

/-- The Bellman–Ford value function: `bfSpec g s n v` is the least value of
`pot s u + (cost of a walk u → v with at most n edges)` over all start
vertices `u` and such walks (the 0-edge walk gives `pot s v` itself). -/
def bfSpec (g : Graph) (s : Key) : Nat → Key → Int
  | 0, v => pot s v
  | n + 1, v =>
    g.edge_list.foldl
      (fun acc e => if e.2.1 = v then min acc (bfSpec g s n e.1 + e.2.2) else acc)
      (bfSpec g s n v)

/-- A negative-weight cycle reachable from `s` — what the claim asserts
`bellman_ford` detects. -/
def ReachableNegCycle (g : Graph) (s : Key) : Prop :=
  ∃ u l c, Reachable g s u ∧ IsWalk g u l u c ∧ l ≠ [] ∧ c < 0

/-!  Association-list infrastructure lemmas. -/

theorem alookup_aset_self {α : Type} (l : List (Key × α)) (k : Key) (a : α) :
    alookup (aset l k a) k = some a := by
  induction l with
  | nil => simp [aset, alookup]
  | cons p ps ih =>
    by_cases hp : p.1 = k
    · simp [aset, hp, alookup]
    · simp [aset, hp, alookup, ih]

theorem alookup_aset_ne {α : Type} (l : List (Key × α)) (k k' : Key) (a : α)
    (h : k' ≠ k) : alookup (aset l k a) k' = alookup l k' := by
  have hkk : ¬k = k' := fun e => h e.symm
  induction l with
  | nil => simp only [aset, alookup, if_neg hkk]
  | cons p ps ih =>
    by_cases hp : p.1 = k
    · have hp' : ¬p.1 = k' := fun e => h (e ▸ hp)
      simp only [aset, if_pos hp, alookup, if_neg hp']
    · by_cases hp' : p.1 = k'
      · simp only [aset, if_neg hp, alookup, if_pos hp']
      · simp only [aset, if_neg hp, alookup, if_neg hp', ih]

theorem aset_keys_of_mem {α : Type} (l : List (Key × α)) (k : Key) (a : α)
    (h : (alookup l k).isSome = true) :
    (aset l k a).map Prod.fst = l.map Prod.fst := by
  induction l with
  | nil => simp [alookup] at h
  | cons p ps ih =>
    by_cases hp : p.1 = k
    · simp [aset, hp]
    · simp only [alookup, hp, if_neg hp] at h
      simp [aset, hp, ih h]

theorem aset_keys_of_absent {α : Type} (l : List (Key × α)) (k : Key) (a : α)
    (h : alookup l k = none) :
    (aset l k a).map Prod.fst = l.map Prod.fst ++ [k] := by
  induction l with
  | nil => simp [aset]
  | cons p ps ih =>
    by_cases hp : p.1 = k
    · simp [alookup, hp] at h
    · simp only [alookup, hp, if_neg hp] at h
      simp [aset, hp, ih h]

theorem aset_length_of_mem {α : Type} (l : List (Key × α)) (k : Key) (a : α)
    (h : (alookup l k).isSome = true) : (aset l k a).length = l.length := by
  have := aset_keys_of_mem l k a h
  have h1 : ((aset l k a).map Prod.fst).length = (l.map Prod.fst).length := by rw [this]
  simpa using h1

theorem aset_length_of_absent {α : Type} (l : List (Key × α)) (k : Key) (a : α)
    (h : alookup l k = none) : (aset l k a).length = l.length + 1 := by
  have := aset_keys_of_absent l k a h
  have h1 : ((aset l k a).map Prod.fst).length = (l.map Prod.fst ++ [k]).length := by rw [this]
  simpa using h1

theorem alookup_isSome_iff_mem_keys {α : Type} (l : List (Key × α)) (k : Key) :
    (alookup l k).isSome = true ↔ k ∈ l.map Prod.fst := by
  induction l with
  | nil => simp [alookup]
  | cons p ps ih =>
    by_cases hp : p.1 = k
    · simp [alookup, hp]
    · simp only [alookup, if_neg hp, List.map_cons, List.mem_cons]
      rw [ih]
      constructor
      · exact Or.inr
      · rintro (hh | hh)
        · exact absurd hh.symm hp
        · exact hh

theorem alookup_eq_none_iff {α : Type} (l : List (Key × α)) (k : Key) :
    alookup l k = none ↔ k ∉ l.map Prod.fst := by
  rw [← alookup_isSome_iff_mem_keys]
  cases alookup l k <;> simp

theorem alookup_mem {α : Type} (l : List (Key × α)) (k : Key) (a : α)
    (h : alookup l k = some a) : (k, a) ∈ l := by
  induction l with
  | nil => simp [alookup] at h
  | cons p ps ih =>
    by_cases hp : p.1 = k
    · simp only [alookup, if_pos hp, Option.some.injEq] at h
      have : (k, a) = p := by rw [← hp, ← h]
      exact this ▸ List.mem_cons_self p ps
    · simp only [alookup, if_neg hp] at h
      exact List.mem_cons_of_mem _ (ih h)

theorem mem_alookup_of_nodup {α : Type} (l : List (Key × α))
    (hn : (l.map Prod.fst).Nodup) (k : Key) (a : α) (h : (k, a) ∈ l) :
    alookup l k = some a := by
  induction l with
  | nil => simp at h
  | cons p ps ih =>
    simp only [List.map_cons, List.nodup_cons] at hn
    rcases List.mem_cons.mp h with hh | hh
    · simp [← hh, alookup]
    · have hk : k ∈ ps.map Prod.fst := List.mem_map.mpr ⟨(k, a), hh, rfl⟩
      have hp : p.1 ≠ k := fun e => hn.1 (e ▸ hk)
      simp only [alookup, if_neg hp]
      exact ih hn.2 hh

theorem alookup_map_inplace {α : Type} (l : List (Key × α)) (k k' : Key) (f : α → α) :
    alookup (l.map fun p => if p.1 = k then (p.1, f p.2) else p) k' =
      if k' = k then (alookup l k').map f else alookup l k' := by
  induction l with
  | nil => by_cases hk : k' = k <;> simp [alookup, hk]
  | cons p ps ih =>
    simp only [List.map_cons]
    by_cases hp : p.1 = k
    · rw [if_pos hp]
      by_cases hp' : p.1 = k'
      · have hk : k' = k := hp' ▸ hp
        rw [if_pos hk]
        simp only [alookup]
        rw [if_pos hp', if_pos hp']
        rfl
      · simp only [alookup, if_neg hp']
        exact ih
    · rw [if_neg hp]
      by_cases hp' : p.1 = k'
      · have hk : ¬k' = k := fun e => hp (by rw [hp', e])
        simp only [alookup, if_pos hp', if_neg hk]
      · simp only [alookup, if_neg hp']
        exact ih

theorem get_vertex_modify (g : Graph) (k k' : Key) (f : Vertex → Vertex) :
    (g.modifyVertex k f).get_vertex k' =
      if k' = k then (g.get_vertex k').map f else g.get_vertex k' :=
  alookup_map_inplace g.vertices k k' f

theorem modify_keys (g : Graph) (k : Key) (f : Vertex → Vertex) :
    (g.modifyVertex k f).vertices.map Prod.fst = g.vertices.map Prod.fst := by
  unfold Graph.modifyVertex
  induction g.vertices with
  | nil => simp
  | cons p ps ih =>
    by_cases hp : p.1 = k <;> simp [hp, ih]

theorem modify_num (g : Graph) (k : Key) (f : Vertex → Vertex) :
    (g.modifyVertex k f).num_vertices = g.num_vertices := rfl

theorem modify_directed (g : Graph) (k : Key) (f : Vertex → Vertex) :
    (g.modifyVertex k f).directed = g.directed := rfl

/-!  Claim C4: the concrete Dijkstra scenario. -/

/-- C4, counterexample: on the demo graph, `dijkstra(0)` puts `dist[0]` at
vertex 3 to 12 (via 0→5→2→3) and at vertex 4 to 10 (via 0→5→4), not the 5
and 8 the claim lists; the run is evaluated in full. -/
theorem dijkstra_demo_counterexample :
    (demoGraph.dijkstra 0 100).map (fun g =>
        (g.distOf 0 0, g.distOf 1 0, g.distOf 2 0, g.distOf 3 0, g.distOf 4 0, g.distOf 5 0)) =
      some (0, 5, 3, 12, 10, 2) ∧
    some ((0, 5, 3, 12, 10, 2) : Int × Int × Int × Int × Int × Int) ≠
      some ((0, 5, 3, 5, 8, 2) : Int × Int × Int × Int × Int × Int) :=
  ⟨by decide, by decide⟩

/-- C4, amended: on the 6-vertex demo graph, `dijkstra(0)` terminates and
yields `dist`-from-0 values `0:0, 1:5, 2:3, 3:12, 4:10, 5:2`. -/
theorem dijkstra_demo_distances :
    (demoGraph.dijkstra 0 100).map (fun g =>
        (g.distOf 0 0, g.distOf 1 0, g.distOf 2 0, g.distOf 3 0, g.distOf 4 0, g.distOf 5 0)) =
      some (0, 5, 3, 12, 10, 2) := by
  decide

/-!  Claim C5: `print_path`. -/

theorem print_path_util_deadChain (g : Graph) (s : Key) :
    ∀ (cs : List Key) (d : Key) (fuel : Nat), deadChain g s (d :: cs) = true →
      (d :: cs).length < fuel →
      g.print_path_util s d fuel =
        some (PTok.noPath s (cs.getLastD d) :: (d :: cs).dropLast.reverse.map PTok.vid) := by
  intro cs
  induction cs with
  | nil =>
    intro d fuel hch hf
    simp only [deadChain, Bool.and_eq_true, bne_iff_ne, Bool.not_eq_true',
      beq_iff_eq, beq_eq_false_iff_ne] at hch
    obtain ⟨⟨hds, hsome⟩, hpred⟩ := hch
    obtain ⟨f, rfl⟩ : ∃ f, fuel = f + 1 := ⟨fuel - 1, by omega⟩
    obtain ⟨v, hv⟩ := Option.isSome_iff_exists.mp hsome
    have hsd : ¬s = d := by
      intro e
      apply hds
      rw [e]
    have hvp : v.predecessor = none := by
      unfold Graph.predOf at hpred
      rw [hv] at hpred
      simpa using hpred
    simp only [Graph.print_path_util, if_neg hsd, hv, hvp]
    simp [List.getLastD]
  | cons c cs' ih =>
    intro d fuel hch hf
    simp only [deadChain, Bool.and_eq_true] at hch
    obtain ⟨⟨⟨hds, hsome⟩, hpred⟩, hrest⟩ := hch
    obtain ⟨f, rfl⟩ : ∃ f, fuel = f + 1 := ⟨fuel - 1, by omega⟩
    obtain ⟨v, hv⟩ := Option.isSome_iff_exists.mp hsome
    have hsd : ¬s = d := by
      intro e
      simp [e] at hds
    have hvp : v.predecessor = some c := by
      unfold Graph.predOf at hpred
      rw [hv] at hpred
      simpa using hpred
    have hf' : (c :: cs').length < f := by
      simp only [List.length_cons] at hf ⊢
      omega
    have hrec := ih c f hrest hf'
    simp only [Graph.print_path_util, if_neg hsd, hv, hvp, hrec]
    have hlast : (c :: cs').getLastD d = cs'.getLastD c := List.getLastD_cons d c cs'
    have hdrop : (d :: c :: cs').dropLast = d :: (c :: cs').dropLast := rfl
    rw [hlast, hdrop]
    simp

/-- C5, counterexample: in the graph where `0` is isolated and `1 → 2`,
after `bfs(1)` the predecessor chain of `2` is `2 → 1 → ∅` and never meets
`0`; `print_path(0, 2)` prints the "no path" line (about `0` and `1`) and
then still prints `2` — a partial path — because the recursive frames
unwind after the report.  So the output is not just the no-path report. -/
theorem print_path_partial_counterexample :
    ((strayGraph.bfs 1).map fun g => g.print_path 0 2 9) =
      some (some [PTok.noPath 0 1, PTok.vid 2]) ∧
    ¬∃ a b : Key, ([PTok.noPath 0 1, PTok.vid 2] : List PTok) = [PTok.noPath a b] := by
  constructor
  · decide
  · rintro ⟨a, b, h⟩
    simp at h

/-- C5, amended: with both endpoints present, `print_path(s, s)` emits
exactly the single-element path `[s]`; and when the destination's
predecessor chain `d :: cs` ends (at `(d :: cs).getLast`) without reaching
the source, the output is the "no path" line — naming the chain's end, not
the requested destination — followed by the ids of the rest of the chain in
reverse (chain-to-destination) order, i.e. a partial path is printed after
the report. -/
theorem print_path_spec (g : Graph) (s : Key) :
    (∀ d fuel, (g.get_vertex s).isSome = true → s = d → 0 < fuel →
        g.print_path s d fuel = some [PTok.vid s]) ∧
    (∀ d cs fuel, (g.get_vertex s).isSome = true → deadChain g s (d :: cs) = true →
        (d :: cs).length < fuel →
        g.print_path s d fuel =
          some (PTok.noPath s (cs.getLastD d) :: (d :: cs).dropLast.reverse.map PTok.vid)) := by
  constructor
  · intro d fuel hs hsd hfuel
    obtain ⟨f, rfl⟩ : ∃ f, fuel = f + 1 := ⟨fuel - 1, by omega⟩
    obtain ⟨v, hv⟩ := Option.isSome_iff_exists.mp hs
    subst hsd
    unfold Graph.print_path
    rw [hv]
    simp [Graph.print_path_util]
  · intro d cs fuel hs hch hf
    obtain ⟨vs, hvs⟩ := Option.isSome_iff_exists.mp hs
    have hd : ∃ vd, g.get_vertex d = some vd := by
      cases cs with
      | nil =>
        simp only [deadChain, Bool.and_eq_true] at hch
        exact Option.isSome_iff_exists.mp hch.1.2
      | cons c cs' =>
        simp only [deadChain, Bool.and_eq_true] at hch
        exact Option.isSome_iff_exists.mp hch.1.1.2
    obtain ⟨vd, hvd⟩ := hd
    unfold Graph.print_path
    rw [hvs, hvd]
    exact print_path_util_deadChain g s cs d fuel hch hf

/-- C5, witness: the amended theorem applied to the `strayGraph` run after
`bfs(1)`, with all hypotheses discharged concretely. -/
theorem print_path_spec_witness :
    ((((strayGraph.bfs 1).getD strayGraph).get_vertex 0).isSome = true ∧
      deadChain ((strayGraph.bfs 1).getD strayGraph) 0 (2 :: [1]) = true ∧
      ((strayGraph.bfs 1).getD strayGraph).print_path 0 2 9 =
        some (PTok.noPath 0 1 :: [PTok.vid 2])) ∧
    ((((strayGraph.bfs 1).getD strayGraph).get_vertex 0).isSome = true ∧
      ((strayGraph.bfs 1).getD strayGraph).print_path 0 0 9 = some [PTok.vid 0]) :=
  ⟨⟨by decide, by decide,
      (print_path_spec ((strayGraph.bfs 1).getD strayGraph) 0).2 2 [1] 9
        (by decide) (by decide) (by decide)⟩,
   ⟨by decide,
      (print_path_spec ((strayGraph.bfs 1).getD strayGraph) 0).1 0 9
        (by decide) rfl (by decide)⟩⟩

/-!  Claim C6: `add_edges` versus `add_edge`. -/

/-- C6: `add_edges` passes each edge tuple as a *single* positional
argument to the variadic `add_edge`, so the unpack
`vertex_1, vertex_2, *cost = edge` receives a one-element tuple and raises
`ValueError` on every non-empty list — no edge is ever added. -/
theorem add_edges_always_raises (g : Graph) (e : List Int) (es : List (List Int)) :
    g.add_edges (e :: es) =
      Except.error "ValueError: not enough values to unpack (expected at least 2, got 1)" :=
  rfl

/-!  Claim C10: the `num_vertices` counter. -/

theorem modify_length (g : Graph) (k : Key) (f : Vertex → Vertex) :
    (g.modifyVertex k f).vertices.length = g.vertices.length := by
  unfold Graph.modifyVertex
  simp

theorem add_vertex_num (g : Graph) (k : Key) :
    (g.add_vertex k).num_vertices = g.num_vertices + 1 := rfl

theorem add_vertex_length_present (g : Graph) (k : Key)
    (h : (alookup g.vertices k).isSome = true) :
    (g.add_vertex k).vertices.length = g.vertices.length :=
  aset_length_of_mem g.vertices k _ h

theorem add_vertex_length_absent (g : Graph) (k : Key)
    (h : alookup g.vertices k = none) :
    (g.add_vertex k).vertices.length = g.vertices.length + 1 :=
  aset_length_of_absent g.vertices k _ h

theorem counts_step_if_add (g : Graph) (k : Key) :
    (if (g.get_vertex k).isNone then g.add_vertex k else g).num_vertices +
        g.vertices.length =
      g.num_vertices +
        (if (g.get_vertex k).isNone then g.add_vertex k else g).vertices.length := by
  by_cases h : (g.get_vertex k).isNone
  · have ha : alookup g.vertices k = none := by
      unfold Graph.get_vertex at h
      exact Option.isNone_iff_eq_none.mp h
    rw [if_pos h, add_vertex_num, add_vertex_length_absent g k ha]
    omega
  · rw [if_neg h]

theorem add_edge_core_counts (g : Graph) (k1 k2 : Key) (w : Option Int) :
    (g.add_edge_core k1 k2 w).num_vertices + g.vertices.length =
      g.num_vertices + (g.add_edge_core k1 k2 w).vertices.length := by
  unfold Graph.add_edge_core
  dsimp only
  have s1 := counts_step_if_add g k1
  generalize hg1 : (if (g.get_vertex k1).isNone then g.add_vertex k1 else g) = g1 at *
  have s2 := counts_step_if_add g1 k2
  generalize hg2 : (if (g1.get_vertex k2).isNone then g1.add_vertex k2 else g1) = g2 at *
  have s3n : (g2.modifyVertex k1 fun v => v.add_neighbour k2 (w.getD 0)).num_vertices =
      g2.num_vertices := modify_num _ _ _
  have s3l : (g2.modifyVertex k1 fun v => v.add_neighbour k2 (w.getD 0)).vertices.length =
      g2.vertices.length := modify_length _ _ _
  generalize hg3 : (g2.modifyVertex k1 fun v => v.add_neighbour k2 (w.getD 0)) = g3 at *
  by_cases hd : g3.directed
  · rw [if_pos hd]
    omega
  · rw [if_neg hd, modify_num, modify_length]
    omega

theorem foldl_counts_eq :
    ∀ (ops : List BuildOp) (g : Graph),
      g.num_vertices = g.vertices.length → noDupAdds g ops = true →
      (ops.foldl applyOp g).num_vertices = (ops.foldl applyOp g).vertices.length := by
  intro ops
  induction ops with
  | nil => intro g h _; exact h
  | cons op rest ih =>
    intro g h hnd
    match op with
    | .addV k =>
      simp only [noDupAdds, Bool.and_eq_true, beq_iff_eq] at hnd
      have h' : (g.add_vertex k).num_vertices = (g.add_vertex k).vertices.length := by
        rw [add_vertex_num, add_vertex_length_absent g k hnd.1, h]
      exact ih (g.add_vertex k) h' hnd.2
    | .addEg k1 k2 w =>
      simp only [noDupAdds] at hnd
      have hc := add_edge_core_counts g k1 k2 w
      have h' : (g.add_edge_core k1 k2 w).num_vertices =
          (g.add_edge_core k1 k2 w).vertices.length := by omega
      exact ih _ h' hnd

theorem foldl_counts_lt :
    ∀ (ops : List BuildOp) (g : Graph),
      g.vertices.length < g.num_vertices →
      (ops.foldl applyOp g).vertices.length < (ops.foldl applyOp g).num_vertices := by
  intro ops
  induction ops with
  | nil => intro g h; exact h
  | cons op rest ih =>
    intro g h
    match op with
    | .addV k =>
      simp only [List.foldl_cons, applyOp]
      apply ih
      rcases hk : alookup g.vertices k with _ | v
      · rw [add_vertex_num, add_vertex_length_absent g k hk]
        omega
      · rw [add_vertex_num, add_vertex_length_present g k (by rw [hk]; rfl)]
        omega
    | .addEg k1 k2 w =>
      simp only [List.foldl_cons, applyOp]
      apply ih
      have hc := add_edge_core_counts g k1 k2 w
      omega

theorem foldl_counts_of_dup :
    ∀ (ops : List BuildOp) (g : Graph),
      g.num_vertices = g.vertices.length → noDupAdds g ops = false →
      (ops.foldl applyOp g).vertices.length < (ops.foldl applyOp g).num_vertices := by
  intro ops
  induction ops with
  | nil => intro g _ hnd; simp [noDupAdds] at hnd
  | cons op rest ih =>
    intro g h hnd
    match op with
    | .addV k =>
      simp only [noDupAdds, Bool.and_eq_false_iff] at hnd
      simp only [List.foldl_cons, applyOp]
      rcases hk : alookup g.vertices k with _ | v
      · rcases hnd with hnd | hnd
        · rw [hk] at hnd
          simp at hnd
        · apply ih (g.add_vertex k) _ hnd
          rw [add_vertex_num, add_vertex_length_absent g k hk, h]
      · apply foldl_counts_lt
        rw [add_vertex_num, add_vertex_length_present g k (by rw [hk]; rfl)]
        omega
    | .addEg k1 k2 w =>
      simp only [noDupAdds] at hnd
      simp only [List.foldl_cons, applyOp]
      have hc := add_edge_core_counts g k1 k2 w
      exact ih _ (by omega) hnd

/-- C10: (a) `num_vertices` equals the stored vertex count iff no build step
ever called `add_vertex` (directly — `add_edge` only auto-creates fresh keys)
with a key already present; (b) `add_vertex` on an existing key replaces the
stored `Vertex` with a fresh one (empty adjacency, WHITE, no predecessor,
no distances) while still incrementing `num_vertices` and leaving the stored
count unchanged; (c) on the duplicate-build graph `dupGraph` (3 stored
vertices, counter 4) `bellman_ford(9)` runs `num_vertices - 1 = 3`
relaxation passes over the negative cycle, leaving `dist[9]` at vertex 1 at
`maxsize - 6`, whereas `storedcount - 1 = 2` passes would leave
`maxsize - 4` — the pass count comes from the counter, not the actual
vertex count. -/
theorem counter_semantics :
    (∀ (d : Bool) (ops : List BuildOp),
        (buildGraph d ops).num_vertices = (buildGraph d ops).vertices.length ↔
          noDupAdds (Graph.init d) ops = true) ∧
    (∀ (g : Graph) (k : Key), (alookup g.vertices k).isSome = true →
        (g.add_vertex k).get_vertex k = some (Vertex.init k) ∧
        (g.add_vertex k).num_vertices = g.num_vertices + 1 ∧
        (g.add_vertex k).vertices.length = g.vertices.length) ∧
    ((dupGraph.num_vertices = 4 ∧ dupGraph.vertices.length = 3) ∧
      (dupGraph.bellman_ford 9).map (fun r => (r.2, r.1.distOf 1 9)) =
        some (true, maxsize - 6) ∧
      ((fun h => h.bf_pass 9)^[dupGraph.vertices.length - 1]
          (dupGraph.initialize_single_source 9)).distOf 1 9 = maxsize - 4 ∧
      (maxsize - 6 : Int) ≠ maxsize - 4) := by
  refine ⟨?_, ?_, ?_⟩
  · intro d ops
    constructor
    · intro h
      by_contra hnd
      have hnd' : noDupAdds (Graph.init d) ops = false :=
        Bool.not_eq_true _ ▸ (Bool.eq_false_iff.mpr hnd)
      have := foldl_counts_of_dup ops (Graph.init d) rfl hnd'
      unfold buildGraph at h
      omega
    · intro h
      exact foldl_counts_eq ops (Graph.init d) rfl h
  · intro g k h
    exact ⟨alookup_aset_self g.vertices k _, rfl, add_vertex_length_present g k h⟩
  · exact ⟨⟨rfl, rfl⟩, by decide, by decide, by decide⟩

/-- C10, witness: the second conjunct applied to `dupGraph` and key 9,
whose lookup hypothesis is discharged concretely. -/
theorem counter_semantics_witness :
    (alookup dupGraph.vertices 9).isSome = true ∧
      ((dupGraph.add_vertex 9).get_vertex 9 = some (Vertex.init 9) ∧
        (dupGraph.add_vertex 9).num_vertices = dupGraph.num_vertices + 1 ∧
        (dupGraph.add_vertex 9).vertices.length = dupGraph.vertices.length) :=
  ⟨by decide, counter_semantics.2.1 dupGraph 9 (by decide)⟩

/-!  Claim C7: `get_edges`. -/

theorem aset_append_of_absent {α : Type} (l : List (Key × α)) (k : Key) (a : α)
    (h : alookup l k = none) : aset l k a = l ++ [(k, a)] := by
  induction l with
  | nil => simp [aset]
  | cons p ps ih =>
    by_cases hp : p.1 = k
    · simp [alookup, hp] at h
    · simp only [alookup, if_neg hp] at h
      simp [aset, hp, ih h]

theorem edgeW_not_stored_left (g : Graph) (u v : Key)
    (h : alookup g.vertices u = none) : edgeW g u v = none := by
  unfold edgeW
  rw [h]

theorem edgeW_not_stored_right (g : Graph) (hwf : WF g) (u v : Key)
    (h : alookup g.vertices u = none) : edgeW g v u = none := by
  unfold edgeW
  rcases hv : alookup g.vertices v with _ | vx
  · rfl
  · rcases ha : alookup vx.connected_to u with _ | w
    · exact ha
    · exfalso
      have hmem : (v, vx) ∈ g.vertices := alookup_mem _ _ _ hv
      have hadj : (u, w) ∈ vx.connected_to := alookup_mem _ _ _ ha
      have := hwf.2.2.1 (v, vx) hmem (u, w) hadj
      rw [h] at this
      simp at this

theorem edgeW_add_vertex_absent (g : Graph) (k : Key)
    (h : alookup g.vertices k = none) (u v : Key) :
    edgeW (g.add_vertex k) u v = edgeW g u v := by
  unfold edgeW Graph.add_vertex
  by_cases hu : u = k
  · subst hu
    rw [h]
    simp only [alookup_aset_self]
    simp [Vertex.init]
    rfl
  · simp only [alookup_aset_ne g.vertices k u _ hu]

theorem edgeW_if_add (g : Graph) (k : Key) (u v : Key) :
    edgeW (if (g.get_vertex k).isNone then g.add_vertex k else g) u v = edgeW g u v := by
  by_cases h : (g.get_vertex k).isNone
  · rw [if_pos h]
    exact edgeW_add_vertex_absent g k (Option.isNone_iff_eq_none.mp h) u v
  · rw [if_neg h]

theorem edgeW_modify_nbr (g : Graph) (a b : Key) (w : Int) (u v : Key) :
    edgeW (g.modifyVertex a fun vx => vx.add_neighbour b w) u v =
      if u = a ∧ (alookup g.vertices a).isSome = true then
        (if v = b then some w else edgeW g u v)
      else edgeW g u v := by
  have hm : alookup (g.modifyVertex a fun vx => vx.add_neighbour b w).vertices u =
      if u = a then (alookup g.vertices u).map (fun vx => vx.add_neighbour b w)
      else alookup g.vertices u := get_vertex_modify g a u _
  unfold edgeW
  rw [hm]
  by_cases hu : u = a
  · rw [if_pos hu, hu]
    rcases ha : alookup g.vertices a with _ | va
    · simp
    · have hcond : a = a ∧ (some va).isSome = true := ⟨rfl, rfl⟩
      rw [if_pos hcond]
      by_cases hv : v = b
      · rw [if_pos hv, hv]
        show alookup (aset va.connected_to b w) b = some w
        exact alookup_aset_self _ _ _
      · rw [if_neg hv]
        show alookup (aset va.connected_to b w) v = alookup va.connected_to v
        exact alookup_aset_ne _ _ _ _ hv
  · rw [if_neg hu]
    have hcond : ¬(u = a ∧ (alookup g.vertices a).isSome = true) := fun hc => hu hc.1
    rw [if_neg hcond]

theorem mem_aset {α : Type} (l : List (Key × α)) (k : Key) (a : α) :
    ∀ q ∈ aset l k a, q = (k, a) ∨ q ∈ l := by
  induction l with
  | nil =>
    intro q hq
    simp [aset] at hq
    exact Or.inl hq
  | cons p ps ih =>
    intro q hq
    by_cases hp : p.1 = k
    · simp only [aset, if_pos hp] at hq
      rcases List.mem_cons.mp hq with h | h
      · exact Or.inl (by rw [h, hp])
      · exact Or.inr (List.mem_cons_of_mem _ h)
    · simp only [aset, if_neg hp] at hq
      rcases List.mem_cons.mp hq with h | h
      · exact Or.inr (h ▸ List.mem_cons_self p ps)
      · rcases ih q h with h' | h'
        · exact Or.inl h'
        · exact Or.inr (List.mem_cons_of_mem _ h')

theorem present_aset {α : Type} (l : List (Key × α)) (k x : Key) (a : α)
    (h : (alookup l x).isSome = true) : (alookup (aset l k a) x).isSome = true := by
  by_cases hx : x = k
  · subst hx
    rw [alookup_aset_self]
    rfl
  · rw [alookup_aset_ne l k x a hx]
    exact h

theorem present_if_add_self (g : Graph) (k : Key) :
    (alookup (if (g.get_vertex k).isNone then g.add_vertex k else g).vertices k).isSome =
      true := by
  by_cases h : (g.get_vertex k).isNone
  · rw [if_pos h]
    show (alookup (aset g.vertices k (Vertex.init k)) k).isSome = true
    rw [alookup_aset_self]
    rfl
  · rw [if_neg h]
    unfold Graph.get_vertex at h
    cases hx : alookup g.vertices k with
    | none => rw [hx] at h; simp at h
    | some v => rfl

theorem present_if_add_mono (g : Graph) (k x : Key)
    (h : (alookup g.vertices x).isSome = true) :
    (alookup (if (g.get_vertex k).isNone then g.add_vertex k else g).vertices x).isSome =
      true := by
  by_cases hk : (g.get_vertex k).isNone
  · rw [if_pos hk]
    exact present_aset g.vertices k x _ h
  · rw [if_neg hk]
    exact h

theorem present_modify (g : Graph) (k x : Key) (f : Vertex → Vertex) :
    (alookup (g.modifyVertex k f).vertices x).isSome = (alookup g.vertices x).isSome := by
  by_cases hm : (alookup g.vertices x).isSome = true
  · rw [hm]
    rw [alookup_isSome_iff_mem_keys] at hm ⊢
    rwa [modify_keys]
  · have h1 : (alookup g.vertices x).isSome = false := Bool.not_eq_true _ ▸ Bool.eq_false_iff.mpr hm
    rw [h1]
    rw [Bool.eq_false_iff]
    intro hc
    apply hm
    rw [alookup_isSome_iff_mem_keys] at hc ⊢
    rwa [modify_keys] at hc

theorem directed_if_add (g : Graph) (k : Key) :
    (if (g.get_vertex k).isNone then g.add_vertex k else g).directed = g.directed := by
  by_cases h : (g.get_vertex k).isNone
  · rw [if_pos h]
    rfl
  · rw [if_neg h]

theorem directed_add_edge_core (g : Graph) (k1 k2 : Key) (cost : Option Int) :
    (g.add_edge_core k1 k2 cost).directed = g.directed := by
  unfold Graph.add_edge_core
  dsimp only
  generalize hG1 : (if (g.get_vertex k1).isNone then g.add_vertex k1 else g) = g1
  generalize hG2 : (if (g1.get_vertex k2).isNone then g1.add_vertex k2 else g1) = g2
  generalize hG3 : (g2.modifyVertex k1 fun v => v.add_neighbour k2 (cost.getD 0)) = g3
  have hdd : g3.directed = g.directed := by
    rw [← hG3, ← hG2, ← hG1, modify_directed, directed_if_add, directed_if_add]
  by_cases hd : g3.directed
  · rw [if_pos hd]
    exact hdd
  · rw [if_neg hd, modify_directed]
    exact hdd

/-- Under well-formedness, symmetry over the stored keys extends to all
keys: edges only run between stored vertices. -/
theorem edgeW_symm_total (g : Graph) (hwf : WF g) (hs : SymAdjB g) :
    ∀ u v, edgeW g u v = edgeW g v u := by
  intro u v
  rcases hu : alookup g.vertices u with _ | vu
  · rw [edgeW_not_stored_left g u v hu, edgeW_not_stored_right g hwf u v hu]
  · rcases hv : alookup g.vertices v with _ | vv
    · rw [edgeW_not_stored_left g v u hv, edgeW_not_stored_right g hwf v u hv]
    · apply hs
      · rw [← alookup_isSome_iff_mem_keys, hu]
        rfl
      · rw [← alookup_isSome_iff_mem_keys, hv]
        rfl

/-- The complete adjacency effect of `add_edge`: the `k1 → k2` entry is set
to the weight, the mirror entry too when the graph is undirected, and every
other entry is untouched. -/
theorem edgeW_add_edge_core (g : Graph) (k1 k2 : Key) (cost : Option Int) (u v : Key) :
    edgeW (g.add_edge_core k1 k2 cost) u v =
      if g.directed = false ∧ u = k2 ∧ v = k1 then some (cost.getD 0)
      else if u = k1 ∧ v = k2 then some (cost.getD 0)
      else edgeW g u v := by
  unfold Graph.add_edge_core
  dsimp only
  generalize hG1 : (if (g.get_vertex k1).isNone then g.add_vertex k1 else g) = g1
  generalize hG2 : (if (g1.get_vertex k2).isNone then g1.add_vertex k2 else g1) = g2
  have e1 : ∀ x y, edgeW g1 x y = edgeW g x y := fun x y => by
    rw [← hG1]
    exact edgeW_if_add g k1 x y
  have e2 : ∀ x y, edgeW g2 x y = edgeW g x y := fun x y => by
    rw [← hG2, edgeW_if_add]
    exact e1 x y
  have p1 : (alookup g2.vertices k1).isSome = true := by
    rw [← hG2]
    exact present_if_add_mono g1 k2 k1 (by rw [← hG1]; exact present_if_add_self g k1)
  generalize hG3 : (g2.modifyVertex k1 fun vx => vx.add_neighbour k2 (cost.getD 0)) = g3
  have e3 : ∀ x y, edgeW g3 x y =
      if x = k1 then (if y = k2 then some (cost.getD 0) else edgeW g x y)
      else edgeW g x y := by
    intro x y
    rw [← hG3, edgeW_modify_nbr]
    by_cases hx : x = k1
    · rw [if_pos ⟨hx, p1⟩, if_pos hx]
      by_cases hy : y = k2
      · rw [if_pos hy, if_pos hy]
      · rw [if_neg hy, if_neg hy, e2]
    · rw [if_neg (fun hc : x = k1 ∧ _ => hx hc.1), if_neg hx, e2]
  have p2 : (alookup g3.vertices k2).isSome = true := by
    rw [← hG3, present_modify, ← hG2]
    exact present_if_add_self g1 k2
  have hdd : g3.directed = g.directed := by
    rw [← hG3, ← hG2, ← hG1, modify_directed, directed_if_add, directed_if_add]
  by_cases hd : g.directed
  · rw [if_pos (show g3.directed = true by rw [hdd]; exact hd)]
    have hdf : ¬(g.directed = false ∧ u = k2 ∧ v = k1) := fun hc => by
      rw [hd] at hc
      exact absurd hc.1 (by simp)
    rw [if_neg hdf, e3]
    by_cases h1 : u = k1
    · rw [if_pos h1]
      by_cases h2 : v = k2
      · rw [if_pos h2, if_pos ⟨h1, h2⟩]
      · rw [if_neg h2, if_neg (fun hc : u = k1 ∧ v = k2 => h2 hc.2)]
    · rw [if_neg h1, if_neg (fun hc : u = k1 ∧ v = k2 => h1 hc.1)]
  · have hdf : g.directed = false := Bool.not_eq_true _ ▸ Bool.eq_false_iff.mpr hd
    rw [if_neg (show ¬g3.directed = true by rw [hdd, hdf]; simp)]
    rw [edgeW_modify_nbr]
    by_cases h1 : u = k2
    · rw [if_pos ⟨h1, p2⟩]
      by_cases h2 : v = k1
      · rw [if_pos h2, if_pos ⟨hdf, h1, h2⟩]
      · rw [if_neg h2,
          if_neg (fun hc : g.directed = false ∧ u = k2 ∧ v = k1 => h2 hc.2.2), e3]
        by_cases h3 : u = k1
        · rw [if_pos h3]
          by_cases h4 : v = k2
          · rw [if_pos h4, if_pos ⟨h3, h4⟩]
          · rw [if_neg h4, if_neg (fun hc : u = k1 ∧ v = k2 => h4 hc.2)]
        · rw [if_neg h3, if_neg (fun hc : u = k1 ∧ v = k2 => h3 hc.1)]
    · rw [if_neg (fun hc : u = k2 ∧ _ => h1 hc.1),
        if_neg (fun hc : g.directed = false ∧ u = k2 ∧ v = k1 => h1 hc.2.1), e3]
      by_cases h3 : u = k1
      · rw [if_pos h3]
        by_cases h4 : v = k2
        · rw [if_pos h4, if_pos ⟨h3, h4⟩]
        · rw [if_neg h4, if_neg (fun hc : u = k1 ∧ v = k2 => h4 hc.2)]
      · rw [if_neg h3, if_neg (fun hc : u = k1 ∧ v = k2 => h3 hc.1)]

theorem WF_add_vertex_absent (g : Graph) (k : Key) (hwf : WF g)
    (h : alookup g.vertices k = none) : WF (g.add_vertex k) := by
  unfold WF at hwf ⊢
  obtain ⟨hnd, hids, hcl, han, hcnt⟩ := hwf
  have happ : (g.add_vertex k).vertices = g.vertices ++ [(k, Vertex.init k)] :=
    aset_append_of_absent g.vertices k _ h
  refine ⟨?_, ?_, ?_, ?_, ?_⟩
  · rw [happ]
    simp only [List.map_append, List.map_cons, List.map_nil]
    rw [List.nodup_append]
    refine ⟨hnd, List.nodup_singleton _, ?_⟩
    intro x hx hk
    simp only [List.mem_singleton] at hk
    subst hk
    rw [alookup_eq_none_iff] at h
    exact h hx
  · intro p hp
    rw [happ] at hp
    rcases List.mem_append.mp hp with h1 | h1
    · exact hids p h1
    · simp only [List.mem_singleton] at h1
      rw [h1]
      rfl
  · intro p hp q hq
    rw [happ] at hp
    rcases List.mem_append.mp hp with h1 | h1
    · exact present_aset g.vertices k q.1 _ (hcl p h1 q hq)
    · simp only [List.mem_singleton] at h1
      rw [h1] at hq
      simp [Vertex.init] at hq
  · intro p hp
    rw [happ] at hp
    rcases List.mem_append.mp hp with h1 | h1
    · exact han p h1
    · simp only [List.mem_singleton] at h1
      rw [h1]
      simp [Vertex.init]
  · show g.num_vertices + 1 = (aset g.vertices k (Vertex.init k)).length
    rw [aset_length_of_absent g.vertices k _ h, hcnt]

theorem WF_modify_nbr (g : Graph) (a b : Key) (w : Int) (hwf : WF g)
    (hb : (alookup g.vertices b).isSome = true) :
    WF (g.modifyVertex a fun vx => vx.add_neighbour b w) := by
  unfold WF at hwf ⊢
  obtain ⟨hnd, hids, hcl, han, hcnt⟩ := hwf
  have hmem : ∀ p ∈ (g.modifyVertex a fun vx => vx.add_neighbour b w).vertices,
      ∃ q ∈ g.vertices, p = if q.1 = a then (q.1, q.2.add_neighbour b w) else q := by
    intro p hp
    obtain ⟨q, hq, he⟩ := List.mem_map.mp hp
    exact ⟨q, hq, he.symm⟩
  refine ⟨?_, ?_, ?_, ?_, ?_⟩
  · rw [modify_keys]
    exact hnd
  · intro p hp
    obtain ⟨q, hq, he⟩ := hmem p hp
    by_cases hqa : q.1 = a
    · rw [he, if_pos hqa]
      exact hids q hq
    · rw [he, if_neg hqa]
      exact hids q hq
  · intro p hp q hq
    obtain ⟨r, hr, he⟩ := hmem p hp
    rw [present_modify]
    by_cases hra : r.1 = a
    · rw [he, if_pos hra] at hq
      rcases mem_aset r.2.connected_to b w q hq with h1 | h1
      · rw [h1]
        exact hb
      · exact hcl r hr q h1
    · rw [he, if_neg hra] at hq
      exact hcl r hr q hq
  · intro p hp
    obtain ⟨r, hr, he⟩ := hmem p hp
    by_cases hra : r.1 = a
    · rw [he, if_pos hra]
      show ((aset r.2.connected_to b w).map Prod.fst).Nodup
      rcases hlb : alookup r.2.connected_to b with _ | w0
      · rw [aset_keys_of_absent _ _ _ hlb]
        rw [List.nodup_append]
        refine ⟨han r hr, List.nodup_singleton _, ?_⟩
        intro x hx hbx
        simp only [List.mem_singleton] at hbx
        subst hbx
        rw [alookup_eq_none_iff] at hlb
        exact hlb hx
      · rw [aset_keys_of_mem _ _ _ (by rw [hlb]; rfl)]
        exact han r hr
    · rw [he, if_neg hra]
      exact han r hr
  · rw [modify_length]
    exact hcnt

theorem WF_add_edge_core (g : Graph) (k1 k2 : Key) (cost : Option Int)
    (hwf : WF g) : WF (g.add_edge_core k1 k2 cost) := by
  unfold Graph.add_edge_core
  dsimp only
  generalize hG1 : (if (g.get_vertex k1).isNone then g.add_vertex k1 else g) = g1
  have w1 : WF g1 := by
    rw [← hG1]
    by_cases h : (g.get_vertex k1).isNone
    · rw [if_pos h]
      exact WF_add_vertex_absent g k1 hwf (Option.isNone_iff_eq_none.mp h)
    · rw [if_neg h]
      exact hwf
  generalize hG2 : (if (g1.get_vertex k2).isNone then g1.add_vertex k2 else g1) = g2
  have w2 : WF g2 := by
    rw [← hG2]
    by_cases h : (g1.get_vertex k2).isNone
    · rw [if_pos h]
      exact WF_add_vertex_absent g1 k2 w1 (Option.isNone_iff_eq_none.mp h)
    · rw [if_neg h]
      exact w1
  have p1 : (alookup g2.vertices k1).isSome = true := by
    rw [← hG2]
    exact present_if_add_mono g1 k2 k1 (by rw [← hG1]; exact present_if_add_self g k1)
  have p2 : (alookup g2.vertices k2).isSome = true := by
    rw [← hG2]
    exact present_if_add_self g1 k2
  have w3 : WF (g2.modifyVertex k1 fun vx => vx.add_neighbour k2 (cost.getD 0)) :=
    WF_modify_nbr g2 k1 k2 _ w2 p2
  by_cases hd : (g2.modifyVertex k1 fun vx => vx.add_neighbour k2 (cost.getD 0)).directed
  · rw [if_pos hd]
    exact w3
  · rw [if_neg hd]
    apply WF_modify_nbr _ k2 k1 _ w3
    rw [present_modify]
    exact p1

theorem symAdj_add_edge_core (g : Graph) (k1 k2 : Key) (cost : Option Int)
    (hwf : WF g) (hs : SymAdjB g) (hd : g.directed = false) :
    ∀ u v, edgeW (g.add_edge_core k1 k2 cost) u v =
      edgeW (g.add_edge_core k1 k2 cost) v u := by
  intro u v
  rw [edgeW_add_edge_core, edgeW_add_edge_core]
  by_cases h1 : u = k2 <;> by_cases h2 : v = k1 <;>
    by_cases h3 : u = k1 <;> by_cases h4 : v = k2 <;>
      simp [hd, h1, h2, h3, h4] <;>
        exact edgeW_symm_total g hwf hs _ _

theorem buildGraph_undirected_invariant (ops : List BuildOp) :
    ∀ g, WF g → SymAdjB g → g.directed = false → noDupAdds g ops = true →
      WF (ops.foldl applyOp g) ∧ SymAdjB (ops.foldl applyOp g) := by
  induction ops with
  | nil => intro g h1 h2 _ _; exact ⟨h1, h2⟩
  | cons op rest ih =>
    intro g h1 h2 h3 h4
    match op with
    | .addV k =>
      simp only [noDupAdds, Bool.and_eq_true, beq_iff_eq] at h4
      simp only [List.foldl_cons, applyOp]
      apply ih
      · exact WF_add_vertex_absent g k h1 h4.1
      · intro u _ v _
        rw [edgeW_add_vertex_absent g k h4.1, edgeW_add_vertex_absent g k h4.1]
        exact edgeW_symm_total g h1 h2 u v
      · exact h3
      · exact h4.2
    | .addEg k1 k2 w =>
      simp only [noDupAdds] at h4
      simp only [List.foldl_cons, applyOp]
      apply ih
      · exact WF_add_edge_core g k1 k2 w h1
      · intro u _ v _
        exact symAdj_add_edge_core g k1 k2 w h1 h2 h3 u v
      · rw [directed_add_edge_core]
        exact h3
      · exact h4

theorem filterMap_length_of_isSome {α β : Type} (l : List α) (f : α → Option β)
    (h : ∀ x ∈ l, (f x).isSome = true) : (l.filterMap f).length = l.length := by
  induction l with
  | nil => simp
  | cons x xs ih =>
    obtain ⟨y, hy⟩ := Option.isSome_iff_exists.mp (h x (List.mem_cons_self x xs))
    rw [List.filterMap_cons, hy]
    simp only [List.length_cons]
    rw [ih fun z hz => h z (List.mem_cons_of_mem x hz)]

/-- One `(from, to, weight)` triple per adjacency entry. -/
theorem get_edges_length (g : Graph) (hwf : WF g) :
    g.get_edges.length = (g.vertices.map fun p => p.2.connected_to.length).sum := by
  unfold Graph.get_edges
  rw [List.length_flatMap]
  congr 1
  apply List.map_congr_left
  intro p hp
  apply filterMap_length_of_isSome
  intro q hq
  have := hwf.2.2.1 p hp q hq
  unfold Graph.get_vertex
  rcases hx : alookup g.vertices q.1 with _ | u
  · rw [hx] at this
    simp at this
  · rfl

/-- Membership characterisation of the `get_edges` triples: the first two
components are the stored `Vertex` objects of the endpoints, and the triple
corresponds to the adjacency entry `(to-key, weight)` in the from-object. -/
theorem mem_get_edges_iff (g : Graph) (hwf : WF g) (va vb : Vertex) (w : Int) :
    (va, vb, w) ∈ g.get_edges ↔
      alookup g.vertices va.id = some va ∧ alookup g.vertices vb.id = some vb ∧
        (vb.id, w) ∈ va.connected_to := by
  obtain ⟨hnd, hids, hcl, han, hcnt⟩ := hwf
  unfold Graph.get_edges
  rw [List.mem_flatMap]
  constructor
  · rintro ⟨p, hp, hin⟩
    rw [List.mem_filterMap] at hin
    obtain ⟨q, hq, he⟩ := hin
    rcases hu : g.get_vertex q.1 with _ | u
    · rw [hu] at he
      simp at he
    · rw [hu] at he
      simp only [Option.map_some', Option.some.injEq, Prod.mk.injEq] at he
      obtain ⟨e1, e2, e3⟩ := he
      have hpl : alookup g.vertices p.1 = some p.2 := mem_alookup_of_nodup _ hnd _ _ hp
      have hpid : p.2.id = p.1 := hids p hp
      have huid : u.id = q.1 := hids (q.1, u) (alookup_mem _ _ _ hu)
      refine ⟨?_, ?_, ?_⟩
      · rw [← e1, hpid]
        exact hpl
      · rw [← e2, huid]
        exact hu
      · have hqe : q = (vb.id, w) := by
          rw [← e2, huid, ← e3]
        rw [← e1, ← hqe]
        exact hq
  · rintro ⟨h1, h2, h3⟩
    refine ⟨(va.id, va), alookup_mem _ _ _ h1, ?_⟩
    rw [List.mem_filterMap]
    refine ⟨(vb.id, w), h3, ?_⟩
    show (g.get_vertex vb.id).map _ = _
    rw [show g.get_vertex vb.id = some vb from h2]
    rfl

theorem adj_mem_swap (g : Graph) (hwf : WF g) (hs : SymAdjB g) (va vb : Vertex)
    (w : Int) (h1 : alookup g.vertices va.id = some va)
    (h2 : alookup g.vertices vb.id = some vb) (h3 : (vb.id, w) ∈ va.connected_to) :
    (va.id, w) ∈ vb.connected_to := by
  have hana := hwf.2.2.2.1 (va.id, va) (alookup_mem _ _ _ h1)
  have hla : alookup va.connected_to vb.id = some w := mem_alookup_of_nodup _ hana _ _ h3
  have hef : edgeW g va.id vb.id = some w := by
    unfold edgeW
    rw [h1]
    exact hla
  have heb : edgeW g vb.id va.id = some w := by
    rw [← edgeW_symm_total g hwf hs va.id vb.id]
    exact hef
  unfold edgeW at heb
  rw [h2] at heb
  exact alookup_mem _ _ _ heb

/-- C7, counterexample: on the one-edge graph built by `add_edge(10, 20, 7)`,
the triple produced by `get_edges()` carries the `Vertex` objects, not the
caller-supplied integer keys 10 and 20 (the demo block must call
`.get_id()` on the components to obtain keys). -/
theorem get_edges_counterexample :
    pairGraph.get_edges_py ≠ [(GObj.intv 10, GObj.intv 20, 7)] ∧
    pairGraph.get_edges_py =
      [(GObj.vx ⟨10, [(20, 7)], [], WHITE, none⟩,
        GObj.vx ⟨20, [], [], WHITE, none⟩, 7)] :=
  ⟨by decide, by decide⟩

/-- C7, amended: `get_edges()` returns one triple per directed adjacency
entry whose first two components are the endpoint `Vertex` *objects* — the
objects stored under the caller-supplied keys, with `id` equal to those
keys — not the keys themselves; and on an undirected graph (whose adjacency
is symmetric, as every duplicate-free undirected build sequence produces)
each edge appears as two separate triples, one per direction, with
identical weight. -/
theorem get_edges_spec :
    (∀ g : Graph, WF g →
        g.get_edges.length = (g.vertices.map fun p => p.2.connected_to.length).sum) ∧
    (∀ (g : Graph) (va vb : Vertex) (w : Int), WF g →
        ((va, vb, w) ∈ g.get_edges ↔
          alookup g.vertices va.id = some va ∧ alookup g.vertices vb.id = some vb ∧
            (vb.id, w) ∈ va.connected_to)) ∧
    (∀ (g : Graph) (va vb : Vertex) (w : Int), WF g → SymAdjB g →
        ((va, vb, w) ∈ g.get_edges ↔ (vb, va, w) ∈ g.get_edges)) ∧
    (∀ ops : List BuildOp, noDupAdds (Graph.init false) ops = true →
        WF (buildGraph false ops) ∧ SymAdjB (buildGraph false ops)) := by
  refine ⟨get_edges_length, fun g va vb w hwf => mem_get_edges_iff g hwf va vb w, ?_, ?_⟩
  · intro g va vb w hwf hs
    rw [mem_get_edges_iff g hwf, mem_get_edges_iff g hwf]
    constructor
    · rintro ⟨h1, h2, h3⟩
      exact ⟨h2, h1, adj_mem_swap g hwf hs va vb w h1 h2 h3⟩
    · rintro ⟨h1, h2, h3⟩
      exact ⟨h2, h1, adj_mem_swap g hwf hs vb va w h1 h2 h3⟩
  · intro ops h
    exact buildGraph_undirected_invariant ops (Graph.init false)
      (by decide) (by decide) rfl h

/-- C7, witness: the amended theorem applied to the one-edge `pairGraph`
and to a concrete undirected build. -/
theorem get_edges_spec_witness :
    (WF pairGraph ∧
      pairGraph.get_edges.length =
        (pairGraph.vertices.map fun p => p.2.connected_to.length).sum) ∧
    (noDupAdds (Graph.init false) [BuildOp.addEg 1 2 (some 3)] = true ∧
      (WF (buildGraph false [BuildOp.addEg 1 2 (some 3)]) ∧
        SymAdjB (buildGraph false [BuildOp.addEg 1 2 (some 3)]))) :=
  ⟨⟨by decide, get_edges_spec.1 pairGraph (by decide)⟩,
   ⟨by decide, get_edges_spec.2.2.2 [BuildOp.addEg 1 2 (some 3)] (by decide)⟩⟩

/-!  Claim C8: frame effects — the algorithms only touch colour, dist and
predecessor. -/

theorem topo_modify (g : Graph) (k : Key) (f : Vertex → Vertex)
    (hf : ∀ v : Vertex, (f v).id = v.id ∧ (f v).connected_to = v.connected_to) :
    topo (g.modifyVertex k f) = topo g := by
  unfold topo Graph.modifyVertex
  refine congrArg (·, g.num_vertices, g.directed) ?_
  rw [List.map_map]
  apply List.map_congr_left
  intro p _
  by_cases hp : p.1 = k
  · simp [Function.comp, hp, (hf p.2).1, (hf p.2).2]
  · simp [Function.comp, hp]

theorem topo_update_all (g : Graph) (f : Key × Vertex → Key × Vertex)
    (hf : ∀ p, (f p).1 = p.1 ∧ (f p).2.id = p.2.id ∧
      (f p).2.connected_to = p.2.connected_to) :
    topo { g with vertices := g.vertices.map f } = topo g := by
  unfold topo
  refine congrArg (·, g.num_vertices, g.directed) ?_
  rw [List.map_map]
  apply List.map_congr_left
  intro p _
  simp [Function.comp, (hf p).1, (hf p).2.1, (hf p).2.2]

theorem topo_foldl_st {β γ : Type} (f : Graph × γ → β → Graph × γ)
    (hf : ∀ st b, topo (f st b).1 = topo st.1) :
    ∀ (l : List β) (st : Graph × γ), topo (l.foldl f st).1 = topo st.1 := by
  intro l
  induction l with
  | nil => intro st; rfl
  | cons b bs ih =>
    intro st
    rw [List.foldl_cons, ih (f st b), hf st b]

theorem topo_foldl_graph {β : Type} (f : Graph → β → Graph)
    (hf : ∀ g b, topo (f g b) = topo g) :
    ∀ (l : List β) (g : Graph), topo (l.foldl f g) = topo g := by
  intro l
  induction l with
  | nil => intro g; rfl
  | cons b bs ih =>
    intro g
    rw [List.foldl_cons, ih (f g b), hf g b]

theorem topo_bfs_init (g : Graph) (s : Key) : topo (g.bfs_init s) = topo g := by
  unfold Graph.bfs_init
  dsimp only
  rw [topo_modify]
  · apply topo_update_all
    intro p
    by_cases hp : p.1 = s
    · simp [hp]
    · simp [hp]
  · exact fun v => ⟨rfl, rfl⟩

theorem topo_bfs_scan (s u : Key) :
    ∀ (adj : List (Key × Int)) (g : Graph) (acc : List Key),
      topo (g.bfs_scan s u acc adj).1 = topo g := by
  intro adj
  induction adj with
  | nil => intro g acc; rfl
  | cons hd tl ih =>
    intro g acc
    by_cases h : g.colorAt hd.1 = WHITE
    · have heq : g.bfs_scan s u acc (hd :: tl) =
          (g.modifyVertex hd.1 fun v =>
            { v with color := GRAY, dist := aset v.dist s (g.distOf u s + 1),
                     predecessor := some u }).bfs_scan s u (acc ++ [hd.1]) tl := by
        simp [Graph.bfs_scan, h]
      rw [heq, ih, topo_modify]
      exact fun v => ⟨rfl, rfl⟩
    · have heq : g.bfs_scan s u acc (hd :: tl) = g.bfs_scan s u acc tl := by
        simp [Graph.bfs_scan, h]
      rw [heq, ih]

theorem topo_bfs_loop (s : Key) :
    ∀ (fuel : Nat) (g : Graph) (q : List Key),
      topo (Graph.bfs_loop s fuel g q) = topo g := by
  intro fuel
  induction fuel with
  | zero => intro g q; rfl
  | succ f ih =>
    intro g q
    match q with
    | [] => rfl
    | u :: rest =>
      show topo (Graph.bfs_loop s f _ _) = topo g
      rw [ih, topo_modify]
      · rw [topo_bfs_scan]
      · exact fun v => ⟨rfl, rfl⟩

theorem topo_bfs (g : Graph) (s : Key) (g' : Graph) (h : g.bfs s = some g') :
    topo g' = topo g := by
  unfold Graph.bfs at h
  rcases hv : g.get_vertex s with _ | v
  · rw [hv] at h
    exact absurd h (by simp)
  · rw [hv] at h
    simp only [Option.some.injEq] at h
    rw [← h, topo_bfs_loop, topo_bfs_init]

theorem topo_iss (g : Graph) (s : Key) :
    topo (g.initialize_single_source s) = topo g := by
  unfold Graph.initialize_single_source
  dsimp only
  rw [topo_modify]
  · apply topo_update_all
    intro p
    exact ⟨rfl, rfl, rfl⟩
  · exact fun v => ⟨rfl, rfl⟩

theorem topo_relax (g : Graph) (s u v : Key) (w : Int) :
    topo (g.relax s u v w) = topo g := by
  unfold Graph.relax
  by_cases h : g.distOf v s > g.distOf u s + w
  · rw [if_pos h, topo_modify]
    exact fun vx => ⟨rfl, rfl⟩
  · rw [if_neg h]

theorem topo_bf_pass (g : Graph) (s : Key) : topo (g.bf_pass s) = topo g := by
  unfold Graph.bf_pass
  exact topo_foldl_graph
    (fun h e => h.relax s e.1 e.2.1 e.2.2)
    (fun h e => topo_relax h s e.1 e.2.1 e.2.2) g.edge_list g

theorem topo_bf_iter (s : Key) :
    ∀ (n : Nat) (g : Graph), topo ((fun h => h.bf_pass s)^[n] g) = topo g := by
  intro n
  induction n with
  | zero => intro g; rfl
  | succ m ih =>
    intro g
    rw [Function.iterate_succ_apply, ih, topo_bf_pass]

theorem topo_bellman_ford (g : Graph) (s : Key) (g' : Graph) (b : Bool)
    (h : g.bellman_ford s = some (g', b)) : topo g' = topo g := by
  unfold Graph.bellman_ford at h
  rcases hv : g.get_vertex s with _ | v
  · rw [hv] at h
    exact absurd h (by simp)
  · rw [hv] at h
    simp only [Option.some.injEq, Prod.mk.injEq] at h
    rw [← h.1, topo_bf_iter, topo_iss]

theorem topo_rwpu (g : Graph) (s u v : Key) (w : Int) (pq : MPQ) :
    topo (g.relax_with_priority_update s u v w pq).1 = topo g := by
  unfold Graph.relax_with_priority_update
  by_cases h : g.distOf v s > g.distOf u s + w
  · rw [if_pos h]
    exact topo_modify _ _ _ (fun vx => ⟨rfl, rfl⟩)
  · rw [if_neg h]

theorem topo_dijkstra_loop (s : Key) :
    ∀ (fuel : Nat) (g : Graph) (pq : MPQ) (g' : Graph),
      Graph.dijkstra_loop s fuel g pq = some g' → topo g' = topo g := by
  intro fuel
  induction fuel with
  | zero => intro g pq g' h; exact absurd h (by simp [Graph.dijkstra_loop])
  | succ f ih =>
    intro g pq g' h
    unfold Graph.dijkstra_loop at h
    rcases hp : MPQ.pop_entry pq with _ | e
    · rw [hp] at h
      simp only [Option.some.injEq] at h
      rw [← h]
    · rw [hp] at h
      match e with
      | ((u, p), pq') =>
        have := ih _ _ _ h
        rw [this]
        exact topo_foldl_st
          (fun st p => st.1.relax_with_priority_update s u p.1 p.2 st.2)
          (fun st b => topo_rwpu st.1 s u b.1 b.2 st.2)
          (((g.get_vertex u).map Vertex.connected_to).getD []) (g, pq')

theorem topo_dijkstra (g : Graph) (s : Key) (fuel : Nat) (g' : Graph)
    (h : g.dijkstra s fuel = some g') : topo g' = topo g := by
  unfold Graph.dijkstra at h
  rcases hv : g.get_vertex s with _ | v
  · rw [hv] at h
    exact absurd h (by simp)
  · rw [hv] at h
    rw [topo_dijkstra_loop s fuel _ _ g' h, topo_iss]

theorem topo_dfs_visit :
    ∀ (fuel : Nat) (st : Graph × List Key) (u : Key),
      topo (Graph.dfs_visit fuel st u).1 = topo st.1 := by
  intro fuel
  induction fuel with
  | zero => intro st u; rfl
  | succ f ih =>
    intro st u
    match st with
    | (g, out) =>
      unfold Graph.dfs_visit
      dsimp only
      rw [topo_modify]
      · rw [topo_foldl_st]
        · exact topo_modify _ _ _ (fun v => ⟨rfl, rfl⟩)
        · intro st' b
          by_cases hb : st'.1.colorAt b.1 = WHITE
          · simp only [if_pos hb]
            rw [ih]
            exact topo_modify _ _ _ (fun v => ⟨rfl, rfl⟩)
          · simp only [if_neg hb]
      · exact fun v => ⟨rfl, rfl⟩

theorem topo_dfs (g : Graph) (fuel : Nat) : topo (g.dfs fuel).1 = topo g := by
  unfold Graph.dfs
  dsimp only
  rw [topo_foldl_st]
  · apply topo_update_all
    intro p
    exact ⟨rfl, rfl, rfl⟩
  · intro st k
    by_cases hk : st.1.colorAt k = WHITE
    · simp only [if_pos hk]
      exact topo_dfs_visit fuel st k
    · simp only [if_neg hk]

/-- C8: the four algorithms modify only the per-vertex `color`, `dist` and
`predecessor` fields: the stored key sequence, every vertex's identity and
adjacency map with its weights, the vertex counter and the `directed` flag
are identical before and after any run that returns. -/
theorem frame_effects :
    (∀ (g : Graph) (s : Key) (g' : Graph), g.bfs s = some g' → topo g' = topo g) ∧
    (∀ (g : Graph) (fuel : Nat), topo (g.dfs fuel).1 = topo g) ∧
    (∀ (g : Graph) (s : Key) (fuel : Nat) (g' : Graph),
        g.dijkstra s fuel = some g' → topo g' = topo g) ∧
    (∀ (g : Graph) (s : Key) (g' : Graph) (b : Bool),
        g.bellman_ford s = some (g', b) → topo g' = topo g) :=
  ⟨topo_bfs, topo_dfs, topo_dijkstra, topo_bellman_ford⟩

/-- C8, witness: the frame theorem applied to concrete runs of all four
algorithms on the demo graph. -/
theorem frame_effects_witness :
    (demoGraph.bfs 0 = some ((demoGraph.bfs 0).getD demoGraph) ∧
      topo ((demoGraph.bfs 0).getD demoGraph) = topo demoGraph) ∧
    topo (demoGraph.dfs 10).1 = topo demoGraph ∧
    (demoGraph.dijkstra 0 100 = some ((demoGraph.dijkstra 0 100).getD demoGraph) ∧
      topo ((demoGraph.dijkstra 0 100).getD demoGraph) = topo demoGraph) ∧
    (demoGraph.bellman_ford 0 =
        some (((demoGraph.bellman_ford 0).getD (demoGraph, false)).1,
          ((demoGraph.bellman_ford 0).getD (demoGraph, false)).2) ∧
      topo ((demoGraph.bellman_ford 0).getD (demoGraph, false)).1 = topo demoGraph) :=
  ⟨⟨by decide, frame_effects.1 demoGraph 0 _ (by decide)⟩,
   frame_effects.2.1 demoGraph 10,
   ⟨by decide, frame_effects.2.2.1 demoGraph 0 100 _ (by decide)⟩,
   ⟨by decide,
    frame_effects.2.2.2 demoGraph 0
      ((demoGraph.bellman_ford 0).getD (demoGraph, false)).1
      ((demoGraph.bellman_ford 0).getD (demoGraph, false)).2 (by decide)⟩⟩

/-!  Claim C2: Bellman–Ford.  First, walk algebra. -/

theorem walkEnd_append : ∀ (l1 l2 : List Key) (u : Key),
    walkEnd u (l1 ++ l2) = walkEnd (walkEnd u l1) l2 := by
  intro l1
  induction l1 with
  | nil => intro l2 u; rfl
  | cons x xs ih => intro l2 u; exact ih l2 x

theorem walk_cons_iff (g : Graph) (u x : Key) (l : List Key) (v : Key) (c : Int) :
    IsWalk g u (x :: l) v c ↔
      ∃ w c', edgeW g u x = some w ∧ IsWalk g x l v c' ∧ c = w + c' := by
  unfold IsWalk
  constructor
  · rintro ⟨hc, he⟩
    unfold walkCost at hc
    rcases hw : edgeW g u x with _ | w
    · rw [hw] at hc
      simp at hc
    · rw [hw] at hc
      rcases hc' : walkCost g x l with _ | c'
      · rw [hc'] at hc
        simp at hc
      · rw [hc'] at hc
        simp only [Option.map_some', Option.some.injEq] at hc
        exact ⟨w, c', rfl, ⟨rfl, he⟩, hc.symm⟩
  · rintro ⟨w, c', hw, ⟨hc', he⟩, hc⟩
    refine ⟨?_, he⟩
    unfold walkCost
    rw [hw, hc']
    simp [hc]

theorem walk_nil_iff (g : Graph) (u v : Key) (c : Int) :
    IsWalk g u [] v c ↔ v = u ∧ c = 0 := by
  unfold IsWalk walkCost walkEnd
  constructor
  · rintro ⟨hc, he⟩
    simp at hc
    exact ⟨he.symm, hc.symm⟩
  · rintro ⟨hv, hc⟩
    simp [hv, hc]

theorem walk_append (g : Graph) :
    ∀ (l1 : List Key) (u m : Key) (c1 : Int) (l2 : List Key) (v : Key) (c2 : Int),
      IsWalk g u l1 m c1 → IsWalk g m l2 v c2 → IsWalk g u (l1 ++ l2) v (c1 + c2) := by
  intro l1
  induction l1 with
  | nil =>
    intro u m c1 l2 v c2 h1 h2
    obtain ⟨hm, hc⟩ := (walk_nil_iff g u m c1).mp h1
    subst hm
    rw [hc, zero_add]
    exact h2
  | cons x xs ih =>
    intro u m c1 l2 v c2 h1 h2
    obtain ⟨w, c', hw, hrest, hc⟩ := (walk_cons_iff g u x xs m c1).mp h1
    rw [List.cons_append]
    refine (walk_cons_iff g u x (xs ++ l2) v (c1 + c2)).mpr
      ⟨w, c' + c2, hw, ih x m c' l2 v c2 hrest h2, by rw [hc]; ring⟩

theorem walk_split (g : Graph) :
    ∀ (l1 l2 : List Key) (u v : Key) (c : Int),
      IsWalk g u (l1 ++ l2) v c →
      ∃ c1 c2, IsWalk g u l1 (walkEnd u l1) c1 ∧
        IsWalk g (walkEnd u l1) l2 v c2 ∧ c = c1 + c2 := by
  intro l1
  induction l1 with
  | nil =>
    intro l2 u v c h
    exact ⟨0, c, (walk_nil_iff g u u 0).mpr ⟨rfl, rfl⟩, h, (zero_add c).symm⟩
  | cons x xs ih =>
    intro l2 u v c h
    rw [List.cons_append] at h
    obtain ⟨w, c', hw, hrest, hc⟩ := (walk_cons_iff g u x (xs ++ l2) v c).mp h
    obtain ⟨c1, c2, hw1, hw2, hcc⟩ := ih l2 x v c' hrest
    refine ⟨w + c1, c2, ?_, ?_, by rw [hc, hcc]; ring⟩
    · exact (walk_cons_iff g u x xs (walkEnd x xs) (w + c1)).mpr
        ⟨w, c1, hw, hw1, rfl⟩
    · exact hw2

theorem walk_single (g : Graph) (m x : Key) (w : Int) (h : edgeW g m x = some w) :
    IsWalk g m [x] x w := by
  rw [walk_cons_iff]
  exact ⟨w, 0, h, (walk_nil_iff g x x 0).mpr ⟨rfl, rfl⟩, (add_zero w).symm⟩

theorem walkEnd_eq_getLast : ∀ (l : List Key) (u : Key) (h : l ≠ []),
    walkEnd u l = l.getLast h := by
  intro l
  induction l with
  | nil => intro u h; exact absurd rfl h
  | cons x xs ih =>
    intro u h
    match xs, ih with
    | [], _ => rfl
    | y :: ys, ih => exact ih x (by simp)

theorem mem_edge_list_iff (g : Graph) (hwf : WF g) (a b : Key) (w : Int) :
    (a, b, w) ∈ g.edge_list ↔ edgeW g a b = some w := by
  obtain ⟨hnd, hids, hcl, han, hcnt⟩ := hwf
  unfold Graph.edge_list
  rw [List.mem_flatMap]
  constructor
  · rintro ⟨p, hp, hin⟩
    rw [List.mem_map] at hin
    obtain ⟨q, hq, he⟩ := hin
    simp only [Prod.mk.injEq] at he
    obtain ⟨e1, e2, e3⟩ := he
    unfold edgeW
    rw [← e1, mem_alookup_of_nodup _ hnd _ _ hp]
    have hq' : (b, w) ∈ p.2.connected_to := by
      rw [← e2, ← e3]
      simpa using hq
    exact mem_alookup_of_nodup _ (han p hp) _ _ hq'
  · intro h
    unfold edgeW at h
    rcases ha : alookup g.vertices a with _ | va
    · rw [ha] at h
      simp at h
    · rw [ha] at h
      refine ⟨(a, va), alookup_mem _ _ _ ha, ?_⟩
      rw [List.mem_map]
      exact ⟨(b, w), alookup_mem _ _ _ h, rfl⟩

/-!  Transfer of the topology-determined notions across `topo`-equal
graphs. -/

theorem alookup_map_eq {α β : Type} (f : α → β) :
    ∀ (l1 l2 : List (Key × α)),
      (l1.map fun p => (p.1, f p.2)) = (l2.map fun p => (p.1, f p.2)) →
      ∀ k, (alookup l1 k).map f = (alookup l2 k).map f := by
  intro l1
  induction l1 with
  | nil =>
    intro l2 h k
    cases l2 with
    | nil => rfl
    | cons q qs => simp at h
  | cons p ps ih =>
    intro l2 h k
    cases l2 with
    | nil => simp at h
    | cons q qs =>
      simp only [List.map_cons, List.cons.injEq, Prod.mk.injEq] at h
      obtain ⟨⟨h1, h2⟩, h3⟩ := h
      unfold alookup
      rw [h1]
      by_cases hk : q.1 = k
      · rw [if_pos hk, if_pos hk]
        simp [h2]
      · rw [if_neg hk, if_neg hk]
        exact ih qs h3 k

theorem topo_adj_proj (g1 g2 : Graph) (h : topo g1 = topo g2) :
    (g1.vertices.map fun p => (p.1, p.2.connected_to)) =
      (g2.vertices.map fun p => (p.1, p.2.connected_to)) := by
  have h1 := congrArg Prod.fst h
  unfold topo at h1
  simp only at h1
  have := congrArg (List.map fun t : Key × Key × List (Key × Int) => (t.1, t.2.2)) h1
  rw [List.map_map, List.map_map] at this
  exact this

theorem edgeW_eq_of_topo (g1 g2 : Graph) (h : topo g1 = topo g2) :
    ∀ u v, edgeW g1 u v = edgeW g2 u v := by
  intro u v
  have hml := alookup_map_eq Vertex.connected_to g1.vertices g2.vertices
    (by
      have := topo_adj_proj g1 g2 h
      exact this) u
  unfold edgeW
  rcases h1 : alookup g1.vertices u with _ | v1
  · rcases h2 : alookup g2.vertices u with _ | v2
    · rfl
    · rw [h1, h2] at hml
      simp at hml
  · rcases h2 : alookup g2.vertices u with _ | v2
    · rw [h1, h2] at hml
      simp at hml
    · rw [h1, h2] at hml
      have hcc : v1.connected_to = v2.connected_to := by simpa using hml
      show alookup v1.connected_to v = alookup v2.connected_to v
      rw [hcc]

theorem walkCost_eq_of_topo (g1 g2 : Graph) (h : topo g1 = topo g2) :
    ∀ (l : List Key) (u : Key), walkCost g1 u l = walkCost g2 u l := by
  intro l
  induction l with
  | nil => intro u; rfl
  | cons x xs ih =>
    intro u
    unfold walkCost
    rw [edgeW_eq_of_topo g1 g2 h, ih]

theorem IsWalk_iff_of_topo (g1 g2 : Graph) (h : topo g1 = topo g2)
    (u : Key) (l : List Key) (v : Key) (c : Int) :
    IsWalk g1 u l v c ↔ IsWalk g2 u l v c := by
  unfold IsWalk
  rw [walkCost_eq_of_topo g1 g2 h]

theorem edge_list_eq_of_topo (g1 g2 : Graph) (h : topo g1 = topo g2) :
    g1.edge_list = g2.edge_list := by
  have hp := topo_adj_proj g1 g2 h
  have hview : ∀ g : Graph, g.edge_list =
      (g.vertices.map fun p => (p.1, p.2.connected_to)).flatMap
        fun t => t.2.map fun q => (t.1, q.1, q.2) := by
    intro g
    unfold Graph.edge_list
    induction g.vertices with
    | nil => rfl
    | cons p ps ihl =>
      simp only [List.map_cons, List.flatMap_cons]
      rw [ihl]
  rw [hview g1, hview g2, hp]

/-!  Minimum-fold lemmas and the walk characterisation of `bfSpec`. -/

theorem fmin_le_init {β : Type} (f : β → Int) (P : β → Prop) [DecidablePred P] :
    ∀ (l : List β) (a : Int),
      l.foldl (fun acc e => if P e then min acc (f e) else acc) a ≤ a := by
  intro l
  induction l with
  | nil => intro a; exact le_refl a
  | cons e es ih =>
    intro a
    rw [List.foldl_cons]
    by_cases h : P e
    · rw [if_pos h]
      exact le_trans (ih (min a (f e))) (min_le_left a (f e))
    · rw [if_neg h]
      exact ih a

theorem fmin_le_elem {β : Type} (f : β → Int) (P : β → Prop) [DecidablePred P] :
    ∀ (l : List β) (a : Int) (e : β), e ∈ l → P e →
      l.foldl (fun acc e => if P e then min acc (f e) else acc) a ≤ f e := by
  intro l
  induction l with
  | nil => intro a e he _; simp at he
  | cons e0 es ih =>
    intro a e he hP
    rw [List.foldl_cons]
    rcases List.mem_cons.mp he with h | h
    · subst h
      rw [if_pos hP]
      exact le_trans (fmin_le_init f P es (min a (f e))) (min_le_right a (f e))
    · by_cases h0 : P e0
      · rw [if_pos h0]
        exact ih (min a (f e0)) e h hP
      · rw [if_neg h0]
        exact ih a e h hP

theorem fmin_cases {β : Type} (f : β → Int) (P : β → Prop) [DecidablePred P] :
    ∀ (l : List β) (a : Int),
      l.foldl (fun acc e => if P e then min acc (f e) else acc) a = a ∨
        ∃ e ∈ l, P e ∧
          l.foldl (fun acc e => if P e then min acc (f e) else acc) a = f e := by
  intro l
  induction l with
  | nil => intro a; exact Or.inl rfl
  | cons e0 es ih =>
    intro a
    rw [List.foldl_cons]
    by_cases h0 : P e0
    · rw [if_pos h0]
      rcases ih (min a (f e0)) with h | ⟨e, he, hP, hv⟩
      · rcases min_choice a (f e0) with hm | hm
        · exact Or.inl (h.trans hm)
        · exact Or.inr ⟨e0, List.mem_cons_self e0 es, h0, h.trans hm⟩
      · exact Or.inr ⟨e, List.mem_cons_of_mem e0 he, hP, hv⟩
    · rw [if_neg h0]
      rcases ih a with h | ⟨e, he, hP, hv⟩
      · exact Or.inl h
      · exact Or.inr ⟨e, List.mem_cons_of_mem e0 he, hP, hv⟩

theorem bfSpec_succ (g : Graph) (s : Key) (n : Nat) (v : Key) :
    bfSpec g s (n + 1) v =
      g.edge_list.foldl
        (fun acc e => if e.2.1 = v then min acc (bfSpec g s n e.1 + e.2.2) else acc)
        (bfSpec g s n v) := rfl

theorem bfSpec_succ_le (g : Graph) (s : Key) (n : Nat) (v : Key) :
    bfSpec g s (n + 1) v ≤ bfSpec g s n v := by
  rw [bfSpec_succ]
  exact fmin_le_init (fun e : Key × Key × Int => bfSpec g s n e.1 + e.2.2)
    (fun e : Key × Key × Int => e.2.1 = v) g.edge_list (bfSpec g s n v)

theorem bfSpec_mono (g : Graph) (s : Key) :
    ∀ (m n : Nat), m ≤ n → ∀ v, bfSpec g s n v ≤ bfSpec g s m v := by
  intro m n h
  induction n with
  | zero =>
    intro v
    have : m = 0 := Nat.le_zero.mp h
    rw [this]
  | succ k ih =>
    intro v
    rcases Nat.lt_or_ge m (k + 1) with h1 | h1
    · exact le_trans (bfSpec_succ_le g s k v) (ih (Nat.lt_succ_iff.mp h1) v)
    · have : m = k + 1 := le_antisymm h h1
      rw [this]

theorem bfSpec_le_pot (g : Graph) (s : Key) (n : Nat) (v : Key) :
    bfSpec g s n v ≤ pot s v :=
  bfSpec_mono g s 0 n (Nat.zero_le n) v

theorem bfSpec_le_edge (g : Graph) (s : Key) (n : Nat) (a b : Key) (w : Int)
    (h : (a, b, w) ∈ g.edge_list) :
    bfSpec g s (n + 1) b ≤ bfSpec g s n a + w := by
  rw [bfSpec_succ]
  exact fmin_le_elem (fun e : Key × Key × Int => bfSpec g s n e.1 + e.2.2)
    (fun e : Key × Key × Int => e.2.1 = b) g.edge_list (bfSpec g s n b) (a, b, w) h rfl

/-- Lower half of the walk characterisation: `bfSpec n v` is below
`pot u +` the cost of every walk `u → v` of at most `n` edges. -/
theorem bfSpec_le_walk (g : Graph) (hwf : WF g) (s : Key) :
    ∀ (n : Nat) (l : List Key) (u v : Key) (c : Int),
      IsWalk g u l v c → l.length ≤ n → bfSpec g s n v ≤ pot s u + c := by
  intro n
  induction n with
  | zero =>
    intro l u v c hw hl
    have : l = [] := List.length_eq_zero.mp (Nat.le_zero.mp hl)
    subst this
    obtain ⟨hv, hc⟩ := (walk_nil_iff g u v c).mp hw
    subst hv
    rw [hc, add_zero]
    exact le_refl _
  | succ k ih =>
    intro l u v c hw hl
    rcases l with _ | ⟨x, xs⟩
    · obtain ⟨hv, hc⟩ := (walk_nil_iff g u v c).mp hw
      subst hv
      rw [hc, add_zero]
      exact bfSpec_le_pot g s (k + 1) v
    · have hne : x :: xs ≠ [] := by simp
      have hend : walkEnd u (x :: xs) = v := hw.2
      have hsplit : x :: xs = (x :: xs).dropLast ++ [(x :: xs).getLast hne] := by
        rw [List.dropLast_append_getLast hne]
      have hlast : (x :: xs).getLast hne = v := by
        rw [← walkEnd_eq_getLast (x :: xs) u hne, hend]
      rw [hsplit, hlast] at hw
      obtain ⟨c1, c2, hw1, hw2, hc⟩ := walk_split g (x :: xs).dropLast [v] u v c hw
      set mid := walkEnd u (x :: xs).dropLast with hmid
      obtain ⟨w, c0, hwe, hnil, hc2⟩ := (walk_cons_iff g mid v [] v c2).mp hw2
      obtain ⟨_, hc0⟩ := (walk_nil_iff g v v c0).mp hnil
      have hmem : (mid, v, w) ∈ g.edge_list := (mem_edge_list_iff g hwf mid v w).mpr hwe
      have hlen : (x :: xs).dropLast.length ≤ k := by
        have := List.length_dropLast (x :: xs)
        simp only [List.length_cons] at this hl
        omega
      calc bfSpec g s (k + 1) v ≤ bfSpec g s k mid + w := bfSpec_le_edge g s k mid v w hmem
        _ ≤ pot s u + c1 + w := by
            have := ih (x :: xs).dropLast u mid c1 hw1 hlen
            omega
        _ = pot s u + c := by
            rw [hc, hc2, hc0]
            ring

/-- Upper half: `bfSpec n v` is attained by some walk of at most `n`
edges. -/
theorem bfSpec_attained (g : Graph) (hwf : WF g) (s : Key) :
    ∀ (n : Nat) (v : Key), ∃ u l c, IsWalk g u l v c ∧ l.length ≤ n ∧
      bfSpec g s n v = pot s u + c := by
  intro n
  induction n with
  | zero =>
    intro v
    exact ⟨v, [], 0, (walk_nil_iff g v v 0).mpr ⟨rfl, rfl⟩, by simp,
      by unfold bfSpec; rw [add_zero]⟩
  | succ k ih =>
    intro v
    rcases fmin_cases (fun e => bfSpec g s k e.1 + e.2.2)
        (fun e : Key × Key × Int => e.2.1 = v) g.edge_list (bfSpec g s k v) with
      h | ⟨e, he, hP, hv⟩
    · obtain ⟨u, l, c, hw, hl, hval⟩ := ih v
      exact ⟨u, l, c, hw, le_trans hl (Nat.le_succ k), by
        show bfSpec g s (k + 1) v = pot s u + c
        rw [bfSpec_succ, h, hval]⟩
    · obtain ⟨u, l, c, hw, hl, hval⟩ := ih e.1
      have hwe : edgeW g e.1 e.2.1 = some e.2.2 := by
        rw [← mem_edge_list_iff g hwf]
        exact he
      have hwalk : IsWalk g u (l ++ [e.2.1]) e.2.1 (c + e.2.2) :=
        walk_append g l u e.1 c [e.2.1] e.2.1 e.2.2 hw (walk_single g e.1 e.2.1 e.2.2 hwe)
      rw [hP] at hwalk
      refine ⟨u, l ++ [v], c + e.2.2, hwalk, ?_, ?_⟩
      · simp only [List.length_append, List.length_cons, List.length_nil]
        omega
      · show bfSpec g s (k + 1) v = pot s u + (c + e.2.2)
        rw [bfSpec_succ, hv, hval]
        ring


/-!  Execution layer for `bellman_ford`: effect of `relax` on `dist[s]`,
the per-pass fold invariants, cycle removal, and the final check. -/

theorem alookup_map_val {α β : Type} (f : α → β) :
    ∀ (l : List (Key × α)) (k : Key),
      alookup (l.map fun p => (p.1, f p.2)) k = (alookup l k).map f := by
  intro l
  induction l with
  | nil => intro k; rfl
  | cons p ps ih =>
    intro k
    by_cases h : p.1 = k
    · simp [alookup, h]
    · simp [alookup, h, ih]

theorem keys_eq_of_topo (g1 g2 : Graph) (h : topo g1 = topo g2) :
    g1.vertices.map Prod.fst = g2.vertices.map Prod.fst := by
  have hp := topo_adj_proj g1 g2 h
  have := congrArg (List.map Prod.fst) hp
  rw [List.map_map, List.map_map] at this
  exact this

theorem isSome_eq_of_topo (g1 g2 : Graph) (h : topo g1 = topo g2) (x : Key) :
    (g1.get_vertex x).isSome = (g2.get_vertex x).isSome := by
  have hk := keys_eq_of_topo g1 g2 h
  unfold Graph.get_vertex
  by_cases hm : x ∈ g1.vertices.map Prod.fst
  · rw [(alookup_isSome_iff_mem_keys g1.vertices x).mpr hm,
      (alookup_isSome_iff_mem_keys g2.vertices x).mpr (hk ▸ hm)]
  · have hm2 : x ∉ g2.vertices.map Prod.fst := by rw [← hk]; exact hm
    rcases h1 : alookup g1.vertices x with _ | v1
    · rcases h2 : alookup g2.vertices x with _ | v2
      · rfl
      · exact absurd ((alookup_isSome_iff_mem_keys g2.vertices x).mp (by rw [h2]; rfl)) hm2
    · exact absurd ((alookup_isSome_iff_mem_keys g1.vertices x).mp (by rw [h1]; rfl)) hm

/-- `relax` either leaves `dist[s]` at `x` unchanged, or `x` is the stored
target and the value becomes exactly `dist[u] + w`. -/
theorem relax_cases (g : Graph) (s u v : Key) (w : Int) (x : Key) :
    (g.relax s u v w).distOf x s = g.distOf x s ∨
      (x = v ∧ (g.get_vertex v).isSome = true ∧
        g.distOf u s + w < g.distOf v s ∧
        (g.relax s u v w).distOf x s = g.distOf u s + w) := by
  unfold Graph.relax
  by_cases h : g.distOf v s > g.distOf u s + w
  · rw [if_pos h]
    by_cases hx : x = v
    · subst hx
      rcases hv : g.get_vertex x with _ | vx
      · left
        unfold Graph.distOf
        rw [get_vertex_modify, if_pos rfl, hv]
        simp
      · right
        refine ⟨rfl, by simp [hv], h, ?_⟩
        unfold Graph.distOf
        rw [get_vertex_modify, if_pos rfl, hv]
        simp only [Option.map_some', Option.getD_some]
        unfold Vertex.distAt
        simp only
        rw [alookup_aset_self]
        rfl
    · left
      unfold Graph.distOf
      rw [get_vertex_modify, if_neg hx]
  · rw [if_neg h]
    exact Or.inl rfl

/-- `relax` never increases any `dist[s]`. -/
theorem relax_le (g : Graph) (s u v : Key) (w : Int) (x : Key) :
    (g.relax s u v w).distOf x s ≤ g.distOf x s := by
  rcases relax_cases g s u v w x with h | ⟨hx, _, hlt, hval⟩
  · rw [h]
  · rw [hval, hx]
    exact le_of_lt hlt

/-- After `relax` on a stored target, the target's `dist[s]` is bounded by
`dist[u] + w`. -/
theorem relax_fires (g : Graph) (s u v : Key) (w : Int)
    (hv : (g.get_vertex v).isSome = true)
    (hc : g.distOf u s + w < g.distOf v s) :
    (g.relax s u v w).distOf v s = g.distOf u s + w := by
  unfold Graph.relax
  rw [if_pos hc]
  rcases hvx : g.get_vertex v with _ | vx
  · rw [hvx] at hv
    exact absurd hv (by simp)
  · unfold Graph.distOf
    rw [get_vertex_modify, if_pos rfl, hvx]
    simp only [Option.map_some', Option.getD_some]
    unfold Vertex.distAt
    simp only
    rw [alookup_aset_self]
    rfl

theorem relax_bound (g : Graph) (s u v : Key) (w : Int)
    (hv : (g.get_vertex v).isSome = true) :
    (g.relax s u v w).distOf v s ≤ g.distOf u s + w := by
  by_cases hc : g.distOf u s + w < g.distOf v s
  · rw [relax_fires g s u v w hv hc]
  · have : (g.relax s u v w).distOf v s ≤ g.distOf v s := relax_le g s u v w v
    omega

/-- `dist[s]` after `initialize_single_source`: `pot s x` at stored keys,
the unread default `0` elsewhere. -/
theorem iss_get_vertex (g : Graph) (s x : Key) :
    (g.initialize_single_source s).get_vertex x =
      (g.get_vertex x).map fun v =>
        if x = s then
          { v with dist := aset (aset v.dist s maxsize) s 0, predecessor := none }
        else { v with dist := aset v.dist s maxsize, predecessor := none } := by
  unfold Graph.initialize_single_source
  dsimp only
  rw [get_vertex_modify]
  have hsweep : ∀ y : Key,
      Graph.get_vertex { g with vertices := g.vertices.map fun p =>
        (p.1, { p.2 with dist := aset p.2.dist s maxsize, predecessor := none }) } y =
      (g.get_vertex y).map fun v =>
        { v with dist := aset v.dist s maxsize, predecessor := none } := by
    intro y
    exact alookup_map_val
      (fun v => { v with dist := aset v.dist s maxsize, predecessor := none })
      g.vertices y
  by_cases hx : x = s
  · rw [if_pos hx, hsweep]
    rcases g.get_vertex x with _ | vx
    · rfl
    · simp only [Option.map_some', if_pos hx]
  · rw [if_neg hx, hsweep]
    rcases g.get_vertex x with _ | vx
    · rfl
    · simp only [Option.map_some', if_neg hx]

/-- `dist[s]` after `initialize_single_source`: `pot s x` at stored keys,
the unread default `0` elsewhere. -/
theorem iss_distOf (g : Graph) (s x : Key) :
    (g.initialize_single_source s).distOf x s =
      if (g.get_vertex x).isSome = true then pot s x else 0 := by
  unfold Graph.distOf
  rw [iss_get_vertex]
  rcases g.get_vertex x with _ | vx
  · rfl
  · simp only [Option.map_some', Option.getD_some, Option.isSome_some, if_pos]
    unfold Vertex.distAt pot
    by_cases hx : x = s
    · simp only [if_pos hx]
      rw [alookup_aset_self]
      simp [hx]
    · simp only [if_neg hx]
      rw [alookup_aset_self]
      simp [hx]


theorem edge_source_stored (g : Graph) (a b : Key) (w : Int)
    (h : (a, b, w) ∈ g.edge_list) : (g.get_vertex a).isSome = true := by
  unfold Graph.edge_list at h
  rw [List.mem_flatMap] at h
  obtain ⟨p, hp, hin⟩ := h
  rw [List.mem_map] at hin
  obtain ⟨q, _, he⟩ := hin
  simp only [Prod.mk.injEq] at he
  unfold Graph.get_vertex
  rw [alookup_isSome_iff_mem_keys, ← he.1]
  exact List.mem_map_of_mem Prod.fst hp

theorem edge_target_stored (g : Graph) (hwf : WF g) (a b : Key) (w : Int)
    (h : (a, b, w) ∈ g.edge_list) : (g.get_vertex b).isSome = true := by
  obtain ⟨hnd, hids, hcl, han, hcnt⟩ := hwf
  unfold Graph.edge_list at h
  rw [List.mem_flatMap] at h
  obtain ⟨p, hp, hin⟩ := h
  rw [List.mem_map] at hin
  obtain ⟨q, hq, he⟩ := hin
  simp only [Prod.mk.injEq] at he
  rw [← he.2.1]
  exact hcl p hp q hq

/-- Edge weights found by `edgeW` have stored targets — the walk version of
closure. -/
theorem edgeW_target_stored (g : Graph) (hwf : WF g) (a b : Key) (w : Int)
    (h : edgeW g a b = some w) : b ∈ g.vertices.map Prod.fst := by
  obtain ⟨hnd, hids, hcl, han, hcnt⟩ := hwf
  unfold edgeW at h
  rcases ha : alookup g.vertices a with _ | va
  · rw [ha] at h
    exact absurd h (by simp)
  · rw [ha] at h
    rw [← alookup_isSome_iff_mem_keys]
    exact hcl (a, va) (alookup_mem _ _ _ ha) (b, w) (alookup_mem _ _ _ h)

theorem edgeW_source_stored (g : Graph) (a b : Key) (w : Int)
    (h : edgeW g a b = some w) : a ∈ g.vertices.map Prod.fst := by
  unfold edgeW at h
  rcases ha : alookup g.vertices a with _ | va
  · rw [ha] at h
    exact absurd h (by simp)
  · rw [← alookup_isSome_iff_mem_keys, ha]
    rfl

/-- A relax fold never increases any `dist[s]`. -/
theorem relax_fold_le (s : Key) (es : List (Key × Key × Int)) :
    ∀ (g : Graph) (x : Key),
      (es.foldl (fun h e => h.relax s e.1 e.2.1 e.2.2) g).distOf x s ≤ g.distOf x s := by
  induction es with
  | nil => intro g x; exact le_refl _
  | cons e es ih =>
    intro g x
    rw [List.foldl_cons]
    exact le_trans (ih _ x) (relax_le g s e.1 e.2.1 e.2.2 x)

theorem relax_fold_topo (s : Key) (es : List (Key × Key × Int)) :
    ∀ (g : Graph),
      topo (es.foldl (fun h e => h.relax s e.1 e.2.1 e.2.2) g) = topo g := by
  induction es with
  | nil => intro g; rfl
  | cons e es ih =>
    intro g
    rw [List.foldl_cons, ih, topo_relax]

/-- After the fold processes `e`, the target's `dist[s]` stays below the
source's pre-fold `dist[s]` plus the weight. -/
theorem relax_fold_edge (s : Key) (es : List (Key × Key × Int)) :
    ∀ (g : Graph), (∀ e ∈ es, (g.get_vertex e.2.1).isSome = true) →
      ∀ e ∈ es,
        (es.foldl (fun h e => h.relax s e.1 e.2.1 e.2.2) g).distOf e.2.1 s ≤
          g.distOf e.1 s + e.2.2 := by
  induction es with
  | nil => intro g _ e he; exact absurd he (List.not_mem_nil e)
  | cons e0 es ih =>
    intro g hst e he
    rw [List.foldl_cons]
    rcases List.mem_cons.mp he with he0 | hes
    · subst he0
      calc (es.foldl (fun h e => h.relax s e.1 e.2.1 e.2.2)
              (g.relax s e.1 e.2.1 e.2.2)).distOf e.2.1 s
          ≤ (g.relax s e.1 e.2.1 e.2.2).distOf e.2.1 s := relax_fold_le s es _ e.2.1
        _ ≤ g.distOf e.1 s + e.2.2 :=
            relax_bound g s e.1 e.2.1 e.2.2 (hst e (List.mem_cons_self e es))
    · have hst' : ∀ e ∈ es, ((g.relax s e0.1 e0.2.1 e0.2.2).get_vertex e.2.1).isSome = true := by
        intro e' he'
        rw [isSome_eq_of_topo _ g (topo_relax g s e0.1 e0.2.1 e0.2.2)]
        exact hst e' (List.mem_cons_of_mem e0 he')
      calc (es.foldl (fun h e => h.relax s e.1 e.2.1 e.2.2)
              (g.relax s e0.1 e0.2.1 e0.2.2)).distOf e.2.1 s
          ≤ (g.relax s e0.1 e0.2.1 e0.2.2).distOf e.1 s + e.2.2 :=
            ih (g.relax s e0.1 e0.2.1 e0.2.2) hst' e hes
        _ ≤ g.distOf e.1 s + e.2.2 := by
            have := relax_le g s e0.1 e0.2.1 e0.2.2 e.1
            omega

/-- One `bf_pass` takes the pointwise `bfSpec n` upper bound to
`bfSpec (n + 1)`. -/
theorem bf_pass_upper (g0 : Graph) (hwf : WF g0) (s : Key) (n : Nat) (g : Graph)
    (htopo : topo g = topo g0)
    (hup : ∀ x, g.distOf x s ≤ bfSpec g0 s n x) :
    ∀ x, (g.bf_pass s).distOf x s ≤ bfSpec g0 s (n + 1) x := by
  intro x
  have hel : g.edge_list = g0.edge_list := edge_list_eq_of_topo g g0 htopo
  unfold Graph.bf_pass
  rw [hel]
  rcases fmin_cases (fun e => bfSpec g0 s n e.1 + e.2.2)
      (fun e : Key × Key × Int => e.2.1 = x) g0.edge_list (bfSpec g0 s n x) with
    h | ⟨e, he, hP, hv⟩
  · rw [bfSpec_succ, h]
    exact le_trans (relax_fold_le s g0.edge_list g x) (hup x)
  · rw [bfSpec_succ, hv]
    have hst : ∀ e ∈ g0.edge_list, (g.get_vertex e.2.1).isSome = true := by
      intro e' he'
      rw [isSome_eq_of_topo g g0 htopo]
      exact edge_target_stored g0 hwf e'.1 e'.2.1 e'.2.2 he'
    have := relax_fold_edge s g0.edge_list g hst e he
    rw [hP] at this
    have hb := hup e.1
    omega

/-- After `n` passes over the initialised graph, every `dist[s]` is at most
`bfSpec n`. -/
theorem bf_iter_upper (g0 : Graph) (hwf : WF g0) (s : Key) :
    ∀ (n : Nat) (x : Key),
      ((fun h => h.bf_pass s)^[n] (g0.initialize_single_source s)).distOf x s ≤
        bfSpec g0 s n x := by
  have htopo : ∀ n, topo ((fun h => h.bf_pass s)^[n] (g0.initialize_single_source s)) =
      topo g0 := by
    intro n
    rw [topo_bf_iter, topo_iss]
  intro n
  induction n with
  | zero =>
    intro x
    rw [Function.iterate_zero_apply, iss_distOf]
    by_cases hx : (g0.get_vertex x).isSome = true
    · rw [if_pos hx]
      exact le_of_eq rfl
    · rw [if_neg hx]
      unfold bfSpec pot
      by_cases hxs : x = s
      · rw [if_pos hxs]
      · rw [if_neg hxs]
        unfold maxsize
        omega
  | succ k ih =>
    intro x
    rw [Function.iterate_succ_apply']
    exact bf_pass_upper g0 hwf s k _ (htopo k) ih x


/-- Every stored vertex's `dist[s]` is `pot s u` plus the cost of some walk
from `u` into it (in the reference topology `g0`): the invariant every
`relax` preserves. -/
def Sound (g0 g : Graph) (s : Key) : Prop :=
  ∀ x, (g.get_vertex x).isSome = true →
    ∃ u l c, IsWalk g0 u l x c ∧ g.distOf x s = pot s u + c

theorem relax_sound (g0 : Graph) (hwf : WF g0) (s : Key) (g : Graph)
    (htopo : topo g = topo g0)
    (e : Key × Key × Int) (he : e ∈ g0.edge_list)
    (hs : Sound g0 g s) : Sound g0 (g.relax s e.1 e.2.1 e.2.2) s := by
  intro x hx
  have hx' : (g.get_vertex x).isSome = true := by
    rw [← isSome_eq_of_topo _ g (topo_relax g s e.1 e.2.1 e.2.2)]
    exact hx
  rcases relax_cases g s e.1 e.2.1 e.2.2 x with h | ⟨hxv, _, _, hval⟩
  · obtain ⟨u, l, c, hw, hd⟩ := hs x hx'
    exact ⟨u, l, c, hw, by rw [h, hd]⟩
  · subst hxv
    have hsrc : (g.get_vertex e.1).isSome = true := by
      rw [isSome_eq_of_topo g g0 htopo]
      exact edge_source_stored g0 e.1 e.2.1 e.2.2 he
    obtain ⟨u, l, c, hw, hd⟩ := hs e.1 hsrc
    have hew : edgeW g0 e.1 e.2.1 = some e.2.2 := (mem_edge_list_iff g0 hwf _ _ _).mp he
    refine ⟨u, l ++ [e.2.1], c + e.2.2, ?_, ?_⟩
    · have hx2 : walkEnd u l = e.1 := hw.2
      exact walk_append g0 l u e.1 c [e.2.1] e.2.1 e.2.2 hw
        (walk_single g0 e.1 e.2.1 e.2.2 hew)
    · rw [hval, hd]
      ring

theorem relax_fold_sound (g0 : Graph) (hwf : WF g0) (s : Key) :
    ∀ (es : List (Key × Key × Int)), (∀ e ∈ es, e ∈ g0.edge_list) →
      ∀ (g : Graph), topo g = topo g0 → Sound g0 g s →
        Sound g0 (es.foldl (fun h e => h.relax s e.1 e.2.1 e.2.2) g) s := by
  intro es
  induction es with
  | nil => intro _ g _ hs; exact hs
  | cons e es ih =>
    intro hmem g htopo hs
    rw [List.foldl_cons]
    exact ih (fun e' he' => hmem e' (List.mem_cons_of_mem e he'))
      _ (by rw [topo_relax]; exact htopo)
      (relax_sound g0 hwf s g htopo e (hmem e (List.mem_cons_self e es)) hs)

theorem iss_sound (g0 : Graph) (s : Key) :
    Sound g0 (g0.initialize_single_source s) s := by
  intro x hx
  have hx0 : (g0.get_vertex x).isSome = true := by
    rw [← isSome_eq_of_topo _ g0 (topo_iss g0 s)]
    exact hx
  refine ⟨x, [], 0, (walk_nil_iff g0 x x 0).mpr ⟨rfl, rfl⟩, ?_⟩
  rw [iss_distOf, if_pos hx0, add_zero]

theorem bf_iter_sound (g0 : Graph) (hwf : WF g0) (s : Key) :
    ∀ (n : Nat),
      Sound g0 ((fun h => h.bf_pass s)^[n] (g0.initialize_single_source s)) s := by
  intro n
  induction n with
  | zero => exact iss_sound g0 s
  | succ k ih =>
    rw [Function.iterate_succ_apply']
    have htopo : topo ((fun h => h.bf_pass s)^[k] (g0.initialize_single_source s)) =
        topo g0 := by
      rw [topo_bf_iter, topo_iss]
    have hel : ((fun h => h.bf_pass s)^[k] (g0.initialize_single_source s)).edge_list =
        g0.edge_list := edge_list_eq_of_topo _ g0 htopo
    have hpass : ((fun h => h.bf_pass s)^[k] (g0.initialize_single_source s)).bf_pass s =
        g0.edge_list.foldl (fun h e => h.relax s e.1 e.2.1 e.2.2)
          ((fun h => h.bf_pass s)^[k] (g0.initialize_single_source s)) := by
      show ((fun h => h.bf_pass s)^[k] (g0.initialize_single_source s)).edge_list.foldl
          (fun h e => h.relax s e.1 e.2.1 e.2.2)
          ((fun h => h.bf_pass s)^[k] (g0.initialize_single_source s)) =
        g0.edge_list.foldl (fun h e => h.relax s e.1 e.2.1 e.2.2)
          ((fun h => h.bf_pass s)^[k] (g0.initialize_single_source s))
      rw [hel]
    rw [hpass]
    exact relax_fold_sound g0 hwf s g0.edge_list (fun e he => he) _ htopo ih


/-- Every step of a costed walk is a stored key. -/
theorem walk_steps_stored (g : Graph) (hwf : WF g) :
    ∀ (l : List Key) (u : Key) (c : Int), walkCost g u l = some c →
      ∀ x ∈ l, x ∈ g.vertices.map Prod.fst := by
  intro l
  induction l with
  | nil => intro u c _ x hx; exact absurd hx (List.not_mem_nil x)
  | cons y ys ih =>
    intro u c hc x hx
    unfold walkCost at hc
    rcases hw : edgeW g u y with _ | w
    · rw [hw] at hc
      exact absurd hc (by simp)
    · rw [hw] at hc
      rcases hc' : walkCost g y ys with _ | c'
      · rw [hc'] at hc
        exact absurd hc (by simp)
      · rcases List.mem_cons.mp hx with hxy | hxys
        · rw [hxy]
          exact edgeW_target_stored g hwf u y w hw
        · exact ih y c' hc' x hxys

/-- The start of a nonempty costed walk is a stored key. -/
theorem walk_start_stored (g : Graph) :
    ∀ (l : List Key) (u : Key) (c : Int), walkCost g u l = some c → l ≠ [] →
      u ∈ g.vertices.map Prod.fst := by
  intro l u c hc hne
  rcases l with _ | ⟨y, ys⟩
  · exact absurd rfl hne
  · unfold walkCost at hc
    rcases hw : edgeW g u y with _ | w
    · rw [hw] at hc
      exact absurd hc (by simp)
    · exact edgeW_source_stored g u y w hw

/-- A list that is not `Nodup` splits around a repeated element. -/
theorem exists_split_of_not_nodup {α : Type} :
    ∀ (l : List α), ¬l.Nodup →
      ∃ (x : α) (a b c : List α), l = a ++ x :: (b ++ x :: c) := by
  intro l
  induction l with
  | nil => intro h; exact absurd List.nodup_nil h
  | cons y t ih =>
    intro h
    by_cases hy : y ∈ t
    · obtain ⟨b, c, hbc⟩ := List.append_of_mem hy
      exact ⟨y, [], b, c, by rw [hbc]; rfl⟩
    · have hnt : ¬t.Nodup := by
        intro hnd
        exact h (List.nodup_cons.mpr ⟨hy, hnd⟩)
      obtain ⟨x, a, b, c, habc⟩ := ih hnt
      exact ⟨x, y :: a, b, c, by rw [habc]; rfl⟩

/-- Without negative cycles, every walk shortens to one of at most
`(stored count) - 1` edges with no greater cost. -/
theorem walk_shorten (g : Graph) (hwf : WF g) (hnc : ¬HasNegCycle g) :
    ∀ (n : Nat) (l : List Key) (u v : Key) (c : Int),
      l.length ≤ n → IsWalk g u l v c →
      ∃ l' c', IsWalk g u l' v c' ∧
        l'.length ≤ g.vertices.length - 1 ∧ c' ≤ c := by
  intro n
  induction n with
  | zero =>
    intro l u v c hl hw
    have : l = [] := List.length_eq_zero.mp (Nat.le_zero.mp hl)
    subst this
    exact ⟨[], c, hw, by simp, le_refl c⟩
  | succ k ih =>
    intro l u v c hl hw
    by_cases hshort : l.length ≤ g.vertices.length - 1
    · exact ⟨l, c, hw, hshort, le_refl c⟩
    · have hne : l ≠ [] := by
        intro h
        rw [h] at hshort
        exact hshort (by simp)
      have hstart : u ∈ g.vertices.map Prod.fst :=
        walk_start_stored g l u c hw.1 hne
      have hsteps : ∀ x ∈ l, x ∈ g.vertices.map Prod.fst :=
        walk_steps_stored g hwf l u c hw.1
      have hLpos : 1 ≤ g.vertices.length := by
        rcases hv : g.vertices with _ | ⟨p, ps⟩
        · rw [hv] at hstart
          exact absurd hstart (by simp)
        · simp
      have hsub : (u :: l) ⊆ g.vertices.map Prod.fst := by
        intro x hx
        rcases List.mem_cons.mp hx with hxu | hxl
        · rw [hxu]; exact hstart
        · exact hsteps x hxl
      have hnodup : ¬(u :: l).Nodup := by
        intro hnd
        have hle : (u :: l).length ≤ (g.vertices.map Prod.fst).length :=
          (hnd.subperm hsub).length_le
        simp only [List.length_cons, List.length_map] at hle
        omega
      obtain ⟨x, a, b, cc, hsplit⟩ := exists_split_of_not_nodup (u :: l) hnodup
      rcases a with _ | ⟨a0, a'⟩
      · -- the repeat starts at `u` itself: `u = x`, `l = (b ++ [x]) ++ cc`
        have hu : u = x := by
          have := congrArg (fun t => t.headI) hsplit
          simpa using this
        have hltail : l = (b ++ [x]) ++ cc := by
          have := congrArg List.tail hsplit
          simpa using this
        rw [hltail] at hw
        obtain ⟨c1, c2, hw1, hw2, hcc⟩ := walk_split g (b ++ [x]) cc u v c hw
        have hend1 : walkEnd u (b ++ [x]) = x := by
          rw [walkEnd_eq_getLast (b ++ [x]) u (by simp)]
          exact List.getLast_append _
        rw [hend1] at hw1 hw2
        have hc1 : 0 ≤ c1 := by
          by_contra hneg
          rw [← hu] at hw1
          exact hnc ⟨u, b ++ [x], c1, by rw [hu] at hw1 ⊢; exact hw1, by simp, by omega⟩
        have hwcc : IsWalk g u cc v c2 := by
          rw [hu]
          exact hw2
        have hlcc : cc.length ≤ k := by
          have : l.length ≤ k + 1 := hl
          rw [hltail] at this
          simp only [List.length_append, List.length_cons, List.length_nil] at this
          omega
        obtain ⟨l', c', hw', hl', hc'⟩ := ih cc u v c2 hlcc hwcc
        exact ⟨l', c', hw', hl', by omega⟩
      · -- the repeat is inside `l`: `u = a0`, `l = (a' ++ [x]) ++ (b ++ [x]) ++ cc`
        have hu : u = a0 := by
          have := congrArg (fun t => t.headI) hsplit
          simpa using this
        have hltail : l = (a' ++ [x]) ++ ((b ++ [x]) ++ cc) := by
          have := congrArg List.tail hsplit
          simpa using this
        rw [hltail] at hw
        obtain ⟨c1, c23, hw1, hw23, hcc⟩ := walk_split g (a' ++ [x]) ((b ++ [x]) ++ cc) u v c hw
        have hend1 : walkEnd u (a' ++ [x]) = x := by
          rw [walkEnd_eq_getLast (a' ++ [x]) u (by simp)]
          exact List.getLast_append _
        rw [hend1] at hw1 hw23
        obtain ⟨c2, c3, hw2, hw3, hcc2⟩ := walk_split g (b ++ [x]) cc x v c23 hw23
        have hend2 : walkEnd x (b ++ [x]) = x := by
          rw [walkEnd_eq_getLast (b ++ [x]) x (by simp)]
          exact List.getLast_append _
        rw [hend2] at hw2 hw3
        have hc2 : 0 ≤ c2 := by
          by_contra hneg
          exact hnc ⟨x, b ++ [x], c2, hw2, by simp, by omega⟩
        have hwshort : IsWalk g u ((a' ++ [x]) ++ cc) v (c1 + c3) :=
          walk_append g (a' ++ [x]) u x c1 cc v c3 hw1 hw3
        have hlshort : ((a' ++ [x]) ++ cc).length ≤ k := by
          have : l.length ≤ k + 1 := hl
          rw [hltail] at this
          simp only [List.length_append, List.length_cons, List.length_nil] at this ⊢
          omega
        obtain ⟨l', c', hw', hl', hc'⟩ := ih ((a' ++ [x]) ++ cc) u v (c1 + c3) hlshort hwshort
        exact ⟨l', c', hw', hl', by omega⟩


/-- Without negative cycles `bfSpec` is stable from `(stored count) - 1`
on. -/
theorem bfSpec_stable (g : Graph) (hwf : WF g) (hnc : ¬HasNegCycle g) (s : Key) :
    ∀ (n : Nat) (v : Key),
      bfSpec g s (g.vertices.length - 1 + n) v = bfSpec g s (g.vertices.length - 1) v := by
  intro n
  induction n with
  | zero => intro v; rfl
  | succ k ih =>
    intro v
    apply le_antisymm
    · calc bfSpec g s (g.vertices.length - 1 + (k + 1)) v
          ≤ bfSpec g s (g.vertices.length - 1 + k) v := by
            have : g.vertices.length - 1 + (k + 1) = (g.vertices.length - 1 + k) + 1 := by omega
            rw [this]
            exact bfSpec_succ_le g s _ v
        _ = bfSpec g s (g.vertices.length - 1) v := ih v
    · obtain ⟨u, l, c, hw, hl, hval⟩ := bfSpec_attained g hwf s (g.vertices.length - 1 + (k + 1)) v
      obtain ⟨l', c', hw', hl', hc'⟩ := walk_shorten g hwf hnc l.length l u v c (le_refl _) hw
      calc bfSpec g s (g.vertices.length - 1) v
          ≤ pot s u + c' := bfSpec_le_walk g hwf s (g.vertices.length - 1) l' u v c' hw' hl'
        _ ≤ pot s u + c := by omega
        _ = bfSpec g s (g.vertices.length - 1 + (k + 1)) v := hval.symm

/-- Without negative cycles, the value stored after the `(stored count) - 1`
passes of `bellman_ford` is exactly `bfSpec (stored count - 1)`. -/
theorem bf_final_dist (g : Graph) (hwf : WF g) (hnc : ¬HasNegCycle g) (s : Key) (x : Key)
    (hx : (g.get_vertex x).isSome = true) :
    ((fun h => h.bf_pass s)^[g.vertices.length - 1]
        (g.initialize_single_source s)).distOf x s =
      bfSpec g s (g.vertices.length - 1) x := by
  have htopo : topo ((fun h => h.bf_pass s)^[g.vertices.length - 1]
      (g.initialize_single_source s)) = topo g := by
    rw [topo_bf_iter, topo_iss]
  apply le_antisymm
  · exact bf_iter_upper g hwf s (g.vertices.length - 1) x
  · have hx' : (((fun h => h.bf_pass s)^[g.vertices.length - 1]
        (g.initialize_single_source s)).get_vertex x).isSome = true := by
      rw [isSome_eq_of_topo _ g htopo]
      exact hx
    obtain ⟨u, l, c, hw, hd⟩ :=
      bf_iter_sound g hwf s (g.vertices.length - 1) x hx'
    obtain ⟨l', c', hw', hl', hc'⟩ := walk_shorten g hwf hnc l.length l u x c (le_refl _) hw
    calc bfSpec g s (g.vertices.length - 1) x
        ≤ pot s u + c' := bfSpec_le_walk g hwf s (g.vertices.length - 1) l' u x c' hw' hl'
      _ ≤ pot s u + c := by omega
      _ = ((fun h => h.bf_pass s)^[g.vertices.length - 1]
            (g.initialize_single_source s)).distOf x s := hd.symm

/-- If no edge admits a strict relaxation of `d`, then `d` respects every
walk. -/
theorem no_relax_walk_bound (g : Graph) (hwf : WF g) (d : Key → Int)
    (h : ∀ e ∈ g.edge_list, d e.2.1 ≤ d e.1 + e.2.2) :
    ∀ (l : List Key) (u v : Key) (c : Int), IsWalk g u l v c → d v ≤ d u + c := by
  intro l
  induction l with
  | nil =>
    intro u v c hw
    obtain ⟨hv, hc⟩ := (walk_nil_iff g u v c).mp hw
    subst hv
    omega
  | cons x xs ih =>
    intro u v c hw
    obtain ⟨w, c', hwe, hrest, hc⟩ := (walk_cons_iff g u x xs v c).mp hw
    have hmem : (u, x, w) ∈ g.edge_list := (mem_edge_list_iff g hwf u x w).mpr hwe
    have h1 := h (u, x, w) hmem
    have h2 := ih x v c' hrest
    simp only at h1
    omega

/-- The final check of `bellman_ford` fires exactly on graphs with a
negative cycle (reachable or not). -/
theorem bf_check_iff (g : Graph) (hwf : WF g) (s : Key) :
    (((fun h => h.bf_pass s)^[g.vertices.length - 1]
        (g.initialize_single_source s)).bf_check s = true) ↔ HasNegCycle g := by
  have htopo : topo ((fun h => h.bf_pass s)^[g.vertices.length - 1]
      (g.initialize_single_source s)) = topo g := by
    rw [topo_bf_iter, topo_iss]
  have hel : ((fun h => h.bf_pass s)^[g.vertices.length - 1]
      (g.initialize_single_source s)).edge_list = g.edge_list :=
    edge_list_eq_of_topo _ g htopo
  constructor
  · intro hchk
    by_contra hnc
    unfold Graph.bf_check at hchk
    rw [hel, List.any_eq_true] at hchk
    obtain ⟨e, he, hrel⟩ := hchk
    rw [decide_eq_true_eq] at hrel
    have hsrc := edge_source_stored g e.1 e.2.1 e.2.2 (by
      rcases e with ⟨a, b, w⟩
      exact he)
    have htgt := edge_target_stored g hwf e.1 e.2.1 e.2.2 (by
      rcases e with ⟨a, b, w⟩
      exact he)
    rw [bf_final_dist g hwf hnc s e.1 hsrc, bf_final_dist g hwf hnc s e.2.1 htgt] at hrel
    have hle : bfSpec g s (g.vertices.length - 1 + 1) e.2.1 ≤
        bfSpec g s (g.vertices.length - 1) e.1 + e.2.2 := by
      apply bfSpec_le_edge
      rcases e with ⟨a, b, w⟩
      exact he
    rw [bfSpec_stable g hwf hnc s 1 e.2.1] at hle
    omega
  · intro hcyc
    by_contra hchk
    obtain ⟨u, l, c, hw, hne, hneg⟩ := hcyc
    have hbound : ∀ e ∈ g.edge_list,
        ((fun h => h.bf_pass s)^[g.vertices.length - 1]
          (g.initialize_single_source s)).distOf e.2.1 s ≤
        ((fun h => h.bf_pass s)^[g.vertices.length - 1]
          (g.initialize_single_source s)).distOf e.1 s + e.2.2 := by
      intro e he
      unfold Graph.bf_check at hchk
      rw [hel] at hchk
      rw [Bool.not_eq_true, List.any_eq_false] at hchk
      have := hchk e he
      rw [decide_eq_true_eq] at this
      omega
    have := no_relax_walk_bound g hwf
      (fun x => ((fun h => h.bf_pass s)^[g.vertices.length - 1]
        (g.initialize_single_source s)).distOf x s) hbound l u u c hw
    simp only at this
    omega


/-!  Claim C2: `bellman_ford` and negative cycles. -/

theorem iss_num (g : Graph) (s : Key) :
    (g.initialize_single_source s).num_vertices = g.num_vertices := rfl

theorem cycleGraph_zero_vertex :
    alookup cycleGraph.vertices 0 = some (Vertex.init 0) := by decide

theorem cycle_reach_eq_zero (u : Key) (n : Nat)
    (h : ReachHops cycleGraph 0 u n) : u = 0 := by
  induction h with
  | refl => rfl
  | step h vx hu hv ih =>
    rw [ih, cycleGraph_zero_vertex] at hu
    injection hu with hvx
    rw [← hvx] at hv
    simp [Vertex.init] at hv

/-- C2, counterexample: on the graph whose only negative cycle (`1 ⇄ 2`,
weight `-1` each way) is unreachable from the isolated vertex `0`,
`bellman_ford(0)` still raises the negative-cycle `ValueError`: the claim's
"reachable from the source" qualification does not match the code, whose
finite `sys.maxsize` sentinel lets unreachable edges keep relaxing. -/
theorem bellman_ford_counterexample :
    (cycleGraph.bellman_ford 0).map Prod.snd = some true ∧
      ¬ReachableNegCycle cycleGraph 0 := by
  constructor
  · decide
  · rintro ⟨u, l, c, ⟨n, hr⟩, hw, hne, hneg⟩
    have hu := cycle_reach_eq_zero u n hr
    subst hu
    rcases l with _ | ⟨y, ys⟩
    · exact hne rfl
    · obtain ⟨w, c', hwe, _, _⟩ := (walk_cons_iff cycleGraph 0 y ys 0 c).mp hw
      have hnone : edgeW cycleGraph 0 y = none := by
        unfold edgeW
        rw [cycleGraph_zero_vertex]
        rfl
      rw [hnone] at hwe
      exact absurd hwe (by simp)

/-- C2 (amended): on a well-formed graph with the source stored,
`bellman_ford(source)` returns `(g', b)` where `b` (the raised
`ValueError`) is `true` exactly when the graph has a negative-weight cycle
anywhere — reachable from the source or not — and when it has none, every
stored vertex's `dist[source]` is the least value of `pot s u + walk cost`
over all walks into it (with `pot` the initialisation potential: `0` at the
source, `sys.maxsize` elsewhere), attained by a walk of at most
`(vertex count) - 1` edges.  Only for vertices reachable from the source
and edge weights small against `sys.maxsize` does this coincide with the
claim's "true shortest weighted distance". -/
theorem bellman_ford_spec (g : Graph) (s : Key) (hwf : WF g)
    (hs : (g.get_vertex s).isSome = true) :
    ∃ g' b, g.bellman_ford s = some (g', b) ∧
      (b = true ↔ HasNegCycle g) ∧
      (¬HasNegCycle g → ∀ v ∈ g.vertices.map Prod.fst,
        (∀ u l c, IsWalk g u l v c → g'.distOf v s ≤ pot s u + c) ∧
        (∃ u l c, IsWalk g u l v c ∧ l.length ≤ g.vertices.length - 1 ∧
          g'.distOf v s = pot s u + c)) := by
  have hnum : g.num_vertices = g.vertices.length := hwf.2.2.2.2
  rcases hvs : g.get_vertex s with _ | vs
  · rw [hvs] at hs
    exact absurd hs (by simp)
  · refine ⟨(fun h => h.bf_pass s)^[g.vertices.length - 1] (g.initialize_single_source s),
      ((fun h => h.bf_pass s)^[g.vertices.length - 1]
        (g.initialize_single_source s)).bf_check s, ?_, ?_, ?_⟩
    · unfold Graph.bellman_ford
      rw [hvs]
      dsimp only
      have hn : (g.initialize_single_source s).num_vertices = g.vertices.length := by
        rw [iss_num, hnum]
      rw [hn]
    · exact bf_check_iff g hwf s
    · intro hnc v hv
      have hvsome : (g.get_vertex v).isSome = true := by
        unfold Graph.get_vertex
        rw [alookup_isSome_iff_mem_keys]
        exact hv
      have hfinal := bf_final_dist g hwf hnc s v hvsome
      constructor
      · intro u l c hw
        obtain ⟨l', c', hw', hl', hc'⟩ :=
          walk_shorten g hwf hnc l.length l u v c (le_refl _) hw
        have h1 : bfSpec g s (g.vertices.length - 1) v ≤ pot s u + c' :=
          bfSpec_le_walk g hwf s (g.vertices.length - 1) l' u v c' hw' hl'
        rw [hfinal]
        omega
      · have hvsome' : (((fun h => h.bf_pass s)^[g.vertices.length - 1]
            (g.initialize_single_source s)).get_vertex v).isSome = true := by
          rw [isSome_eq_of_topo _ g (by rw [topo_bf_iter, topo_iss])]
          exact hvsome
        obtain ⟨u, l, c, hw, hd⟩ :=
          bf_iter_sound g hwf s (g.vertices.length - 1) v hvsome'
        obtain ⟨l', c', hw', hl', hc'⟩ :=
          walk_shorten g hwf hnc l.length l u v c (le_refl _) hw
        have h1 : bfSpec g s (g.vertices.length - 1) v ≤ pot s u + c' :=
          bfSpec_le_walk g hwf s (g.vertices.length - 1) l' u v c' hw' hl'
        refine ⟨u, l', c', hw', hl', by omega⟩

/-- C2, witness: the amended theorem applied to the single-edge graph
`10 →⁷ 20` with source `10`. -/
theorem bellman_ford_spec_witness :
    WF pairGraph ∧ (pairGraph.get_vertex 10).isSome = true ∧
      (∃ g' b, pairGraph.bellman_ford 10 = some (g', b) ∧
        (b = true ↔ HasNegCycle pairGraph) ∧
        (¬HasNegCycle pairGraph → ∀ v ∈ pairGraph.vertices.map Prod.fst,
          (∀ u l c, IsWalk pairGraph u l v c → g'.distOf v 10 ≤ pot 10 u + c) ∧
          (∃ u l c, IsWalk pairGraph u l v c ∧
            l.length ≤ pairGraph.vertices.length - 1 ∧
            g'.distOf v 10 = pot 10 u + c))) :=
  ⟨by decide, by decide, bellman_ford_spec pairGraph 10 (by decide) (by decide)⟩


/-!  Claim C9 infrastructure: determinism of repeated runs.  A run's
behaviour depends on the graph only through a per-vertex view (identity,
adjacency, and whichever of colour / `dist[s]` / predecessor the algorithm
reads); two graphs equal under that view run in lockstep. -/

/-- The graph under a per-vertex view `F`. -/
def vproj {β : Type} (F : Vertex → β) (g : Graph) : List (Key × β) × Nat × Bool :=
  (g.vertices.map fun p => (p.1, F p.2), g.num_vertices, g.directed)

/-- What `bfs` reads and writes at a vertex. -/
def sview (s : Key) (v : Vertex) : Key × List (Key × Int) × Nat × Int × Option Key :=
  (v.id, v.connected_to, v.color, v.distAt s, v.predecessor)

/-- What `bellman_ford` and `dijkstra` read and write at a vertex (they
never touch colours). -/
def dview (s : Key) (v : Vertex) : Key × List (Key × Int) × Int × Option Key :=
  (v.id, v.connected_to, v.distAt s, v.predecessor)

theorem vproj_get {β : Type} (F : Vertex → β) (gA gB : Graph)
    (h : vproj F gA = vproj F gB) (x : Key) :
    (gA.get_vertex x).map F = (gB.get_vertex x).map F :=
  alookup_map_eq F gA.vertices gB.vertices (congrArg Prod.fst h) x

theorem vproj_num {β : Type} (F : Vertex → β) (gA gB : Graph)
    (h : vproj F gA = vproj F gB) : gA.num_vertices = gB.num_vertices :=
  congrArg (fun t => t.2.1) h

theorem vproj_directed {β : Type} (F : Vertex → β) (gA gB : Graph)
    (h : vproj F gA = vproj F gB) : gA.directed = gB.directed :=
  congrArg (fun t => t.2.2) h

theorem vproj_keys {β : Type} (F : Vertex → β) (gA gB : Graph)
    (h : vproj F gA = vproj F gB) :
    gA.vertices.map Prod.fst = gB.vertices.map Prod.fst := by
  have h1 := congrArg Prod.fst h
  unfold vproj at h1
  simp only at h1
  have := congrArg (List.map Prod.fst) h1
  rw [List.map_map, List.map_map] at this
  exact this

/-- Lockstep congruence for `modifyVertex` under a view the modification
respects. -/
theorem map_inplace_congr {α β : Type} (F : α → β) (f : α → α) (k : Key)
    (hf : ∀ v w, F v = F w → F (f v) = F (f w)) :
    ∀ (l1 l2 : List (Key × α)),
      (l1.map fun p => (p.1, F p.2)) = (l2.map fun p => (p.1, F p.2)) →
      ((l1.map fun p => if p.1 = k then (p.1, f p.2) else p).map fun p => (p.1, F p.2)) =
      ((l2.map fun p => if p.1 = k then (p.1, f p.2) else p).map fun p => (p.1, F p.2)) := by
  intro l1
  induction l1 with
  | nil =>
    intro l2 h
    cases l2 with
    | nil => rfl
    | cons q qs => simp at h
  | cons p ps ih =>
    intro l2 h
    cases l2 with
    | nil => simp at h
    | cons q qs =>
      simp only [List.map_cons, List.cons.injEq, Prod.mk.injEq] at h
      obtain ⟨⟨h1, h2⟩, h3⟩ := h
      by_cases hk : p.1 = k
      · simp only [List.map_cons, if_pos hk, if_pos (h1 ▸ hk), List.cons.injEq,
          Prod.mk.injEq]
        exact ⟨⟨h1, hf p.2 q.2 h2⟩, ih qs h3⟩
      · simp only [List.map_cons, if_neg hk, if_neg (h1 ▸ hk), List.cons.injEq,
          Prod.mk.injEq]
        exact ⟨⟨h1, h2⟩, ih qs h3⟩

theorem vproj_modify {β : Type} (F : Vertex → β) (gA gB : Graph) (k : Key)
    (f : Vertex → Vertex)
    (hf : ∀ v w, F v = F w → F (f v) = F (f w))
    (h : vproj F gA = vproj F gB) :
    vproj F (gA.modifyVertex k f) = vproj F (gB.modifyVertex k f) := by
  unfold vproj at h ⊢
  unfold Graph.modifyVertex
  simp only at h ⊢
  refine Prod.ext ?_ (Prod.ext ?_ ?_)
  · exact map_inplace_congr F f k hf gA.vertices gB.vertices (congrArg Prod.fst h)
  · exact congrArg (fun t => t.2.1) h
  · exact congrArg (fun t => t.2.2) h

/-- A keyed rebuild of every vertex from topology data only produces
view-equal graphs from `topo`-equal graphs. -/
theorem map_eq_of_proj_eq {α β δ : Type} (T : α → β) (H : Key → β → δ) :
    ∀ (l1 l2 : List (Key × α)),
      (l1.map fun p => (p.1, T p.2)) = (l2.map fun p => (p.1, T p.2)) →
      (l1.map fun p => (p.1, H p.1 (T p.2))) = (l2.map fun p => (p.1, H p.1 (T p.2))) := by
  intro l1
  induction l1 with
  | nil =>
    intro l2 h
    cases l2 with
    | nil => rfl
    | cons q qs => simp at h
  | cons p ps ih =>
    intro l2 h
    cases l2 with
    | nil => simp at h
    | cons q qs =>
      simp only [List.map_cons, List.cons.injEq, Prod.mk.injEq] at h
      obtain ⟨⟨h1, h2⟩, h3⟩ := h
      simp only [List.map_cons, List.cons.injEq, Prod.mk.injEq]
      exact ⟨⟨h1, by rw [h1, h2]⟩, ih qs h3⟩


theorem sview_fields (gA gB : Graph) (s : Key)
    (h : vproj (sview s) gA = vproj (sview s) gB) (x : Key) :
    gA.colorAt x = gB.colorAt x ∧ gA.distOf x s = gB.distOf x s ∧
      gA.predOf x = gB.predOf x ∧
      ((gA.get_vertex x).map Vertex.connected_to).getD [] =
        ((gB.get_vertex x).map Vertex.connected_to).getD [] := by
  have hg := vproj_get (sview s) gA gB h x
  rcases hA : gA.get_vertex x with _ | vA <;> rcases hB : gB.get_vertex x with _ | vB
  · simp [Graph.colorAt, Graph.distOf, Graph.predOf, hA, hB]
  · rw [hA, hB] at hg
    simp at hg
  · rw [hA, hB] at hg
    simp at hg
  · rw [hA, hB] at hg
    simp only [Option.map_some', Option.some.injEq] at hg
    unfold sview at hg
    simp only [Prod.mk.injEq] at hg
    obtain ⟨h1, h2, h3, h4, h5⟩ := hg
    unfold Graph.colorAt Graph.distOf Graph.predOf
    rw [hA, hB]
    simp [h2, h3, h4, h5]

theorem dview_fields (gA gB : Graph) (s : Key)
    (h : vproj (dview s) gA = vproj (dview s) gB) (x : Key) :
    gA.distOf x s = gB.distOf x s ∧ gA.predOf x = gB.predOf x ∧
      ((gA.get_vertex x).map Vertex.connected_to).getD [] =
        ((gB.get_vertex x).map Vertex.connected_to).getD [] ∧
      (gA.get_vertex x).isSome = (gB.get_vertex x).isSome := by
  have hg := vproj_get (dview s) gA gB h x
  rcases hA : gA.get_vertex x with _ | vA <;> rcases hB : gB.get_vertex x with _ | vB
  · simp [Graph.distOf, Graph.predOf, hA, hB]
  · rw [hA, hB] at hg
    simp at hg
  · rw [hA, hB] at hg
    simp at hg
  · rw [hA, hB] at hg
    simp only [Option.map_some', Option.some.injEq] at hg
    unfold dview at hg
    simp only [Prod.mk.injEq] at hg
    obtain ⟨h1, h2, h3, h4⟩ := hg
    unfold Graph.distOf Graph.predOf
    rw [hA, hB]
    simp [h2, h3, h4]

theorem vproj_whiteCount (gA gB : Graph) (s : Key)
    (h : vproj (sview s) gA = vproj (sview s) gB) :
    gA.whiteCount = gB.whiteCount := by
  have h1 := congrArg Prod.fst h
  unfold vproj at h1
  simp only at h1
  have hc : ∀ g : Graph, g.whiteCount =
      (g.vertices.map fun p => (p.1, sview s p.2)).countP
        (fun q => decide (q.2.2.2.1 = WHITE)) := by
    intro g
    unfold Graph.whiteCount
    rw [List.countP_map]
    rfl
  rw [hc gA, hc gB, h1]

/-- `edge_list` through the adjacency view. -/
theorem edge_list_view (g : Graph) :
    g.edge_list = (g.vertices.map fun p => (p.1, p.2.connected_to)).flatMap
      fun t => t.2.map fun q => (t.1, q.1, q.2) := by
  unfold Graph.edge_list
  induction g.vertices with
  | nil => rfl
  | cons p ps ihl =>
    simp only [List.map_cons, List.flatMap_cons]
    rw [ihl]

theorem dview_edge_list (gA gB : Graph) (s : Key)
    (h : vproj (dview s) gA = vproj (dview s) gB) :
    gA.edge_list = gB.edge_list := by
  have h1 := congrArg Prod.fst h
  unfold vproj at h1
  simp only at h1
  have hadj : (gA.vertices.map fun p => (p.1, p.2.connected_to)) =
      gB.vertices.map fun p => (p.1, p.2.connected_to) := by
    have := congrArg (List.map fun t :
      Key × Key × List (Key × Int) × Int × Option Key => (t.1, t.2.2.1)) h1
    rw [List.map_map, List.map_map] at this
    exact this
  rw [edge_list_view, edge_list_view, hadj]

/-- What `bfs`'s initialisation leaves at a key, from topology data. -/
def initView (s k : Key) (t : Key × List (Key × Int)) :
    Key × List (Key × Int) × Nat × Int × Option Key :=
  if k = s then (t.1, t.2, GRAY, 0, none) else (t.1, t.2, WHITE, maxsize, none)

theorem bfs_init_view (g : Graph) (s : Key) :
    (g.bfs_init s).vertices.map (fun p => (p.1, sview s p.2)) =
      g.vertices.map fun p => (p.1, initView s p.1 (p.2.id, p.2.connected_to)) := by
  unfold Graph.bfs_init
  dsimp only
  unfold Graph.modifyVertex
  simp only [List.map_map]
  apply List.map_congr_left
  intro p _
  by_cases hp : p.1 = s <;>
    simp [hp, sview, initView, Vertex.distAt, alookup_aset_self, Function.comp]

theorem bfs_init_det (gA gB : Graph) (s : Key) (h : topo gA = topo gB) :
    vproj (sview s) (gA.bfs_init s) = vproj (sview s) (gB.bfs_init s) := by
  unfold vproj
  refine Prod.ext ?_ (Prod.ext ?_ ?_)
  · simp only
    rw [bfs_init_view, bfs_init_view]
    have h1 : gA.vertices.map (fun p => (p.1, p.2.id, p.2.connected_to)) =
        gB.vertices.map (fun p => (p.1, p.2.id, p.2.connected_to)) := congrArg Prod.fst h
    exact map_eq_of_proj_eq (fun v => (v.id, v.connected_to)) (initView s)
      gA.vertices gB.vertices h1
  · show (gA.bfs_init s).num_vertices = (gB.bfs_init s).num_vertices
    have hn : ∀ g : Graph, (g.bfs_init s).num_vertices = g.num_vertices := fun g => rfl
    rw [hn, hn]
    exact congrArg (fun t : List (Key × Key × List (Key × Int)) × Nat × Bool => t.2.1) h
  · show (gA.bfs_init s).directed = (gB.bfs_init s).directed
    have hd : ∀ g : Graph, (g.bfs_init s).directed = g.directed := fun g => rfl
    rw [hd, hd]
    exact congrArg (fun t : List (Key × Key × List (Key × Int)) × Nat × Bool => t.2.2) h

/-- What `initialize_single_source` leaves at a key, from topology data. -/
def dinitView (s k : Key) (t : Key × List (Key × Int)) :
    Key × List (Key × Int) × Int × Option Key :=
  if k = s then (t.1, t.2, 0, none) else (t.1, t.2, maxsize, none)

theorem iss_view (g : Graph) (s : Key) :
    (g.initialize_single_source s).vertices.map (fun p => (p.1, dview s p.2)) =
      g.vertices.map fun p => (p.1, dinitView s p.1 (p.2.id, p.2.connected_to)) := by
  unfold Graph.initialize_single_source
  dsimp only
  unfold Graph.modifyVertex
  simp only [List.map_map]
  apply List.map_congr_left
  intro p _
  by_cases hp : p.1 = s <;>
    simp [hp, dview, dinitView, Vertex.distAt, alookup_aset_self, Function.comp]

theorem iss_det (gA gB : Graph) (s : Key) (h : topo gA = topo gB) :
    vproj (dview s) (gA.initialize_single_source s) =
      vproj (dview s) (gB.initialize_single_source s) := by
  unfold vproj
  refine Prod.ext ?_ (Prod.ext ?_ ?_)
  · simp only
    rw [iss_view, iss_view]
    have h1 : gA.vertices.map (fun p => (p.1, p.2.id, p.2.connected_to)) =
        gB.vertices.map (fun p => (p.1, p.2.id, p.2.connected_to)) := congrArg Prod.fst h
    exact map_eq_of_proj_eq (fun v => (v.id, v.connected_to)) (dinitView s)
      gA.vertices gB.vertices h1
  · show (gA.initialize_single_source s).num_vertices =
      (gB.initialize_single_source s).num_vertices
    rw [iss_num, iss_num]
    exact congrArg (fun t : List (Key × Key × List (Key × Int)) × Nat × Bool => t.2.1) h
  · show (gA.initialize_single_source s).directed = (gB.initialize_single_source s).directed
    have hd : ∀ g : Graph, (g.initialize_single_source s).directed = g.directed :=
      fun g => rfl
    rw [hd, hd]
    exact congrArg (fun t : List (Key × Key × List (Key × Int)) × Nat × Bool => t.2.2) h

/-- The scan/relax vertex updates respect the views. -/
theorem sview_congr_update (s : Key) (cnew : Nat) (d : Int) (pnew : Option Key) :
    ∀ v w : Vertex, sview s v = sview s w →
      sview s { v with color := cnew, dist := aset v.dist s d, predecessor := pnew } =
        sview s { w with color := cnew, dist := aset w.dist s d, predecessor := pnew } := by
  intro v w h
  unfold sview Vertex.distAt at h ⊢
  dsimp only
  simp only [Prod.mk.injEq] at h
  obtain ⟨h1, h2, h3, h4, h5⟩ := h
  rw [h1, h2, alookup_aset_self, alookup_aset_self]

theorem sview_congr_color (s : Key) (cnew : Nat) :
    ∀ v w : Vertex, sview s v = sview s w →
      sview s { v with color := cnew } = sview s { w with color := cnew } := by
  intro v w h
  unfold sview Vertex.distAt at h ⊢
  dsimp only
  simp only [Prod.mk.injEq] at h
  obtain ⟨h1, h2, h3, h4, h5⟩ := h
  rw [h1, h2, h4, h5]

theorem dview_congr_update (s : Key) (d : Int) (pnew : Option Key) :
    ∀ v w : Vertex, dview s v = dview s w →
      dview s { v with dist := aset v.dist s d, predecessor := pnew } =
        dview s { w with dist := aset w.dist s d, predecessor := pnew } := by
  intro v w h
  unfold dview Vertex.distAt at h ⊢
  dsimp only
  simp only [Prod.mk.injEq] at h
  obtain ⟨h1, h2, h3, h4⟩ := h
  rw [h1, h2, alookup_aset_self, alookup_aset_self]


theorem bfs_scan_det (s u : Key) :
    ∀ (adj : List (Key × Int)) (gA gB : Graph) (acc : List Key),
      vproj (sview s) gA = vproj (sview s) gB →
      vproj (sview s) (gA.bfs_scan s u acc adj).1 =
          vproj (sview s) (gB.bfs_scan s u acc adj).1 ∧
        (gA.bfs_scan s u acc adj).2 = (gB.bfs_scan s u acc adj).2 := by
  intro adj
  induction adj with
  | nil => intro gA gB acc h; exact ⟨h, rfl⟩
  | cons q rest ih =>
    intro gA gB acc h
    have hcol : gA.colorAt q.1 = gB.colorAt q.1 := (sview_fields gA gB s h q.1).1
    have hdu : gA.distOf u s = gB.distOf u s := (sview_fields gA gB s h u).2.1
    by_cases hw : gA.colorAt q.1 = WHITE
    · have hwB : gB.colorAt q.1 = WHITE := by rw [← hcol]; exact hw
      have eA : gA.bfs_scan s u acc (q :: rest) =
          (gA.modifyVertex q.1 fun v =>
            { v with color := GRAY, dist := aset v.dist s (gA.distOf u s + 1),
                     predecessor := some u }).bfs_scan s u (acc ++ [q.1]) rest := by
        simp [Graph.bfs_scan, hw]
      have eB : gB.bfs_scan s u acc (q :: rest) =
          (gB.modifyVertex q.1 fun v =>
            { v with color := GRAY, dist := aset v.dist s (gB.distOf u s + 1),
                     predecessor := some u }).bfs_scan s u (acc ++ [q.1]) rest := by
        simp [Graph.bfs_scan, hwB]
      rw [eA, eB, hdu]
      exact ih _ _ _
        (vproj_modify (sview s) gA gB q.1 _
          (sview_congr_update s GRAY (gB.distOf u s + 1) (some u)) h)
    · have hwB : ¬gB.colorAt q.1 = WHITE := by rw [← hcol]; exact hw
      have eA : gA.bfs_scan s u acc (q :: rest) = gA.bfs_scan s u acc rest := by
        simp [Graph.bfs_scan, hw]
      have eB : gB.bfs_scan s u acc (q :: rest) = gB.bfs_scan s u acc rest := by
        simp [Graph.bfs_scan, hwB]
      rw [eA, eB]
      exact ih _ _ _ h

theorem bfs_loop_det (s : Key) :
    ∀ (fuel : Nat) (q : List Key) (gA gB : Graph),
      vproj (sview s) gA = vproj (sview s) gB →
      vproj (sview s) (Graph.bfs_loop s fuel gA q) =
        vproj (sview s) (Graph.bfs_loop s fuel gB q) := by
  intro fuel
  induction fuel with
  | zero => intro q gA gB h; exact h
  | succ f ih =>
    intro q gA gB h
    match q with
    | [] => exact h
    | u :: rest =>
      simp only [Graph.bfs_loop]
      have hadj : ((gA.get_vertex u).map Vertex.connected_to).getD [] =
          ((gB.get_vertex u).map Vertex.connected_to).getD [] :=
        (sview_fields gA gB s h u).2.2.2
      rw [hadj]
      obtain ⟨hsc, hacc⟩ := bfs_scan_det s u
        (((gB.get_vertex u).map Vertex.connected_to).getD []) gA gB [] h
      rw [hacc]
      exact ih _ _ _
        (vproj_modify (sview s) _ _ u _ (sview_congr_color s BLACK) hsc)

/-- The whole `bfs` run is determined by topology: the second run sees the
same topology and re-initialises everything it reads. -/
theorem bfs_det (gA gB : Graph) (s : Key) (h : topo gA = topo gB)
    (g1 g2 : Graph) (h1 : gA.bfs s = some g1) (h2 : gB.bfs s = some g2) :
    vproj (sview s) g1 = vproj (sview s) g2 := by
  unfold Graph.bfs at h1 h2
  rcases hA : gA.get_vertex s with _ | vA
  · rw [hA] at h1
    exact absurd h1 (by simp)
  · rcases hB : gB.get_vertex s with _ | vB
    · have hiso := isSome_eq_of_topo gA gB h s
      rw [hA, hB] at hiso
      simp at hiso
    · rw [hA] at h1
      rw [hB] at h2
      dsimp only at h1 h2
      injection h1 with h1
      injection h2 with h2
      subst h1
      subst h2
      have hinit := bfs_init_det gA gB s h
      have hwc : (gA.bfs_init s).whiteCount = (gB.bfs_init s).whiteCount :=
        vproj_whiteCount _ _ s hinit
      rw [hwc]
      exact bfs_loop_det s ((gB.bfs_init s).whiteCount + 2) [s] _ _ hinit

theorem relax_det (gA gB : Graph) (s u v : Key) (w : Int)
    (h : vproj (dview s) gA = vproj (dview s) gB) :
    vproj (dview s) (gA.relax s u v w) = vproj (dview s) (gB.relax s u v w) := by
  unfold Graph.relax
  have hdu : gA.distOf u s = gB.distOf u s := (dview_fields gA gB s h u).1
  have hdv : gA.distOf v s = gB.distOf v s := (dview_fields gA gB s h v).1
  rw [hdu, hdv]
  by_cases hc : gB.distOf v s > gB.distOf u s + w
  · rw [if_pos hc, if_pos hc]
    exact vproj_modify (dview s) gA gB v _
      (dview_congr_update s (gB.distOf u s + w) (some u)) h
  · rw [if_neg hc, if_neg hc]
    exact h

theorem relax_fold_det (s : Key) (es : List (Key × Key × Int)) :
    ∀ (gA gB : Graph), vproj (dview s) gA = vproj (dview s) gB →
      vproj (dview s) (es.foldl (fun h e => h.relax s e.1 e.2.1 e.2.2) gA) =
        vproj (dview s) (es.foldl (fun h e => h.relax s e.1 e.2.1 e.2.2) gB) := by
  induction es with
  | nil => intro gA gB h; exact h
  | cons e es ih =>
    intro gA gB h
    rw [List.foldl_cons, List.foldl_cons]
    exact ih _ _ (relax_det gA gB s e.1 e.2.1 e.2.2 h)

theorem bf_pass_det (gA gB : Graph) (s : Key)
    (h : vproj (dview s) gA = vproj (dview s) gB) :
    vproj (dview s) (gA.bf_pass s) = vproj (dview s) (gB.bf_pass s) := by
  unfold Graph.bf_pass
  rw [dview_edge_list gA gB s h]
  exact relax_fold_det s gB.edge_list gA gB h

theorem bf_iter_det (s : Key) :
    ∀ (n : Nat) (gA gB : Graph), vproj (dview s) gA = vproj (dview s) gB →
      vproj (dview s) ((fun h => h.bf_pass s)^[n] gA) =
        vproj (dview s) ((fun h => h.bf_pass s)^[n] gB) := by
  intro n
  induction n with
  | zero => intro gA gB h; exact h
  | succ k ih =>
    intro gA gB h
    rw [Function.iterate_succ_apply, Function.iterate_succ_apply]
    exact ih _ _ (bf_pass_det gA gB s h)

theorem list_any_congr {α : Type} :
    ∀ (l : List α) (p q : α → Bool), (∀ x ∈ l, p x = q x) → l.any p = l.any q := by
  intro l
  induction l with
  | nil => intro p q _; rfl
  | cons x xs ih =>
    intro p q h
    simp only [List.any_cons]
    rw [h x (List.mem_cons_self x xs), ih p q (fun y hy => h y (List.mem_cons_of_mem x hy))]

theorem bf_check_det (gA gB : Graph) (s : Key)
    (h : vproj (dview s) gA = vproj (dview s) gB) :
    gA.bf_check s = gB.bf_check s := by
  unfold Graph.bf_check
  rw [dview_edge_list gA gB s h]
  apply list_any_congr
  intro e _
  rw [(dview_fields gA gB s h e.1).1, (dview_fields gA gB s h e.2.1).1]

/-- The whole `bellman_ford` run is determined by topology. -/
theorem bellman_ford_det (gA gB : Graph) (s : Key) (h : topo gA = topo gB)
    (r1 r2 : Graph × Bool)
    (h1 : gA.bellman_ford s = some r1) (h2 : gB.bellman_ford s = some r2) :
    vproj (dview s) r1.1 = vproj (dview s) r2.1 ∧ r1.2 = r2.2 := by
  unfold Graph.bellman_ford at h1 h2
  rcases hA : gA.get_vertex s with _ | vA
  · rw [hA] at h1
    exact absurd h1 (by simp)
  · rcases hB : gB.get_vertex s with _ | vB
    · have hiso := isSome_eq_of_topo gA gB h s
      rw [hA, hB] at hiso
      simp at hiso
    · rw [hA] at h1
      rw [hB] at h2
      dsimp only at h1 h2
      injection h1 with h1
      injection h2 with h2
      subst h1
      subst h2
      have hinit := iss_det gA gB s h
      have hnum : gA.num_vertices = gB.num_vertices :=
        congrArg (fun t : List (Key × Key × List (Key × Int)) × Nat × Bool => t.2.1) h
      have hn : (gA.initialize_single_source s).num_vertices =
          (gB.initialize_single_source s).num_vertices := by
        rw [iss_num, iss_num, hnum]
      rw [hn]
      have hfin := bf_iter_det s ((gB.initialize_single_source s).num_vertices - 1)
        _ _ hinit
      exact ⟨hfin, bf_check_det _ _ s hfin⟩

theorem rwpu_det (gA gB : Graph) (s u v : Key) (w : Int) (pq : MPQ)
    (h : vproj (dview s) gA = vproj (dview s) gB) :
    vproj (dview s) (gA.relax_with_priority_update s u v w pq).1 =
        vproj (dview s) (gB.relax_with_priority_update s u v w pq).1 ∧
      (gA.relax_with_priority_update s u v w pq).2 =
        (gB.relax_with_priority_update s u v w pq).2 := by
  unfold Graph.relax_with_priority_update
  have hdu : gA.distOf u s = gB.distOf u s := (dview_fields gA gB s h u).1
  have hdv : gA.distOf v s = gB.distOf v s := (dview_fields gA gB s h v).1
  rw [hdu, hdv]
  by_cases hc : gB.distOf v s > gB.distOf u s + w
  · rw [if_pos hc, if_pos hc]
    dsimp only
    exact ⟨vproj_modify (dview s) gA gB v _
      (dview_congr_update s (gB.distOf u s + w) (some u)) h, rfl⟩
  · rw [if_neg hc, if_neg hc]
    exact ⟨h, rfl⟩

theorem rwpu_fold_det (s u : Key) (adj : List (Key × Int)) :
    ∀ (gA gB : Graph) (pq : MPQ), vproj (dview s) gA = vproj (dview s) gB →
      vproj (dview s) (adj.foldl
          (fun st p => st.1.relax_with_priority_update s u p.1 p.2 st.2) (gA, pq)).1 =
        vproj (dview s) (adj.foldl
          (fun st p => st.1.relax_with_priority_update s u p.1 p.2 st.2) (gB, pq)).1 ∧
      (adj.foldl (fun st p => st.1.relax_with_priority_update s u p.1 p.2 st.2)
          (gA, pq)).2 =
        (adj.foldl (fun st p => st.1.relax_with_priority_update s u p.1 p.2 st.2)
          (gB, pq)).2 := by
  induction adj with
  | nil => intro gA gB pq h; exact ⟨h, rfl⟩
  | cons q rest ih =>
    intro gA gB pq h
    rw [List.foldl_cons, List.foldl_cons]
    dsimp only
    obtain ⟨hg, hpq⟩ := rwpu_det gA gB s u q.1 q.2 pq h
    have hA : gA.relax_with_priority_update s u q.1 q.2 pq =
        ((gA.relax_with_priority_update s u q.1 q.2 pq).1,
          (gA.relax_with_priority_update s u q.1 q.2 pq).2) := rfl
    have hB : gB.relax_with_priority_update s u q.1 q.2 pq =
        ((gB.relax_with_priority_update s u q.1 q.2 pq).1,
          (gB.relax_with_priority_update s u q.1 q.2 pq).2) := rfl
    rw [hA, hB, hpq]
    exact ih _ _ _ hg

theorem dijkstra_loop_det (s : Key) :
    ∀ (fuel : Nat) (pq : MPQ) (gA gB : Graph),
      vproj (dview s) gA = vproj (dview s) gB →
      (Graph.dijkstra_loop s fuel gA pq).map (vproj (dview s)) =
        (Graph.dijkstra_loop s fuel gB pq).map (vproj (dview s)) := by
  intro fuel
  induction fuel with
  | zero => intro pq gA gB h; rfl
  | succ f ih =>
    intro pq gA gB h
    simp only [Graph.dijkstra_loop]
    rcases hpop : MPQ.pop_entry pq with _ | ⟨⟨u, pr⟩, pq'⟩
    · simp only [Option.map_some', h]
    · simp only
      have hadj : ((gA.get_vertex u).map Vertex.connected_to).getD [] =
          ((gB.get_vertex u).map Vertex.connected_to).getD [] :=
        (dview_fields gA gB s h u).2.2.1
      rw [hadj]
      obtain ⟨hg, hpq⟩ := rwpu_fold_det s u
        (((gB.get_vertex u).map Vertex.connected_to).getD []) gA gB pq' h
      rw [hpq]
      exact ih _ _ _ hg

/-- The priority-queue build of `dijkstra` is determined by the view. -/
theorem pq_build_det (s : Key) :
    ∀ (ks : List Key) (gA gB : Graph) (pq : MPQ),
      vproj (dview s) gA = vproj (dview s) gB →
      ks.foldl (fun pq k =>
          match gA.get_vertex k with
          | some v => MPQ.add_task pq k (v.distAt s)
          | none => pq) pq =
        ks.foldl (fun pq k =>
          match gB.get_vertex k with
          | some v => MPQ.add_task pq k (v.distAt s)
          | none => pq) pq := by
  intro ks
  induction ks with
  | nil => intro gA gB pq h; rfl
  | cons k ks ih =>
    intro gA gB pq h
    rw [List.foldl_cons, List.foldl_cons]
    have hg := vproj_get (dview s) gA gB h k
    rcases hA : gA.get_vertex k with _ | vA <;> rcases hB : gB.get_vertex k with _ | vB
    · dsimp only
      exact ih gA gB pq h
    · rw [hA, hB] at hg
      simp at hg
    · rw [hA, hB] at hg
      simp at hg
    · rw [hA, hB] at hg
      simp only [Option.map_some', Option.some.injEq] at hg
      have hd : vA.distAt s = vB.distAt s := congrArg (fun t => t.2.2.1) hg
      dsimp only
      rw [hd]
      exact ih gA gB (MPQ.add_task pq k (vB.distAt s)) h

/-- The whole `dijkstra` run (at a given fuel) is determined by topology. -/
theorem dijkstra_det (gA gB : Graph) (s : Key) (fuel : Nat) (h : topo gA = topo gB)
    (g1 g2 : Graph) (h1 : gA.dijkstra s fuel = some g1) (h2 : gB.dijkstra s fuel = some g2) :
    vproj (dview s) g1 = vproj (dview s) g2 := by
  unfold Graph.dijkstra at h1 h2
  rcases hA : gA.get_vertex s with _ | vA
  · rw [hA] at h1
    exact absurd h1 (by simp)
  · rcases hB : gB.get_vertex s with _ | vB
    · have hiso := isSome_eq_of_topo gA gB h s
      rw [hA, hB] at hiso
      simp at hiso
    · rw [hA] at h1
      rw [hB] at h2
      dsimp only at h1 h2
      have hinit := iss_det gA gB s h
      have hkeys : (gA.initialize_single_source s).get_vertices =
          (gB.initialize_single_source s).get_vertices :=
        vproj_keys (dview s) _ _ hinit
      rw [hkeys] at h1
      rw [pq_build_det s (gB.initialize_single_source s).get_vertices
        (gA.initialize_single_source s) (gB.initialize_single_source s) [] hinit] at h1
      have := dijkstra_loop_det s fuel
        ((gB.initialize_single_source s).get_vertices.foldl
          (fun pq k =>
            match (gB.initialize_single_source s).get_vertex k with
            | some v => MPQ.add_task pq k (v.distAt s)
            | none => pq) [])
        _ _ hinit
      rw [h1, h2] at this
      simp only [Option.map_some', Option.some.injEq] at this
      exact this


/-!  Claim C9: repeated runs are stable. -/

/-- C9: for every graph and source, running `bfs`, `dijkstra` (at any fuel)
or `bellman_ford` a second time from the same source on the graph the first
run produced leaves every vertex's `dist[source]` and predecessor exactly
as the first run left them: each algorithm re-initialises everything it
reads, so both runs are determined by the (preserved) topology alone. -/
theorem repeat_run_stable (g : Graph) (s : Key) :
    (∀ g1 g2, g.bfs s = some g1 → g1.bfs s = some g2 →
      ∀ x, g2.distOf x s = g1.distOf x s ∧ g2.predOf x = g1.predOf x) ∧
    (∀ fuel g1 g2, g.dijkstra s fuel = some g1 → g1.dijkstra s fuel = some g2 →
      ∀ x, g2.distOf x s = g1.distOf x s ∧ g2.predOf x = g1.predOf x) ∧
    (∀ g1 b1 g2 b2, g.bellman_ford s = some (g1, b1) →
      g1.bellman_ford s = some (g2, b2) →
      b2 = b1 ∧ ∀ x, g2.distOf x s = g1.distOf x s ∧ g2.predOf x = g1.predOf x) := by
  refine ⟨?_, ?_, ?_⟩
  · intro g1 g2 h1 h2 x
    have ht : topo g1 = topo g := topo_bfs g s g1 h1
    have hv := bfs_det g g1 s ht.symm g1 g2 h1 h2
    obtain ⟨_, hd, hp, _⟩ := sview_fields g1 g2 s hv x
    exact ⟨hd.symm, hp.symm⟩
  · intro fuel g1 g2 h1 h2 x
    have ht : topo g1 = topo g := topo_dijkstra g s fuel g1 h1
    have hv := dijkstra_det g g1 s fuel ht.symm g1 g2 h1 h2
    obtain ⟨hd, hp, _, _⟩ := dview_fields g1 g2 s hv x
    exact ⟨hd.symm, hp.symm⟩
  · intro g1 b1 g2 b2 h1 h2
    have ht : topo g1 = topo g := topo_bellman_ford g s g1 b1 h1
    have hv := bellman_ford_det g g1 s ht.symm (g1, b1) (g2, b2) h1 h2
    refine ⟨hv.2.symm, ?_⟩
    intro x
    obtain ⟨hd, hp, _, _⟩ := dview_fields g1 g2 s hv.1 x
    exact ⟨hd.symm, hp.symm⟩

/-- C9, witness: two consecutive `bfs(10)` runs on the single-edge graph
`10 →⁷ 20` agree at vertex `20`. -/
theorem repeat_run_stable_witness :
    (pairGraph.bfs 10 = some ((pairGraph.bfs 10).getD pairGraph)) ∧
    (((pairGraph.bfs 10).getD pairGraph).bfs 10 =
        some ((((pairGraph.bfs 10).getD pairGraph).bfs 10).getD pairGraph)) ∧
    ((((pairGraph.bfs 10).getD pairGraph).bfs 10).getD pairGraph).distOf 20 10 =
        ((pairGraph.bfs 10).getD pairGraph).distOf 20 10 ∧
    ((((pairGraph.bfs 10).getD pairGraph).bfs 10).getD pairGraph).predOf 20 =
        ((pairGraph.bfs 10).getD pairGraph).predOf 20 :=
  ⟨by decide, by decide,
    (repeat_run_stable pairGraph 10).1 _ _ (by decide) (by decide) 20⟩


/-!  Claim C3 infrastructure: `dijkstra` under non-negative weights. -/

/-- The graph component of `relax_with_priority_update` is exactly
`relax`. -/
theorem rwpu_graph (g : Graph) (s u v : Key) (w : Int) (pq : MPQ) :
    (g.relax_with_priority_update s u v w pq).1 = g.relax s u v w := by
  unfold Graph.relax_with_priority_update Graph.relax
  by_cases h : g.distOf v s > g.distOf u s + w
  · rw [if_pos h, if_pos h]
  · rw [if_neg h, if_neg h]

/-- The queue component of `relax_with_priority_update`. -/
theorem rwpu_pq (g : Graph) (s u v : Key) (w : Int) (pq : MPQ) :
    (g.relax_with_priority_update s u v w pq).2 =
      if g.distOf v s > g.distOf u s + w
      then MPQ.add_task pq v (g.distOf u s + w) else pq := by
  unfold Graph.relax_with_priority_update
  by_cases h : g.distOf v s > g.distOf u s + w
  · rw [if_pos h, if_pos h]
  · rw [if_neg h, if_neg h]

theorem pop_entry_none_iff (pq : MPQ) : MPQ.pop_entry pq = none ↔ pq = [] := by
  cases pq with
  | nil => simp [MPQ.pop_entry]
  | cons e rest =>
    simp only [MPQ.pop_entry]
    rcases MPQ.pop_entry rest with _ | ⟨e', rest'⟩
    · simp
    · by_cases h : e.2 ≤ e'.2 <;> simp [h]

theorem pop_entry_length (pq : MPQ) (e : Key × Int) (pq' : MPQ)
    (h : MPQ.pop_entry pq = some (e, pq')) : pq'.length + 1 = pq.length := by
  induction pq generalizing e pq' with
  | nil => exact absurd h (by simp [MPQ.pop_entry])
  | cons e0 rest ih =>
    simp only [MPQ.pop_entry] at h
    rcases hr : MPQ.pop_entry rest with _ | ⟨e1, rest1⟩
    · rw [hr] at h
      dsimp only at h
      simp only [Option.some.injEq, Prod.mk.injEq] at h
      rw [← h.2]
      have : rest = [] := (pop_entry_none_iff rest).mp hr
      rw [this]
      rfl
    · rw [hr] at h
      dsimp only at h
      by_cases hle : e0.2 ≤ e1.2
      · rw [if_pos hle] at h
        simp only [Option.some.injEq, Prod.mk.injEq] at h
        rw [← h.2]
        rfl
      · rw [if_neg hle] at h
        simp only [Option.some.injEq, Prod.mk.injEq] at h
        rw [← h.2]
        simp only [List.length_cons]
        rw [ih e1 rest1 hr]

theorem pop_entry_keys (pq : MPQ) (e : Key × Int) (pq' : MPQ)
    (h : MPQ.pop_entry pq = some (e, pq')) :
    ∀ k ∈ pq.map Prod.fst, k = e.1 ∨ k ∈ pq'.map Prod.fst := by
  induction pq generalizing e pq' with
  | nil => exact absurd h (by simp [MPQ.pop_entry])
  | cons e0 rest ih =>
    intro k hk
    simp only [List.map_cons, List.mem_cons] at hk
    simp only [MPQ.pop_entry] at h
    rcases hr : MPQ.pop_entry rest with _ | ⟨e1, rest1⟩
    · rw [hr] at h
      dsimp only at h
      simp only [Option.some.injEq, Prod.mk.injEq] at h
      rcases hk with hk | hk
      · exact Or.inl (by rw [hk, h.1])
      · have : rest = [] := (pop_entry_none_iff rest).mp hr
        rw [this] at hk
        exact absurd hk (by simp)
    · rw [hr] at h
      dsimp only at h
      by_cases hle : e0.2 ≤ e1.2
      · rw [if_pos hle] at h
        simp only [Option.some.injEq, Prod.mk.injEq] at h
        rcases hk with hk | hk
        · exact Or.inl (by rw [hk, h.1])
        · right
          rw [← h.2]
          exact hk
      · rw [if_neg hle] at h
        simp only [Option.some.injEq, Prod.mk.injEq] at h
        rcases hk with hk | hk
        · right
          rw [← h.2]
          simp [hk]
        · rcases ih e1 rest1 hr k hk with h1 | h1
          · exact Or.inl (by rw [h1, h.1])
          · right
            rw [← h.2]
            simp only [List.map_cons, List.mem_cons]
            exact Or.inr h1

theorem aset_keys_mem {α : Type} (l : List (Key × α)) (k k' : Key) (a : α)
    (h : k ∈ l.map Prod.fst) : k ∈ (aset l k' a).map Prod.fst := by
  by_cases hm : k' ∈ l.map Prod.fst
  · rw [aset_keys_of_mem l k' a ((alookup_isSome_iff_mem_keys l k').mpr hm)]
    exact h
  · rw [aset_keys_of_absent l k' a ((alookup_eq_none_iff l k').mpr hm)]
    simp only [List.mem_append]
    exact Or.inl h

theorem aset_keys_self {α : Type} (l : List (Key × α)) (k : Key) (a : α) :
    k ∈ (aset l k a).map Prod.fst := by
  by_cases hm : k ∈ l.map Prod.fst
  · rw [aset_keys_of_mem l k a ((alookup_isSome_iff_mem_keys l k).mpr hm)]
    exact hm
  · rw [aset_keys_of_absent l k a ((alookup_eq_none_iff l k).mpr hm)]
    simp

/-- Adjacency lists are `topo`-determined. -/
theorem adj_eq_of_topo (g1 g2 : Graph) (h : topo g1 = topo g2) (x : Key) :
    (g1.get_vertex x).map Vertex.connected_to =
      (g2.get_vertex x).map Vertex.connected_to :=
  alookup_map_eq Vertex.connected_to g1.vertices g2.vertices (topo_adj_proj g1 g2 h) x

/-- Adjacency entries give `edge_list` members. -/
theorem adj_mem_edge_list (g : Graph) (u : Key) (vx : Vertex)
    (hu : alookup g.vertices u = some vx) (q : Key × Int) (hq : q ∈ vx.connected_to) :
    (u, q.1, q.2) ∈ g.edge_list := by
  unfold Graph.edge_list
  rw [List.mem_flatMap]
  refine ⟨(u, vx), alookup_mem _ _ _ hu, ?_⟩
  rw [List.mem_map]
  exact ⟨q, hq, rfl⟩

/-- `relax` leaves vertices other than the target untouched. -/
theorem relax_distOf_ne (g : Graph) (s u v : Key) (w : Int) (x : Key) (hx : x ≠ v) :
    (g.relax s u v w).distOf x s = g.distOf x s := by
  rcases relax_cases g s u v w x with h | ⟨hxv, _, _, _⟩
  · exact h
  · exact absurd hxv hx

/-- The graph threaded through a `relax_with_priority_update` fold is the
plain `relax` fold. -/
theorem rwpu_fold_graph (s u : Key) (adj : List (Key × Int)) :
    ∀ (g : Graph) (pq : MPQ),
      (adj.foldl (fun st p => st.1.relax_with_priority_update s u p.1 p.2 st.2)
          (g, pq)).1 =
        (adj.map fun p => (u, p.1, p.2)).foldl
          (fun h e => h.relax s e.1 e.2.1 e.2.2) g := by
  induction adj with
  | nil => intro g pq; rfl
  | cons q rest ih =>
    intro g pq
    rw [List.foldl_cons, List.map_cons, List.foldl_cons]
    have he : g.relax_with_priority_update s u q.1 q.2 pq =
        ((g.relax_with_priority_update s u q.1 q.2 pq).1,
          (g.relax_with_priority_update s u q.1 q.2 pq).2) := rfl
    rw [he, rwpu_graph]
    exact ih _ _

/-- Sources of the mapped edge triples are all `u`. -/
theorem relax_fold_src_const (s u : Key) :
    ∀ (es : List (Key × Key × Int)), (∀ e ∈ es, e.1 = u) → (∀ e ∈ es, 0 ≤ e.2.2) →
      ∀ g : Graph,
        (es.foldl (fun h e => h.relax s e.1 e.2.1 e.2.2) g).distOf u s = g.distOf u s := by
  intro es
  induction es with
  | nil => intro _ _ g; rfl
  | cons e rest ih =>
    intro hsrc hw g
    rw [List.foldl_cons]
    rw [ih (fun e' he' => hsrc e' (List.mem_cons_of_mem e he'))
      (fun e' he' => hw e' (List.mem_cons_of_mem e he'))]
    rcases relax_cases g s e.1 e.2.1 e.2.2 u with h | ⟨hxv, _, hlt, hval⟩
    · exact h
    · have hsu : e.1 = u := hsrc e (List.mem_cons_self e rest)
      have hw0 : 0 ≤ e.2.2 := hw e (List.mem_cons_self e rest)
      rw [hsu] at hlt
      rw [← hxv] at hlt
      omega

/-- Relax folds keep every `dist[s]` non-negative when the edge weights
are. -/
theorem relax_fold_nonneg (s : Key) :
    ∀ (es : List (Key × Key × Int)), (∀ e ∈ es, 0 ≤ e.2.2) →
      ∀ g : Graph, (∀ x, 0 ≤ g.distOf x s) →
        ∀ x, 0 ≤ (es.foldl (fun h e => h.relax s e.1 e.2.1 e.2.2) g).distOf x s := by
  intro es
  induction es with
  | nil => intro _ g hg x; exact hg x
  | cons e rest ih =>
    intro hw g hg
    rw [List.foldl_cons]
    refine ih (fun e' he' => hw e' (List.mem_cons_of_mem e he')) _ ?_
    intro x
    rcases relax_cases g s e.1 e.2.1 e.2.2 x with h | ⟨_, _, _, hval⟩
    · rw [h]
      exact hg x
    · rw [hval]
      have := hg e.1
      have := hw e (List.mem_cons_self e rest)
      omega


theorem rwpu_fold_keys (s u : Key) (adj : List (Key × Int)) :
    ∀ (g : Graph) (pq : MPQ) (k : Key), k ∈ pq.map Prod.fst →
      k ∈ (adj.foldl (fun st p => st.1.relax_with_priority_update s u p.1 p.2 st.2)
        (g, pq)).2.map Prod.fst := by
  induction adj with
  | nil => intro g pq k h; exact h
  | cons q rest ih =>
    intro g pq k h
    rw [List.foldl_cons]
    have he : g.relax_with_priority_update s u q.1 q.2 pq =
        ((g.relax_with_priority_update s u q.1 q.2 pq).1,
          (g.relax_with_priority_update s u q.1 q.2 pq).2) := rfl
    rw [he]
    apply ih
    rw [rwpu_pq]
    by_cases hc : g.distOf q.1 s > g.distOf u s + q.2
    · rw [if_pos hc]
      unfold MPQ.add_task
      exact aset_keys_mem pq k q.1 _ h
    · rw [if_neg hc]
      exact h

/-- The relaxation invariant at non-scanned sources survives a scan
fold. -/
theorem rwpu_fold_inv (s u : Key) (adj : List (Key × Int)) :
    ∀ (g : Graph) (pq : MPQ) (a b : Key) (w : Int), a ≠ u →
      (g.distOf b s ≤ g.distOf a s + w ∨ a ∈ pq.map Prod.fst) →
      ((adj.foldl (fun st p => st.1.relax_with_priority_update s u p.1 p.2 st.2)
          (g, pq)).1.distOf b s ≤
        (adj.foldl (fun st p => st.1.relax_with_priority_update s u p.1 p.2 st.2)
          (g, pq)).1.distOf a s + w ∨
        a ∈ (adj.foldl (fun st p => st.1.relax_with_priority_update s u p.1 p.2 st.2)
          (g, pq)).2.map Prod.fst) := by
  induction adj with
  | nil => intro g pq a b w _ hd; exact hd
  | cons q rest ih =>
    intro g pq a b w hau hd
    rw [List.foldl_cons]
    have he : g.relax_with_priority_update s u q.1 q.2 pq =
        ((g.relax_with_priority_update s u q.1 q.2 pq).1,
          (g.relax_with_priority_update s u q.1 q.2 pq).2) := rfl
    rw [he, rwpu_graph, rwpu_pq]
    rcases hd with hb | hq
    · by_cases ha : a = q.1
      · by_cases hc : g.distOf q.1 s > g.distOf u s + q.2
        · rw [if_pos hc]
          refine ih _ _ a b w hau (Or.inr ?_)
          rw [ha]
          unfold MPQ.add_task
          exact aset_keys_self pq q.1 _
        · rw [if_neg hc]
          have hgr : g.relax s u q.1 q.2 = g := by
            unfold Graph.relax
            rw [if_neg hc]
          rw [hgr]
          exact ih _ _ a b w hau (Or.inl hb)
      · refine ih _ _ a b w hau (Or.inl ?_)
        calc (g.relax s u q.1 q.2).distOf b s
            ≤ g.distOf b s := relax_le g s u q.1 q.2 b
          _ ≤ g.distOf a s + w := hb
          _ = (g.relax s u q.1 q.2).distOf a s + w := by
              rw [relax_distOf_ne g s u q.1 q.2 a ha]
    · by_cases hc : g.distOf q.1 s > g.distOf u s + q.2
      · rw [if_pos hc]
        refine ih _ _ a b w hau (Or.inr ?_)
        unfold MPQ.add_task
        exact aset_keys_mem pq a q.1 _ hq
      · rw [if_neg hc]
        exact ih _ _ a b w hau (Or.inr hq)

/-- The per-state invariant of the `dijkstra` loop: every stored edge is
already relaxed or its source is still queued. -/
def DInv (g0 : Graph) (s : Key) (g : Graph) (pq : MPQ) : Prop :=
  ∀ a b w, edgeW g0 a b = some w →
    g.distOf b s ≤ g.distOf a s + w ∨ a ∈ pq.map Prod.fst

/-- When the `dijkstra` loop drains its queue, the result is a relaxation
fixpoint reached by only ever decreasing `dist[s]`, soundly. -/
theorem dijkstra_loop_fix (g0 : Graph) (hwf : WF g0) (hnn : NonNegWeights g0) (s : Key) :
    ∀ (fuel : Nat) (g : Graph) (pq : MPQ),
      topo g = topo g0 → Sound g0 g s → DInv g0 s g pq →
      ∀ gf, Graph.dijkstra_loop s fuel g pq = some gf →
        topo gf = topo g0 ∧ Sound g0 gf s ∧
        (∀ x, gf.distOf x s ≤ g.distOf x s) ∧
        (∀ a b w, edgeW g0 a b = some w → gf.distOf b s ≤ gf.distOf a s + w) := by
  intro fuel
  induction fuel with
  | zero =>
    intro g pq _ _ _ gf h
    exact absurd h (by simp [Graph.dijkstra_loop])
  | succ f ih =>
    intro g pq htopo hsound hinv gf h
    simp only [Graph.dijkstra_loop] at h
    rcases hpop : MPQ.pop_entry pq with _ | ⟨⟨u, pr⟩, pq'⟩
    · rw [hpop] at h
      dsimp only at h
      injection h with h
      subst h
      have hpqe : pq = [] := (pop_entry_none_iff pq).mp hpop
      refine ⟨htopo, hsound, fun x => le_refl _, ?_⟩
      intro a b w hw
      rcases hinv a b w hw with hb | hq
      · exact hb
      · rw [hpqe] at hq
        exact absurd hq (by simp)
    · rw [hpop] at h
      dsimp only at h
      have hadj : ((g.get_vertex u).map Vertex.connected_to).getD [] =
          ((g0.get_vertex u).map Vertex.connected_to).getD [] := by
        rw [adj_eq_of_topo g g0 htopo u]
      rw [hadj] at h
      rcases hg0u : g0.get_vertex u with _ | vx0
      · rw [hg0u] at h
        simp only [Option.map_none', Option.getD_none, List.foldl_nil] at h
        have hinv' : DInv g0 s g pq' := by
          intro a b w hw
          rcases hinv a b w hw with hb | hq
          · exact Or.inl hb
          · rcases pop_entry_keys pq (u, pr) pq' hpop a hq with hau | hq'
            · exfalso
              have := edgeW_source_stored g0 a b w hw
              rw [← alookup_isSome_iff_mem_keys] at this
              rw [hau] at this
              unfold Graph.get_vertex at hg0u
              rw [hg0u] at this
              exact absurd this (by simp)
            · exact Or.inr hq'
        exact ih g pq' htopo hsound hinv' gf h
      · rw [hg0u] at h
        simp only [Option.map_some', Option.getD_some] at h
        have hes : ∀ e ∈ vx0.connected_to.map fun p => ((u : Key), p.1, p.2),
            e ∈ g0.edge_list := by
          intro e he
          rw [List.mem_map] at he
          obtain ⟨q, hq, rfl⟩ := he
          exact adj_mem_edge_list g0 u vx0 hg0u q hq
        have hwnn : ∀ e ∈ vx0.connected_to.map fun p => ((u : Key), p.1, p.2),
            0 ≤ e.2.2 := by
          intro e he
          rw [List.mem_map] at he
          obtain ⟨q, hq, rfl⟩ := he
          exact hnn (u, vx0) (alookup_mem _ _ _ hg0u) q hq
        have hsrcs : ∀ e ∈ vx0.connected_to.map fun p => ((u : Key), p.1, p.2),
            e.1 = u := by
          intro e he
          rw [List.mem_map] at he
          obtain ⟨q, hq, rfl⟩ := he
          rfl
        have hst : ∀ e ∈ vx0.connected_to.map fun p => ((u : Key), p.1, p.2),
            (g.get_vertex e.2.1).isSome = true := by
          intro e he
          rw [isSome_eq_of_topo g g0 htopo]
          exact edge_target_stored g0 hwf e.1 e.2.1 e.2.2 (hes e he)
        have hgr := rwpu_fold_graph s u vx0.connected_to g pq'
        have htopo' : topo (vx0.connected_to.foldl
            (fun st p => st.1.relax_with_priority_update s u p.1 p.2 st.2) (g, pq')).1 =
            topo g0 := by
          rw [hgr, relax_fold_topo, htopo]
        have hsound' : Sound g0 (vx0.connected_to.foldl
            (fun st p => st.1.relax_with_priority_update s u p.1 p.2 st.2) (g, pq')).1 s := by
          rw [hgr]
          exact relax_fold_sound g0 hwf s _ hes g htopo hsound
        have hle : ∀ x, (vx0.connected_to.foldl
            (fun st p => st.1.relax_with_priority_update s u p.1 p.2 st.2)
              (g, pq')).1.distOf x s ≤ g.distOf x s := by
          intro x
          rw [hgr]
          exact relax_fold_le s _ g x
        have hinv' : DInv g0 s
            (vx0.connected_to.foldl
              (fun st p => st.1.relax_with_priority_update s u p.1 p.2 st.2) (g, pq')).1
            (vx0.connected_to.foldl
              (fun st p => st.1.relax_with_priority_update s u p.1 p.2 st.2) (g, pq')).2 := by
          intro a b w hw
          by_cases hau : a = u
          · left
            subst hau
            have hmem : (b, w) ∈ vx0.connected_to := by
              unfold edgeW at hw
              rw [show alookup g0.vertices a = some vx0 from hg0u] at hw
              exact alookup_mem _ _ _ hw
            have he : ((a : Key), b, w) ∈ vx0.connected_to.map
                fun p => ((a : Key), p.1, p.2) := by
              rw [List.mem_map]
              exact ⟨(b, w), hmem, rfl⟩
            have h1 := relax_fold_edge s (vx0.connected_to.map fun p => ((a : Key), p.1, p.2))
              g hst ((a : Key), b, w) he
            have h2 := relax_fold_src_const s a
              (vx0.connected_to.map fun p => ((a : Key), p.1, p.2)) hsrcs hwnn g
            rw [hgr]
            simp only at h1 h2
            rw [h2]
            exact h1
          · have hd0 : g.distOf b s ≤ g.distOf a s + w ∨ a ∈ pq'.map Prod.fst := by
              rcases hinv a b w hw with hb | hq
              · exact Or.inl hb
              · rcases pop_entry_keys pq (u, pr) pq' hpop a hq with h1 | h1
                · exact absurd h1 hau
                · exact Or.inr h1
            exact rwpu_fold_inv s u vx0.connected_to g pq' a b w hau hd0
        obtain ⟨hft, hfs, hfl, hfx⟩ := ih _ _ htopo' hsound' hinv' gf h
        exact ⟨hft, hfs, fun x => le_trans (hfl x) (hle x), hfx⟩


theorem edgeW_nonneg (g : Graph) (hnn : NonNegWeights g) (u v : Key) (w : Int)
    (h : edgeW g u v = some w) : 0 ≤ w := by
  unfold edgeW at h
  rcases hu : alookup g.vertices u with _ | vx
  · rw [hu] at h
    exact absurd h (by simp)
  · rw [hu] at h
    exact hnn (u, vx) (alookup_mem _ _ _ hu) (v, w) (alookup_mem _ _ _ h)

theorem walkCost_nonneg (g : Graph) (hnn : NonNegWeights g) :
    ∀ (l : List Key) (u : Key) (c : Int), walkCost g u l = some c → 0 ≤ c := by
  intro l
  induction l with
  | nil =>
    intro u c hc
    unfold walkCost at hc
    simp only [Option.some.injEq] at hc
    omega
  | cons x xs ih =>
    intro u c hc
    unfold walkCost at hc
    rcases hw : edgeW g u x with _ | w
    · rw [hw] at hc
      exact absurd hc (by simp)
    · rw [hw] at hc
      rcases hc' : walkCost g x xs with _ | c'
      · rw [hc'] at hc
        exact absurd hc (by simp)
      · rw [hc'] at hc
        simp only [Option.map_some', Option.some.injEq] at hc
        have h1 := edgeW_nonneg g hnn u x w hw
        have h2 := ih x c' hc'
        omega

theorem not_negCycle_of_nonneg (g : Graph) (hnn : NonNegWeights g) :
    ¬HasNegCycle g := by
  rintro ⟨u, l, c, hw, _, hneg⟩
  have := walkCost_nonneg g hnn l u c hw.1
  omega

theorem pq_build_mem (g : Graph) (s : Key) :
    ∀ (ks : List Key) (pq : MPQ) (k : Key),
      (k ∈ pq.map Prod.fst ∨ (k ∈ ks ∧ (g.get_vertex k).isSome = true)) →
      k ∈ (ks.foldl (fun pq k =>
        match g.get_vertex k with
        | some v => MPQ.add_task pq k (v.distAt s)
        | none => pq) pq).map Prod.fst := by
  intro ks
  induction ks with
  | nil =>
    intro pq k h
    rcases h with h | ⟨h, _⟩
    · exact h
    · exact absurd h (by simp)
  | cons k0 ks ih =>
    intro pq k h
    rw [List.foldl_cons]
    rcases hv : g.get_vertex k0 with _ | v0
    · apply ih
      rcases h with h | ⟨hm, hsome⟩
      · exact Or.inl h
      · rcases List.mem_cons.mp hm with hk | hk
        · rw [hk] at hsome
          rw [hv] at hsome
          exact absurd hsome (by simp)
        · exact Or.inr ⟨hk, hsome⟩
    · apply ih
      rcases h with h | ⟨hm, hsome⟩
      · left
        unfold MPQ.add_task
        exact aset_keys_mem pq k k0 _ h
      · rcases List.mem_cons.mp hm with hk | hk
        · left
          rw [hk]
          unfold MPQ.add_task
          exact aset_keys_self pq k0 _
        · exact Or.inr ⟨hk, hsome⟩

/-- Under non-negative weights, whatever fuel lets `dijkstra` finish, the
resulting `dist[s]` of every stored vertex is the Bellman–Ford value
function at `(stored count) - 1`. -/
theorem dijkstra_dist (g : Graph) (hwf : WF g) (hnn : NonNegWeights g) (s : Key)
    (fuel : Nat) (gf : Graph) (h : g.dijkstra s fuel = some gf) :
    ∀ v ∈ g.vertices.map Prod.fst,
      gf.distOf v s = bfSpec g s (g.vertices.length - 1) v := by
  unfold Graph.dijkstra at h
  rcases hvs : g.get_vertex s with _ | vs
  · rw [hvs] at h
    exact absurd h (by simp)
  · rw [hvs] at h
    dsimp only at h
    have htopo0 : topo (g.initialize_single_source s) = topo g := topo_iss g s
    have hsound0 : Sound g (g.initialize_single_source s) s := iss_sound g s
    have hkeys : (g.initialize_single_source s).vertices.map Prod.fst =
        g.vertices.map Prod.fst := keys_eq_of_topo _ g htopo0
    have hinv0 : DInv g s (g.initialize_single_source s)
        ((g.initialize_single_source s).get_vertices.foldl
          (fun pq k =>
            match (g.initialize_single_source s).get_vertex k with
            | some v => MPQ.add_task pq k (v.distAt s)
            | none => pq) []) := by
      intro a b w hw
      right
      apply pq_build_mem
      right
      have ha : a ∈ g.vertices.map Prod.fst := edgeW_source_stored g a b w hw
      constructor
      · show a ∈ (g.initialize_single_source s).vertices.map Prod.fst
        rw [hkeys]
        exact ha
      · rw [isSome_eq_of_topo _ g htopo0]
        unfold Graph.get_vertex
        rw [alookup_isSome_iff_mem_keys]
        exact ha
    obtain ⟨hft, hfs, hfl, hfx⟩ :=
      dijkstra_loop_fix g hwf hnn s fuel _ _ htopo0 hsound0 hinv0 gf h
    have hnc : ¬HasNegCycle g := not_negCycle_of_nonneg g hnn
    intro v hv
    have hvsome : (g.get_vertex v).isSome = true := by
      unfold Graph.get_vertex
      rw [alookup_isSome_iff_mem_keys]
      exact hv
    apply le_antisymm
    · obtain ⟨u, l, c, hwk, hl, hval⟩ :=
        bfSpec_attained g hwf s (g.vertices.length - 1) v
      rw [hval]
      have hedges : ∀ e ∈ g.edge_list,
          gf.distOf e.2.1 s ≤ gf.distOf e.1 s + e.2.2 := by
        intro e he
        exact hfx e.1 e.2.1 e.2.2 ((mem_edge_list_iff g hwf e.1 e.2.1 e.2.2).mp (by
          rcases e with ⟨a, b, w⟩
          exact he))
      have hb := no_relax_walk_bound g hwf (fun x => gf.distOf x s) hedges l u v c hwk
      have hus : (g.get_vertex u).isSome = true := by
        rcases l with _ | ⟨y, ys⟩
        · obtain ⟨hvu, _⟩ := (walk_nil_iff g u v c).mp hwk
          rw [← hvu]
          exact hvsome
        · unfold Graph.get_vertex
          rw [alookup_isSome_iff_mem_keys]
          exact walk_start_stored g (y :: ys) u c hwk.1 (by simp)
      have hup : gf.distOf u s ≤ pot s u := by
        have h1 := hfl u
        rw [iss_distOf, if_pos hus] at h1
        exact h1
      simp only at hb
      omega
    · have hvf : (gf.get_vertex v).isSome = true := by
        rw [isSome_eq_of_topo gf g hft]
        exact hvsome
      obtain ⟨u, l, c, hwk, hd⟩ := hfs v hvf
      obtain ⟨l', c', hw', hl', hc'⟩ :=
        walk_shorten g hwf hnc l.length l u v c (le_refl _) hwk
      have h1 := bfSpec_le_walk g hwf s (g.vertices.length - 1) l' u v c' hw' hl'
      omega


/-- Termination measure for the `dijkstra` loop: total stored distance mass
plus queue length. -/
def distSum (g : Graph) (s : Key) : Nat :=
  (g.vertices.map fun p => (p.2.distAt s).toNat).sum

theorem map_inplace_absent {α : Type} (t : Key) (f : α → α) :
    ∀ (l : List (Key × α)), t ∉ l.map Prod.fst →
      (l.map fun p => if p.1 = t then (p.1, f p.2) else p) = l := by
  intro l
  induction l with
  | nil => intro _; rfl
  | cons p ps ih =>
    intro h
    simp only [List.map_cons, List.mem_cons] at h
    push_neg at h
    rw [List.map_cons, if_neg (fun hp => h.1 hp.symm), ih h.2]

theorem distSum_list_modify (s t : Key) (f : Vertex → Vertex) :
    ∀ (l : List (Key × Vertex)), (l.map Prod.fst).Nodup →
      ∀ vt, alookup l t = some vt →
      ((l.map fun p => if p.1 = t then (p.1, f p.2) else p).map
          fun p => (p.2.distAt s).toNat).sum + (vt.distAt s).toNat =
        (l.map fun p => (p.2.distAt s).toNat).sum + ((f vt).distAt s).toNat := by
  intro l
  induction l with
  | nil => intro _ vt hvt; exact absurd hvt (by simp [alookup])
  | cons p ps ih =>
    intro hnod vt hvt
    simp only [List.map_cons, List.nodup_cons] at hnod
    by_cases hp : p.1 = t
    · have hv : p.2 = vt := by
        unfold alookup at hvt
        rw [if_pos hp] at hvt
        exact Option.some.inj hvt
      have habs : t ∉ ps.map Prod.fst := by
        rw [← hp]
        exact hnod.1
      rw [List.map_cons, if_pos hp, map_inplace_absent t f ps habs]
      simp only [List.map_cons, List.sum_cons, hv]
      omega
    · have hvt' : alookup ps t = some vt := by
        unfold alookup at hvt
        rw [if_neg hp] at hvt
        exact hvt
      have := ih hnod.2 vt hvt'
      simp only [List.map_cons, if_neg hp, List.sum_cons]
      omega

theorem distSum_modify (s t : Key) (f : Vertex → Vertex) (g : Graph)
    (hnod : (g.vertices.map Prod.fst).Nodup) (vt : Vertex)
    (hvt : alookup g.vertices t = some vt) :
    distSum (g.modifyVertex t f) s + (vt.distAt s).toNat =
      distSum g s + ((f vt).distAt s).toNat :=
  distSum_list_modify s t f g.vertices hnod vt hvt

theorem relax_nonneg_step (g : Graph) (s u t : Key) (w : Int)
    (hpos : ∀ x, 0 ≤ g.distOf x s) (hw : 0 ≤ w) :
    ∀ x, 0 ≤ (g.relax s u t w).distOf x s := by
  intro x
  rcases relax_cases g s u t w x with h | ⟨_, _, _, hval⟩
  · rw [h]
    exact hpos x
  · rw [hval]
    have := hpos u
    omega

theorem rwpu_measure (s u : Key) (q : Key × Int) (g : Graph) (pq : MPQ)
    (hnod : (g.vertices.map Prod.fst).Nodup)
    (hpos : ∀ x, 0 ≤ g.distOf x s) (hw : 0 ≤ q.2) :
    distSum (g.relax_with_priority_update s u q.1 q.2 pq).1 s +
        (g.relax_with_priority_update s u q.1 q.2 pq).2.length ≤
      distSum g s + pq.length := by
  rw [rwpu_graph, rwpu_pq]
  by_cases hc : g.distOf q.1 s > g.distOf u s + q.2
  · rw [if_pos hc]
    have hd0 : 0 ≤ g.distOf u s + q.2 := by
      have := hpos u
      omega
    have htpos : 0 < g.distOf q.1 s := by omega
    rcases hvt : g.get_vertex q.1 with _ | vt
    · exfalso
      unfold Graph.distOf at htpos
      rw [hvt] at htpos
      simp at htpos
    · have hold : vt.distAt s = g.distOf q.1 s := by
        unfold Graph.distOf
        rw [hvt]
        rfl
      have hlen : (MPQ.add_task pq q.1 (g.distOf u s + q.2)).length ≤ pq.length + 1 := by
        unfold MPQ.add_task
        by_cases hm : (alookup pq q.1).isSome = true
        · rw [aset_length_of_mem pq q.1 _ hm]
          omega
        · have hno : alookup pq q.1 = none := by
            rcases hx : alookup pq q.1 with _ | x
            · rfl
            · rw [hx] at hm
              exact absurd rfl hm
          rw [aset_length_of_absent pq q.1 _ hno]
      have hrelax : g.relax s u q.1 q.2 = g.modifyVertex q.1 fun vx =>
          { vx with dist := aset vx.dist s (g.distOf u s + q.2),
                    predecessor := some u } := by
        unfold Graph.relax
        rw [if_pos hc]
      have hsum := distSum_modify s q.1
        (fun vx =>
          { vx with
            dist := aset vx.dist s (g.distOf u s + q.2)
            predecessor := some u })
        g hnod vt hvt
      dsimp only at hsum
      have hnewv : Vertex.distAt
          { id := vt.id, connected_to := vt.connected_to,
            dist := aset vt.dist s (g.distOf u s + q.2), color := vt.color,
            predecessor := some u } s = g.distOf u s + q.2 := by
        unfold Vertex.distAt
        simp only
        rw [alookup_aset_self]
        rfl
      rw [hnewv] at hsum
      rw [hrelax]
      have hto : ((g.distOf u s + q.2).toNat) + 1 ≤ (vt.distAt s).toNat := by
        rw [hold]
        omega
      omega
  · rw [if_neg hc]
    have hg : g.relax s u q.1 q.2 = g := by
      unfold Graph.relax
      rw [if_neg hc]
    rw [hg]

theorem rwpu_fold_measure (s u : Key) (adj : List (Key × Int)) :
    ∀ (g : Graph) (pq : MPQ),
      (g.vertices.map Prod.fst).Nodup → (∀ x, 0 ≤ g.distOf x s) →
      (∀ q ∈ adj, 0 ≤ q.2) →
      distSum (adj.foldl
          (fun st p => st.1.relax_with_priority_update s u p.1 p.2 st.2) (g, pq)).1 s +
        (adj.foldl
          (fun st p => st.1.relax_with_priority_update s u p.1 p.2 st.2) (g, pq)).2.length ≤
      distSum g s + pq.length := by
  induction adj with
  | nil => intro g pq _ _ _; exact le_refl _
  | cons q rest ih =>
    intro g pq hnod hpos hw
    rw [List.foldl_cons]
    have he : g.relax_with_priority_update s u q.1 q.2 pq =
        ((g.relax_with_priority_update s u q.1 q.2 pq).1,
          (g.relax_with_priority_update s u q.1 q.2 pq).2) := rfl
    rw [he]
    have h1 := rwpu_measure s u q g pq hnod hpos (hw q (List.mem_cons_self q rest))
    have hnod' : (((g.relax_with_priority_update s u q.1 q.2 pq).1).vertices.map
        Prod.fst).Nodup := by
      rw [rwpu_graph]
      unfold Graph.relax
      by_cases hc : g.distOf q.1 s > g.distOf u s + q.2
      · rw [if_pos hc, modify_keys]
        exact hnod
      · rw [if_neg hc]
        exact hnod
    have hpos' : ∀ x, 0 ≤ ((g.relax_with_priority_update s u q.1 q.2 pq).1).distOf x s := by
      rw [rwpu_graph]
      exact relax_nonneg_step g s u q.1 q.2 hpos (hw q (List.mem_cons_self q rest))
    have h2 := ih (g.relax_with_priority_update s u q.1 q.2 pq).1
      (g.relax_with_priority_update s u q.1 q.2 pq).2 hnod' hpos'
      (fun q' hq' => hw q' (List.mem_cons_of_mem q hq'))
    omega

/-- With non-negative weights an adequate fuel always drains the queue. -/
theorem dijkstra_loop_terminates (g0 : Graph) (hwf : WF g0) (hnn : NonNegWeights g0)
    (s : Key) :
    ∀ (fuel : Nat) (g : Graph) (pq : MPQ),
      topo g = topo g0 → (∀ x, 0 ≤ g.distOf x s) →
      distSum g s + pq.length < fuel →
      ∃ gf, Graph.dijkstra_loop s fuel g pq = some gf := by
  intro fuel
  induction fuel with
  | zero => intro g pq _ _ hm; omega
  | succ f ih =>
    intro g pq htopo hpos hm
    simp only [Graph.dijkstra_loop]
    rcases hpop : MPQ.pop_entry pq with _ | ⟨⟨u, pr⟩, pq'⟩
    · exact ⟨g, rfl⟩
    · dsimp only
      have hlen := pop_entry_length pq (u, pr) pq' hpop
      have hnod : (g.vertices.map Prod.fst).Nodup := by
        rw [keys_eq_of_topo g g0 htopo]
        exact hwf.1
      have hadj : ((g.get_vertex u).map Vertex.connected_to).getD [] =
          ((g0.get_vertex u).map Vertex.connected_to).getD [] := by
        rw [adj_eq_of_topo g g0 htopo u]
      rw [hadj]
      rcases hg0u : g0.get_vertex u with _ | vx0
      · simp only [Option.map_none', Option.getD_none, List.foldl_nil]
        apply ih g pq' htopo hpos
        omega
      · simp only [Option.map_some', Option.getD_some]
        have hwnn : ∀ q ∈ vx0.connected_to, 0 ≤ q.2 :=
          fun q hq => hnn (u, vx0) (alookup_mem _ _ _ hg0u) q hq
        have hmes := rwpu_fold_measure s u vx0.connected_to g pq' hnod hpos hwnn
        have hgr := rwpu_fold_graph s u vx0.connected_to g pq'
        have htopo' : topo (vx0.connected_to.foldl
            (fun st p => st.1.relax_with_priority_update s u p.1 p.2 st.2) (g, pq')).1 =
            topo g0 := by
          rw [hgr, relax_fold_topo, htopo]
        have hpos' : ∀ x, 0 ≤ (vx0.connected_to.foldl
            (fun st p => st.1.relax_with_priority_update s u p.1 p.2 st.2)
              (g, pq')).1.distOf x s := by
          rw [hgr]
          apply relax_fold_nonneg
          · intro e he
            rw [List.mem_map] at he
            obtain ⟨q, hq, rfl⟩ := he
            exact hwnn q hq
          · exact hpos
        apply ih _ _ htopo' hpos'
        omega


/-!  Claim C3: Dijkstra against Bellman–Ford on non-negative weights. -/

theorem dijkstra_terminates (g : Graph) (hwf : WF g) (hnn : NonNegWeights g) (s : Key)
    (hs : (g.get_vertex s).isSome = true) :
    ∃ fuel gf, g.dijkstra s fuel = some gf := by
  rcases hvs : g.get_vertex s with _ | vs
  · rw [hvs] at hs
    exact absurd hs (by simp)
  · have hpos0 : ∀ x, 0 ≤ (g.initialize_single_source s).distOf x s := by
      intro x
      rw [iss_distOf]
      by_cases hx : (g.get_vertex x).isSome = true
      · rw [if_pos hx]
        unfold pot maxsize
        by_cases hxs : x = s
        · rw [if_pos hxs]
        · rw [if_neg hxs]
          omega
      · rw [if_neg hx]
    obtain ⟨gf, hgf⟩ := dijkstra_loop_terminates g hwf hnn s
      (distSum (g.initialize_single_source s) s +
        ((g.initialize_single_source s).get_vertices.foldl
          (fun pq k =>
            match (g.initialize_single_source s).get_vertex k with
            | some v => MPQ.add_task pq k (v.distAt s)
            | none => pq) ([] : MPQ)).length + 1)
      _ _ (topo_iss g s) hpos0 (Nat.lt_succ_self _)
    refine ⟨distSum (g.initialize_single_source s) s +
        ((g.initialize_single_source s).get_vertices.foldl
          (fun pq k =>
            match (g.initialize_single_source s).get_vertex k with
            | some v => MPQ.add_task pq k (v.distAt s)
            | none => pq) ([] : MPQ)).length + 1, gf, ?_⟩
    unfold Graph.dijkstra
    rw [hvs]
    dsimp only
    exact hgf

/-- C3: on a well-formed graph with non-negative edge weights and the
source stored, `dijkstra` terminates (some fuel suffices), and whenever it
returns, `bellman_ford` from the same source returns without raising and
assigns every stored vertex the same `dist[source]`. -/
theorem dijkstra_bellman_ford_agree (g : Graph) (s : Key) (hwf : WF g)
    (hnn : NonNegWeights g) (hs : (g.get_vertex s).isSome = true) :
    (∃ fuel gf, g.dijkstra s fuel = some gf) ∧
    ∀ fuel gf, g.dijkstra s fuel = some gf →
      ∃ gb, g.bellman_ford s = some (gb, false) ∧
        ∀ v ∈ g.vertices.map Prod.fst, gf.distOf v s = gb.distOf v s := by
  constructor
  · exact dijkstra_terminates g hwf hnn s hs
  · intro fuel gf h
    have hnc : ¬HasNegCycle g := not_negCycle_of_nonneg g hnn
    rcases hvs : g.get_vertex s with _ | vs
    · rw [hvs] at hs
      exact absurd hs (by simp)
    · refine ⟨(fun h => h.bf_pass s)^[g.vertices.length - 1]
        (g.initialize_single_source s), ?_, ?_⟩
      · unfold Graph.bellman_ford
        rw [hvs]
        dsimp only
        have hn : (g.initialize_single_source s).num_vertices = g.vertices.length := by
          rw [iss_num]
          exact hwf.2.2.2.2
        rw [hn]
        have hchk : ((fun h => h.bf_pass s)^[g.vertices.length - 1]
            (g.initialize_single_source s)).bf_check s = false := by
          rcases hb : ((fun h => h.bf_pass s)^[g.vertices.length - 1]
              (g.initialize_single_source s)).bf_check s
          · exact hb
          · exact absurd ((bf_check_iff g hwf s).mp hb) hnc
        rw [hchk]
      · intro v hv
        rw [dijkstra_dist g hwf hnn s fuel gf h v hv]
        rw [bf_final_dist g hwf hnc s v (by
          unfold Graph.get_vertex
          rw [alookup_isSome_iff_mem_keys]
          exact hv)]

/-- C3, witness: the amended agreement applied on the demo graph from
source `0` with fuel `100`. -/
theorem dijkstra_bellman_ford_agree_witness :
    WF demoGraph ∧ NonNegWeights demoGraph ∧
      (demoGraph.get_vertex 0).isSome = true ∧
      demoGraph.dijkstra 0 100 = some ((demoGraph.dijkstra 0 100).getD demoGraph) ∧
      (∃ gb, demoGraph.bellman_ford 0 = some (gb, false) ∧
        ∀ v ∈ demoGraph.vertices.map Prod.fst,
          ((demoGraph.dijkstra 0 100).getD demoGraph).distOf v 0 = gb.distOf v 0) :=
  ⟨by decide, by decide, by decide, by decide,
    (dijkstra_bellman_ford_agree demoGraph 0 (by decide) (by decide) (by decide)).2
      100 ((demoGraph.dijkstra 0 100).getD demoGraph) (by decide)⟩


/-!  Claim C1 infrastructure: BFS and minimum hop counts. -/

/-- `n` is the minimum number of edges on any path `s → v`. -/
def MinHops (g : Graph) (s v : Key) (n : Nat) : Prop :=
  ReachHops g s v n ∧ ∀ m, ReachHops g s v m → n ≤ m

theorem minHops_unique (g : Graph) (s v : Key) (n m : Nat)
    (hn : MinHops g s v n) (hm : MinHops g s v m) : n = m :=
  le_antisymm (hn.2 m hm.1) (hm.2 n hn.1)

theorem exists_minHops (g : Graph) (s v : Key) :
    ∀ (n : Nat), ReachHops g s v n → ∃ m, MinHops g s v m := by
  intro n
  induction n using Nat.strong_induction_on with
  | _ n ih =>
    intro hn
    by_cases h : ∃ k, k < n ∧ ReachHops g s v k
    · obtain ⟨k, hk, hrk⟩ := h
      exact ih k hk hrk
    · push_neg at h
      refine ⟨n, hn, ?_⟩
      intro m hm
      by_contra hlt
      exact absurd hm (h m (by omega))

theorem reach_step_edgeW (g : Graph) (s u v : Key) (w : Int) (n : Nat)
    (hu : ReachHops g s u n) (he : edgeW g u v = some w) :
    ReachHops g s v (n + 1) := by
  unfold edgeW at he
  rcases hvx : alookup g.vertices u with _ | vx
  · rw [hvx] at he
    exact absurd he (by simp)
  · rw [hvx] at he
    exact ReachHops.step hu vx hvx (alookup_mem _ _ _ he)

theorem reach_parent (g : Graph) (hwf : WF g) (s v : Key) (n : Nat)
    (h : ReachHops g s v (n + 1)) :
    ∃ u w, ReachHops g s u n ∧ edgeW g u v = some w := by
  rcases h with _ | @⟨u, _, w, _, hu, vx, hvx, hmem⟩
  refine ⟨u, w, hu, ?_⟩
  unfold edgeW
  rw [hvx]
  exact mem_alookup_of_nodup _ (hwf.2.2.2.1 (u, vx) (alookup_mem _ _ _ hvx)) _ _ hmem

/-- The predecessor chain of the run `g'` climbs from `v` back to the
source through real edges of `g`, one per step. -/
inductive PredsToSource (g g' : Graph) (s : Key) : Key → Nat → Prop where
  | src : PredsToSource g g' s s 0
  | step {v u : Key} {n : Nat} (hp : g'.predOf v = some u)
      (he : ∃ w, edgeW g u v = some w) (h : PredsToSource g g' s u n) :
      PredsToSource g g' s v (n + 1)

theorem alookup_map_cond {α : Type} (s : Key) (f : α → α) :
    ∀ (l : List (Key × α)) (k : Key),
      alookup (l.map fun p => if p.1 = s then p else (p.1, f p.2)) k =
        (alookup l k).map (fun a => if k = s then a else f a) := by
  intro l
  induction l with
  | nil => intro k; rfl
  | cons p ps ih =>
    intro k
    by_cases hps : p.1 = s
    · simp only [List.map_cons, if_pos hps]
      by_cases hk : p.1 = k
      · unfold alookup
        rw [if_pos hk, if_pos hk]
        rw [← hk]
        simp [hps]
      · unfold alookup
        rw [if_neg hk, if_neg hk]
        exact ih k
    · simp only [List.map_cons, if_neg hps]
      by_cases hk : p.1 = k
      · unfold alookup
        rw [if_pos hk, if_pos hk]
        have hks : ¬k = s := by rw [← hk]; exact hps
        simp [hks]
      · unfold alookup
        rw [if_neg hk, if_neg hk]
        exact ih k

theorem bfs_init_get_vertex (g : Graph) (s x : Key) :
    (g.bfs_init s).get_vertex x = (g.get_vertex x).map fun v =>
      if x = s then { v with color := GRAY, dist := aset v.dist s 0, predecessor := none }
      else
        { v with
          color := WHITE
          predecessor := none
          dist := aset v.dist s maxsize } := by
  unfold Graph.bfs_init
  dsimp only
  rw [get_vertex_modify]
  have hsweep : ∀ y : Key,
      Graph.get_vertex { g with vertices := g.vertices.map fun p =>
        if p.1 = s then p
        else
          (p.1,
            { p.2 with
              color := WHITE
              predecessor := none
              dist := aset p.2.dist s maxsize }) } y =
      (g.get_vertex y).map fun v =>
        if y = s then v
        else
          { v with
            color := WHITE
            predecessor := none
            dist := aset v.dist s maxsize } := by
    intro y
    exact alookup_map_cond s
      (fun v =>
        { v with
          color := WHITE
          predecessor := none
          dist := aset v.dist s maxsize })
      g.vertices y
  by_cases hx : x = s
  · rw [if_pos hx, hsweep]
    rcases g.get_vertex x with _ | vx
    · rfl
    · simp only [Option.map_some', if_pos hx]
  · rw [if_neg hx, hsweep]
    rcases g.get_vertex x with _ | vx
    · rfl
    · simp only [Option.map_some', if_neg hx]

theorem bfs_init_fields (g : Graph) (s x : Key)
    (hx : (g.get_vertex x).isSome = true) :
    (g.bfs_init s).colorAt x = (if x = s then GRAY else WHITE) ∧
      (g.bfs_init s).distOf x s = (if x = s then 0 else maxsize) ∧
      (g.bfs_init s).predOf x = none := by
  unfold Graph.colorAt Graph.distOf Graph.predOf
  rw [bfs_init_get_vertex]
  rcases hv : g.get_vertex x with _ | vx
  · rw [hv] at hx
    exact absurd hx (by simp)
  · by_cases hxs : x = s
    · simp only [Option.map_some', Option.getD_some, if_pos hxs]
      refine ⟨trivial, ?_, trivial⟩
      unfold Vertex.distAt
      simp only
      rw [alookup_aset_self]
      rfl
    · simp only [Option.map_some', Option.getD_some, if_neg hxs]
      refine ⟨trivial, ?_, trivial⟩
      unfold Vertex.distAt
      simp only
      rw [alookup_aset_self]
      rfl


theorem white_stored (h : Graph) (x : Key) (hw : h.colorAt x = WHITE) :
    (h.get_vertex x).isSome = true := by
  unfold Graph.colorAt at hw
  rcases hv : h.get_vertex x with _ | vx
  · rw [hv] at hw
    simp [WHITE, BLACK] at hw
  · rfl

theorem modify_fields_ne (h : Graph) (t : Key) (f : Vertex → Vertex) (x : Key)
    (hx : x ≠ t) (s : Key) :
    (h.modifyVertex t f).colorAt x = h.colorAt x ∧
      (h.modifyVertex t f).distOf x s = h.distOf x s ∧
      (h.modifyVertex t f).predOf x = h.predOf x := by
  unfold Graph.colorAt Graph.distOf Graph.predOf
  rw [get_vertex_modify, if_neg hx]
  exact ⟨rfl, rfl, rfl⟩

theorem scan_modify_fields (h : Graph) (s u t : Key) (d : Int)
    (ht : (h.get_vertex t).isSome = true) :
    (h.modifyVertex t fun v =>
        { v with color := GRAY, dist := aset v.dist s d, predecessor := some u }).colorAt t
        = GRAY ∧
      (h.modifyVertex t fun v =>
        { v with color := GRAY, dist := aset v.dist s d, predecessor := some u }).distOf t s
        = d ∧
      (h.modifyVertex t fun v =>
        { v with color := GRAY, dist := aset v.dist s d, predecessor := some u }).predOf t
        = some u := by
  unfold Graph.colorAt Graph.distOf Graph.predOf
  rw [get_vertex_modify, if_pos rfl]
  rcases hv : h.get_vertex t with _ | vt
  · rw [hv] at ht
    exact absurd ht (by simp)
  · simp only [Option.map_some', Option.getD_some]
    refine ⟨trivial, ?_, trivial⟩
    unfold Vertex.distAt
    simp only
    rw [alookup_aset_self]
    rfl

/-- Full specification of one adjacency scan of the BFS loop. -/
theorem bfs_scan_spec (s u : Key) :
    ∀ (adj : List (Key × Int)) (h : Graph) (acc : List Key),
      h.colorAt u ≠ WHITE →
      topo (h.bfs_scan s u acc adj).1 = topo h ∧
      ∃ nw : List Key,
        (h.bfs_scan s u acc adj).2 = acc ++ nw ∧
        (∀ x ∈ nw, x ∈ adj.map Prod.fst) ∧
        nw.Nodup ∧
        (∀ x ∈ nw, h.colorAt x = WHITE ∧
          (h.bfs_scan s u acc adj).1.colorAt x = GRAY ∧
          (h.bfs_scan s u acc adj).1.distOf x s = h.distOf u s + 1 ∧
          (h.bfs_scan s u acc adj).1.predOf x = some u) ∧
        (∀ x, x ∉ nw →
          (h.bfs_scan s u acc adj).1.colorAt x = h.colorAt x ∧
          (h.bfs_scan s u acc adj).1.distOf x s = h.distOf x s ∧
          (h.bfs_scan s u acc adj).1.predOf x = h.predOf x) ∧
        (∀ t ∈ adj.map Prod.fst, (h.bfs_scan s u acc adj).1.colorAt t ≠ WHITE) := by
  intro adj
  induction adj with
  | nil =>
    intro h acc _
    refine ⟨rfl, [], by simp [Graph.bfs_scan], by simp, by simp, by simp,
      fun x _ => ⟨rfl, rfl, rfl⟩, by simp⟩
  | cons q rest ih =>
    intro h acc hu
    by_cases hw : h.colorAt q.1 = WHITE
    · have hqu : q.1 ≠ u := fun he => hu (he ▸ hw)
      have hqs : (h.get_vertex q.1).isSome = true := white_stored h q.1 hw
      have heq : h.bfs_scan s u acc (q :: rest) =
          (h.modifyVertex q.1 fun v =>
            { v with color := GRAY, dist := aset v.dist s (h.distOf u s + 1),
                     predecessor := some u }).bfs_scan s u (acc ++ [q.1]) rest := by
        simp [Graph.bfs_scan, hw]
      set h1 := h.modifyVertex q.1 fun v =>
        { v with color := GRAY, dist := aset v.dist s (h.distOf u s + 1),
                 predecessor := some u } with hh1
      have htopo1 : topo h1 = topo h := by
        rw [hh1]
        exact topo_modify h q.1 _ (fun v => ⟨rfl, rfl⟩)
      have hufields := modify_fields_ne h q.1 (fun v =>
        { v with color := GRAY, dist := aset v.dist s (h.distOf u s + 1),
                 predecessor := some u }) u (fun he => hqu he.symm) s
      have hu1 : h1.colorAt u ≠ WHITE := by
        rw [hh1, hufields.1]
        exact hu
      have hq1 := scan_modify_fields h s u q.1 (h.distOf u s + 1) hqs
      have hq1c : h1.colorAt q.1 = GRAY := by rw [hh1]; exact hq1.1
      have hq1d : h1.distOf q.1 s = h.distOf u s + 1 := by rw [hh1]; exact hq1.2.1
      have hq1p : h1.predOf q.1 = some u := by rw [hh1]; exact hq1.2.2
      have hud : h1.distOf u s = h.distOf u s := by rw [hh1]; exact hufields.2.1
      obtain ⟨htsc, nw1, hacc, hmem, hnd, hnew, hold, hS3⟩ := ih h1 (acc ++ [q.1]) hu1
      have hq1nin : q.1 ∉ nw1 := by
        intro hmem1
        have := (hnew q.1 hmem1).1
        rw [hq1c] at this
        simp [GRAY, WHITE] at this
      rw [heq]
      refine ⟨by rw [htsc, htopo1], q.1 :: nw1, ?_, ?_, ?_, ?_, ?_, ?_⟩
      · rw [hacc]
        simp
      · intro x hx
        rcases List.mem_cons.mp hx with hx | hx
        · rw [hx]
          simp
        · have := hmem x hx
          simp only [List.map_cons, List.mem_cons]
          exact Or.inr this
      · rw [List.nodup_cons]
        exact ⟨hq1nin, hnd⟩
      · intro x hx
        rcases List.mem_cons.mp hx with hx | hx
        · subst hx
          obtain ⟨hc, hd, hp⟩ := hold q.1 hq1nin
          exact ⟨hw, by rw [hc, hq1c], by rw [hd, hq1d], by rw [hp, hq1p]⟩
        · obtain ⟨hcw, hc, hd, hp⟩ := hnew x hx
          have hxq : x ≠ q.1 := by
            intro he
            rw [he, hq1c] at hcw
            simp [GRAY, WHITE] at hcw
          have hfne := modify_fields_ne h q.1 (fun v =>
            { v with color := GRAY, dist := aset v.dist s (h.distOf u s + 1),
                     predecessor := some u }) x hxq s
          refine ⟨?_, hc, ?_, hp⟩
          · rw [← hfne.1, ← hh1]
            exact hcw
          · rw [hd, hud]
      · intro x hx
        have hx1 : x ≠ q.1 ∧ x ∉ nw1 := by
          constructor
          · intro he
            exact hx (he ▸ List.mem_cons_self q.1 nw1)
          · intro hm
            exact hx (List.mem_cons_of_mem q.1 hm)
        obtain ⟨hc, hd, hp⟩ := hold x hx1.2
        have hfne := modify_fields_ne h q.1 (fun v =>
          { v with color := GRAY, dist := aset v.dist s (h.distOf u s + 1),
                   predecessor := some u }) x hx1.1 s
        refine ⟨?_, ?_, ?_⟩
        · rw [hc, hh1, hfne.1]
        · rw [hd, hh1, hfne.2.1]
        · rw [hp, hh1, hfne.2.2]
      · intro t ht
        simp only [List.map_cons, List.mem_cons] at ht
        rcases ht with ht | ht
        · obtain ⟨hc, _, _⟩ := hold t (by rw [ht]; exact hq1nin)
          rw [ht] at hc ⊢
          rw [hc, hq1c]
          simp [GRAY, WHITE]
        · exact hS3 t ht
    · have heq : h.bfs_scan s u acc (q :: rest) = h.bfs_scan s u acc rest := by
        simp [Graph.bfs_scan, hw]
      obtain ⟨htsc, nw1, hacc, hmem, hnd, hnew, hold, hS3⟩ := ih h acc hu
      rw [heq]
      refine ⟨htsc, nw1, hacc, ?_, hnd, hnew, hold, ?_⟩
      · intro x hx
        have := hmem x hx
        simp only [List.map_cons, List.mem_cons]
        exact Or.inr this
      · intro t ht
        simp only [List.map_cons, List.mem_cons] at ht
        rcases ht with ht | ht
        · have htn : t ∉ nw1 := by
            intro hmem1
            have := (hnew t hmem1).1
            rw [ht] at this
            exact hw this
          rw [(hold t htn).1, ht]
          exact hw
        · exact hS3 t ht


theorem gray_stored (h : Graph) (x : Key) (hg : h.colorAt x = GRAY) :
    (h.get_vertex x).isSome = true := by
  unfold Graph.colorAt at hg
  rcases hv : h.get_vertex x with _ | vx
  · rw [hv] at hg
    simp [GRAY, BLACK] at hg
  · rfl

theorem black_modify_fields (h : Graph) (s u : Key)
    (hu : (h.get_vertex u).isSome = true) :
    (h.modifyVertex u fun v => { v with color := BLACK }).colorAt u = BLACK ∧
      (h.modifyVertex u fun v => { v with color := BLACK }).distOf u s = h.distOf u s ∧
      (h.modifyVertex u fun v => { v with color := BLACK }).predOf u = h.predOf u := by
  unfold Graph.colorAt Graph.distOf Graph.predOf
  rw [get_vertex_modify, if_pos rfl]
  rcases hv : h.get_vertex u with _ | vu
  · rw [hv] at hu
    exact absurd hu (by simp)
  · simp only [Option.map_some', Option.getD_some]
    exact ⟨trivial, rfl, trivial⟩

theorem reach_zero (g : Graph) (s v : Key) (h : ReachHops g s v 0) : v = s := by
  rcases h with _ | _
  rfl

theorem minHops_src (g : Graph) (s : Key) : MinHops g s s 0 :=
  ⟨ReachHops.refl, fun m _ => Nat.zero_le m⟩

/-- If every vertex strictly below level `d` is BLACK, then every vertex at
level `d` has already been discovered (the source at level `0`, the others
through a BLACK parent). -/
theorem disc_at_level (g : Graph) (hwf : WF g) (s : Key) (h : Graph) (d : Nat)
    (htopo : topo h = topo g)
    (hs : h.colorAt s ≠ WHITE)
    (hblack : ∀ x, (h.get_vertex x).isSome = true → h.colorAt x = BLACK →
      ∀ q0 ∈ ((h.get_vertex x).map Vertex.connected_to).getD [],
        h.colorAt q0.1 ≠ WHITE)
    (hlt : ∀ v, (h.get_vertex v).isSome = true →
      ∀ k, MinHops g s v k → k < d → h.colorAt v = BLACK)
    (v : Key) (hmh : MinHops g s v d) :
    h.colorAt v ≠ WHITE := by
  rcases d with _ | k
  · rw [reach_zero g s v hmh.1]
    exact hs
  · obtain ⟨u0, w, hu0, he⟩ := reach_parent g hwf s v k hmh.1
    obtain ⟨m, hm⟩ := exists_minHops g s u0 k hu0
    have hmk : m ≤ k := hm.2 k hu0
    have hu0st : (h.get_vertex u0).isSome = true := by
      rw [isSome_eq_of_topo h g htopo]
      unfold Graph.get_vertex
      rw [alookup_isSome_iff_mem_keys]
      exact edgeW_source_stored g u0 v w he
    have hu0b : h.colorAt u0 = BLACK := hlt u0 hu0st m hm (by omega)
    have hadj : ((h.get_vertex u0).map Vertex.connected_to).getD [] =
        ((g.get_vertex u0).map Vertex.connected_to).getD [] := by
      rw [adj_eq_of_topo h g htopo]
    have hmem : (v, w) ∈ ((h.get_vertex u0).map Vertex.connected_to).getD [] := by
      rw [hadj]
      unfold edgeW at he
      rcases hvx : alookup g.vertices u0 with _ | vx
      · rw [hvx] at he
        exact absurd he (by simp)
      · rw [hvx] at he
        show (v, w) ∈ ((Graph.get_vertex g u0).map Vertex.connected_to).getD []
        unfold Graph.get_vertex
        rw [hvx]
        exact alookup_mem _ _ _ he
    exact hblack u0 hu0st hu0b (v, w) hmem


/-- The BFS loop invariant: queue and colours classify discovery, every
discovered vertex carries its exact minimum hop count and a
shortest-path predecessor, WHITE vertices are untouched since the
initialisation, finished (BLACK) vertices have no WHITE neighbours, and
the queue spans at most two consecutive levels with everything strictly
below the current level finished. -/
def BInv (g : Graph) (s : Key) (h : Graph) (q : List Key) : Prop :=
  topo h = topo g ∧
  h.colorAt s ≠ WHITE ∧
  q.Nodup ∧
  (∀ x ∈ q, h.colorAt x = GRAY) ∧
  (∀ x, (h.get_vertex x).isSome = true → h.colorAt x = GRAY → x ∈ q) ∧
  (∀ x, (h.get_vertex x).isSome = true →
    h.colorAt x = WHITE ∨ h.colorAt x = GRAY ∨ h.colorAt x = BLACK) ∧
  (∀ x, (h.get_vertex x).isSome = true → h.colorAt x ≠ WHITE →
    (∃ n, MinHops g s x n ∧ h.distOf x s = (n : Int)) ∧
    (x = s → h.predOf x = none) ∧
    (x ≠ s → ∃ u, h.predOf x = some u ∧ (∃ w, edgeW g u x = some w) ∧
      (∃ m, MinHops g s u m ∧ MinHops g s x (m + 1)) ∧
      (h.get_vertex u).isSome = true ∧ h.colorAt u ≠ WHITE)) ∧
  (∀ x, (h.get_vertex x).isSome = true → h.colorAt x = WHITE →
    h.distOf x s = maxsize ∧ h.predOf x = none ∧ x ≠ s) ∧
  (∀ x, (h.get_vertex x).isSome = true → h.colorAt x = BLACK →
    ∀ q0 ∈ ((h.get_vertex x).map Vertex.connected_to).getD [],
      h.colorAt q0.1 ≠ WHITE) ∧
  (∃ d q1 q2, q = q1 ++ q2 ∧ (∀ x ∈ q1, MinHops g s x d) ∧
    (∀ x ∈ q2, MinHops g s x (d + 1)) ∧
    (∀ v, (h.get_vertex v).isSome = true →
      ∀ k, MinHops g s v k → k < d → h.colorAt v = BLACK))

theorem binv_init (g : Graph) (s : Key) (hs : (g.get_vertex s).isSome = true) :
    BInv g s (g.bfs_init s) [s] := by
  have hbt : topo (g.bfs_init s) = topo g := topo_bfs_init g s
  have hiso : ∀ x, ((g.bfs_init s).get_vertex x).isSome = (g.get_vertex x).isSome :=
    fun x => isSome_eq_of_topo _ g hbt x
  have hfields : ∀ x, (g.get_vertex x).isSome = true →
      (g.bfs_init s).colorAt x = (if x = s then GRAY else WHITE) ∧
      (g.bfs_init s).distOf x s = (if x = s then 0 else maxsize) ∧
      (g.bfs_init s).predOf x = none := fun x hx => bfs_init_fields g s x hx
  refine ⟨hbt, ?_, by simp, ?_, ?_, ?_, ?_, ?_, ?_, ?_⟩
  · rw [(hfields s hs).1, if_pos rfl]
    simp [GRAY, WHITE]
  · intro x hx
    rw [List.mem_singleton] at hx
    subst hx
    rw [(hfields x hs).1, if_pos rfl]
  · intro x hxs hg
    by_cases hxeq : x = s
    · rw [hxeq]
      exact List.mem_singleton_self s
    · rw [(hfields x (by rw [← hiso x]; exact hxs)).1, if_neg hxeq] at hg
      simp [GRAY, WHITE] at hg
  · intro x hxs
    rw [(hfields x (by rw [← hiso x]; exact hxs)).1]
    by_cases hxeq : x = s
    · rw [if_pos hxeq]
      exact Or.inr (Or.inl rfl)
    · rw [if_neg hxeq]
      exact Or.inl rfl
  · intro x hxs hnw
    have hxg : (g.get_vertex x).isSome = true := by rw [← hiso x]; exact hxs
    by_cases hxeq : x = s
    · subst hxeq
      refine ⟨⟨0, minHops_src g x, ?_⟩, fun _ => (hfields x hxg).2.2, fun hne => absurd rfl hne⟩
      rw [(hfields x hxg).2.1, if_pos rfl]
      simp
    · exfalso
      apply hnw
      rw [(hfields x hxg).1, if_neg hxeq]
  · intro x hxs hw
    have hxg : (g.get_vertex x).isSome = true := by rw [← hiso x]; exact hxs
    by_cases hxeq : x = s
    · rw [(hfields x hxg).1, if_pos hxeq] at hw
      simp [GRAY, WHITE] at hw
    · refine ⟨?_, (hfields x hxg).2.2, hxeq⟩
      rw [(hfields x hxg).2.1, if_neg hxeq]
  · intro x hxs hb
    have hxg : (g.get_vertex x).isSome = true := by rw [← hiso x]; exact hxs
    exfalso
    rw [(hfields x hxg).1] at hb
    by_cases hxeq : x = s
    · rw [if_pos hxeq] at hb
      simp [GRAY, BLACK] at hb
    · rw [if_neg hxeq] at hb
      simp [WHITE, BLACK] at hb
  · refine ⟨0, [s], [], by simp, ?_, by simp, ?_⟩
    · intro x hx
      rw [List.mem_singleton] at hx
      rw [hx]
      exact minHops_src g s
    · intro v _ k _ hk
      omega


theorem binv_empty_black (g : Graph) (hwf : WF g) (s : Key) (h : Graph)
    (hbinv : BInv g s h []) :
    ∀ (n : Nat) (x : Key), (h.get_vertex x).isSome = true → MinHops g s x n →
      h.colorAt x = BLACK := by
  obtain ⟨htopo, hsW, _, _, hgin, htri, hD, hE, hF, hG⟩ := hbinv
  intro n
  induction n using Nat.strong_induction_on with
  | _ n ih =>
    intro x hxs hmh
    have hnotgray : h.colorAt x ≠ GRAY := by
      intro hg
      exact absurd (hgin x hxs hg) (List.not_mem_nil x)
    rcases n with _ | k
    · have hxe : x = s := reach_zero g s x hmh.1
      subst hxe
      rcases htri x hxs with hc | hc | hc
      · exact absurd hc hsW
      · exact absurd hc hnotgray
      · exact hc
    · obtain ⟨u0, w, hu0, he⟩ := reach_parent g hwf s x k hmh.1
      obtain ⟨m, hm⟩ := exists_minHops g s u0 k hu0
      have hmk : m ≤ k := hm.2 k hu0
      have hu0st : (h.get_vertex u0).isSome = true := by
        rw [isSome_eq_of_topo h g htopo]
        unfold Graph.get_vertex
        rw [alookup_isSome_iff_mem_keys]
        exact edgeW_source_stored g u0 x w he
      have hu0b : h.colorAt u0 = BLACK := ih m (by omega) u0 hu0st hm
      have hmem : (x, w) ∈ ((h.get_vertex u0).map Vertex.connected_to).getD [] := by
        rw [adj_eq_of_topo h g htopo]
        unfold edgeW at he
        rcases hvx : alookup g.vertices u0 with _ | vx
        · rw [hvx] at he
          exact absurd he (by simp)
        · rw [hvx] at he
          show (x, w) ∈ ((Graph.get_vertex g u0).map Vertex.connected_to).getD []
          unfold Graph.get_vertex
          rw [hvx]
          exact alookup_mem _ _ _ he
      have hxnw : h.colorAt x ≠ WHITE := hF u0 hu0st hu0b (x, w) hmem
      rcases htri x hxs with hc | hc | hc
      · exact absurd hc hxnw
      · exact absurd hc hnotgray
      · exact hc

theorem binv_final (g : Graph) (hwf : WF g) (s : Key) (h : Graph)
    (hbinv : BInv g s h []) :
    ∀ x, (g.get_vertex x).isSome = true →
      (Reachable g s x → ∃ n, MinHops g s x n ∧ h.distOf x s = (n : Int) ∧
        PredsToSource g h s x n) ∧
      (¬Reachable g s x → h.distOf x s = maxsize ∧ h.predOf x = none) := by
  have hblack := binv_empty_black g hwf s h hbinv
  obtain ⟨htopo, hsW, _, _, hgin, htri, hD, hE, hF, hG⟩ := hbinv
  have hiso : ∀ x, (h.get_vertex x).isSome = (g.get_vertex x).isSome :=
    fun x => isSome_eq_of_topo h g htopo x
  have hpreds : ∀ (n : Nat) (x : Key), (h.get_vertex x).isSome = true →
      h.colorAt x ≠ WHITE → MinHops g s x n → PredsToSource g h s x n := by
    intro n
    induction n using Nat.strong_induction_on with
    | _ n ih =>
      intro x hxs hxnw hmh
      by_cases hxe : x = s
      · subst hxe
        have : n = 0 := minHops_unique g x x n 0 hmh (minHops_src g x)
        rw [this]
        exact PredsToSource.src
      · obtain ⟨_, _, hne⟩ := hD x hxs hxnw
        obtain ⟨u, hpu, hedge, ⟨m, hmu, hmx⟩, hust, hunw⟩ := hne hxe
        have hnm : n = m + 1 := minHops_unique g s x n (m + 1) hmh hmx
        rw [hnm]
        exact PredsToSource.step hpu hedge (ih m (by omega) u hust hunw hmu)
  intro x hxg
  have hxs : (h.get_vertex x).isSome = true := by rw [hiso x]; exact hxg
  constructor
  · intro hreach
    obtain ⟨k, hrk⟩ := hreach
    obtain ⟨n, hn⟩ := exists_minHops g s x k hrk
    have hb : h.colorAt x = BLACK := hblack n x hxs hn
    have hxnw : h.colorAt x ≠ WHITE := by
      rw [hb]
      simp [WHITE, BLACK]
    obtain ⟨⟨n', hn', hd'⟩, _, _⟩ := hD x hxs hxnw
    exact ⟨n', hn', hd', hpreds n' x hxs hxnw hn'⟩
  · intro hnr
    rcases htri x hxs with hc | hc | hc
    · obtain ⟨hd, hp, _⟩ := hE x hxs hc
      exact ⟨hd, hp⟩
    · exfalso
      obtain ⟨⟨n, hn, _⟩, _, _⟩ := hD x hxs (by rw [hc]; simp [GRAY, WHITE])
      exact hnr ⟨n, hn.1⟩
    · exfalso
      obtain ⟨⟨n, hn, _⟩, _, _⟩ := hD x hxs (by rw [hc]; simp [BLACK, WHITE])
      exact hnr ⟨n, hn.1⟩


/-- One iteration of the BFS loop preserves the invariant: pop `u`, scan
its adjacency, blacken `u`, and append the newly discovered vertices. -/
theorem binv_step (g : Graph) (hwf : WF g) (s : Key) (h : Graph) (u : Key)
    (rest : List Key) (hbinv : BInv g s h (u :: rest)) :
    BInv g s
      ((h.bfs_scan s u []
          (((h.get_vertex u).map Vertex.connected_to).getD [])).1.modifyVertex u
        fun v => { v with color := BLACK })
      (rest ++ (h.bfs_scan s u []
          (((h.get_vertex u).map Vertex.connected_to).getD [])).2) := by
  obtain ⟨htopo, hsW, hnd, hgq, hgin, htri, hD, hE, hF, hG⟩ := hbinv
  have hugray : h.colorAt u = GRAY := hgq u (List.mem_cons_self u rest)
  have hust : (h.get_vertex u).isSome = true := gray_stored h u hugray
  have hunw : h.colorAt u ≠ WHITE := by
    rw [hugray]
    simp [GRAY, WHITE]
  obtain ⟨htsc, nw, hacc, hmemnw, hndnw, hnew, hold, hS3⟩ :=
    bfs_scan_spec s u (((h.get_vertex u).map Vertex.connected_to).getD []) h [] hunw
  rw [List.nil_append] at hacc
  rw [hacc]
  have hndr : rest.Nodup := (List.nodup_cons.mp hnd).2
  have hunr : u ∉ rest := (List.nodup_cons.mp hnd).1
  have htopo2 : topo ((h.bfs_scan s u []
      (((h.get_vertex u).map Vertex.connected_to).getD [])).1.modifyVertex u
        fun v => { v with color := BLACK }) = topo g := by
    rw [topo_modify]
    · rw [htsc, htopo]
    · exact fun v => ⟨rfl, rfl⟩
  have htopo2h : topo ((h.bfs_scan s u []
      (((h.get_vertex u).map Vertex.connected_to).getD [])).1.modifyVertex u
        fun v => { v with color := BLACK }) = topo h := by
    rw [topo_modify]
    · rw [htsc]
    · exact fun v => ⟨rfl, rfl⟩
  have hiso2 : ∀ x, (((h.bfs_scan s u []
      (((h.get_vertex u).map Vertex.connected_to).getD [])).1.modifyVertex u
        (fun v => { v with color := BLACK })).get_vertex x).isSome =
      (h.get_vertex x).isSome :=
    fun x => isSome_eq_of_topo _ h htopo2h x
  have hadj2 : ∀ x, ((((h.bfs_scan s u []
      (((h.get_vertex u).map Vertex.connected_to).getD [])).1.modifyVertex u
        (fun v => { v with color := BLACK })).get_vertex x).map
          Vertex.connected_to).getD [] =
      (((h.get_vertex x).map Vertex.connected_to).getD []) := by
    intro x
    rw [adj_eq_of_topo _ h htopo2h x]
  have huscst : ((h.bfs_scan s u []
      (((h.get_vertex u).map Vertex.connected_to).getD [])).1.get_vertex u).isSome
        = true := by
    rw [isSome_eq_of_topo _ h htsc u]
    exact hust
  have hbm := black_modify_fields (h.bfs_scan s u []
    (((h.get_vertex u).map Vertex.connected_to).getD [])).1 s u huscst
  have hu_nin_nw : u ∉ nw := by
    intro hm
    have := (hnew u hm).1
    rw [hugray] at this
    simp [GRAY, WHITE] at this
  have husame := hold u hu_nin_nw
  have hufields2 : ((h.bfs_scan s u []
      (((h.get_vertex u).map Vertex.connected_to).getD [])).1.modifyVertex u
        (fun v => { v with color := BLACK })).colorAt u = BLACK ∧
      ((h.bfs_scan s u []
        (((h.get_vertex u).map Vertex.connected_to).getD [])).1.modifyVertex u
          (fun v => { v with color := BLACK })).distOf u s = h.distOf u s ∧
      ((h.bfs_scan s u []
        (((h.get_vertex u).map Vertex.connected_to).getD [])).1.modifyVertex u
          (fun v => { v with color := BLACK })).predOf u = h.predOf u :=
    ⟨hbm.1, by rw [hbm.2.1, husame.2.1], by rw [hbm.2.2, husame.2.2]⟩
  have hfields2ne : ∀ x, x ≠ u →
      ((h.bfs_scan s u []
        (((h.get_vertex u).map Vertex.connected_to).getD [])).1.modifyVertex u
          (fun v => { v with color := BLACK })).colorAt x =
        (h.bfs_scan s u []
          (((h.get_vertex u).map Vertex.connected_to).getD [])).1.colorAt x ∧
      ((h.bfs_scan s u []
        (((h.get_vertex u).map Vertex.connected_to).getD [])).1.modifyVertex u
          (fun v => { v with color := BLACK })).distOf x s =
        (h.bfs_scan s u []
          (((h.get_vertex u).map Vertex.connected_to).getD [])).1.distOf x s ∧
      ((h.bfs_scan s u []
        (((h.get_vertex u).map Vertex.connected_to).getD [])).1.modifyVertex u
          (fun v => { v with color := BLACK })).predOf x =
        (h.bfs_scan s u []
          (((h.get_vertex u).map Vertex.connected_to).getD [])).1.predOf x :=
    fun x hx => modify_fields_ne _ u (fun v => { v with color := BLACK }) x hx s
  have hfields2 : ∀ x, x ≠ u → x ∉ nw →
      ((h.bfs_scan s u []
        (((h.get_vertex u).map Vertex.connected_to).getD [])).1.modifyVertex u
          (fun v => { v with color := BLACK })).colorAt x = h.colorAt x ∧
      ((h.bfs_scan s u []
        (((h.get_vertex u).map Vertex.connected_to).getD [])).1.modifyVertex u
          (fun v => { v with color := BLACK })).distOf x s = h.distOf x s ∧
      ((h.bfs_scan s u []
        (((h.get_vertex u).map Vertex.connected_to).getD [])).1.modifyVertex u
          (fun v => { v with color := BLACK })).predOf x = h.predOf x := by
    intro x hxu hxnw
    obtain ⟨hc1, hd1, hp1⟩ := hfields2ne x hxu
    obtain ⟨hc0, hd0, hp0⟩ := hold x hxnw
    exact ⟨by rw [hc1, hc0], by rw [hd1, hd0], by rw [hp1, hp0]⟩
  have hnwfields2 : ∀ x ∈ nw, x ≠ u ∧
      ((h.bfs_scan s u []
        (((h.get_vertex u).map Vertex.connected_to).getD [])).1.modifyVertex u
          (fun v => { v with color := BLACK })).colorAt x = GRAY ∧
      ((h.bfs_scan s u []
        (((h.get_vertex u).map Vertex.connected_to).getD [])).1.modifyVertex u
          (fun v => { v with color := BLACK })).distOf x s = h.distOf u s + 1 ∧
      ((h.bfs_scan s u []
        (((h.get_vertex u).map Vertex.connected_to).getD [])).1.modifyVertex u
          (fun v => { v with color := BLACK })).predOf x = some u := by
    intro x hx
    have hxu : x ≠ u := fun he => hu_nin_nw (he ▸ hx)
    obtain ⟨_, hc, hd, hp⟩ := hnew x hx
    obtain ⟨hc1, hd1, hp1⟩ := hfields2ne x hxu
    exact ⟨hxu, by rw [hc1, hc], by rw [hd1, hd], by rw [hp1, hp]⟩
  have hpresv : ∀ x, h.colorAt x ≠ WHITE →
      ((h.bfs_scan s u []
        (((h.get_vertex u).map Vertex.connected_to).getD [])).1.modifyVertex u
          (fun v => { v with color := BLACK })).colorAt x ≠ WHITE := by
    intro x hx
    by_cases hxu : x = u
    · rw [hxu, hufields2.1]
      simp [BLACK, WHITE]
    · by_cases hxnw : x ∈ nw
      · rw [(hnwfields2 x hxnw).2.1]
        simp [GRAY, WHITE]
      · rw [(hfields2 x hxu hxnw).1]
        exact hx
  have hwhites : ∀ x ∈ nw, h.colorAt x = WHITE := fun x hx => (hnew x hx).1
  -- normalised level presentation
  obtain ⟨d, q1, q2, hq12, hq1, hq2, hlt⟩ := hG
  have hnorm : ∃ dd qa qb, rest = qa ++ qb ∧ MinHops g s u dd ∧
      (∀ x ∈ qa, MinHops g s x dd) ∧ (∀ x ∈ qb, MinHops g s x (dd + 1)) ∧
      (∀ v, (h.get_vertex v).isSome = true →
        ∀ k, MinHops g s v k → k < dd → h.colorAt v = BLACK) := by
    rcases q1 with _ | ⟨u1, q1t⟩
    · rw [List.nil_append] at hq12
      have hq2u : ∀ x ∈ u :: rest, MinHops g s x (d + 1) := by
        rw [hq12]
        exact hq2
      refine ⟨d + 1, rest, [], by simp, hq2u u (List.mem_cons_self u rest),
        fun x hx => hq2u x (List.mem_cons_of_mem u hx), by simp, ?_⟩
      intro v hv k hk hkd
      by_cases hkd' : k < d
      · exact hlt v hv k hk hkd'
      · have hkeq : k = d := by omega
        subst hkeq
        have hvnw : h.colorAt v ≠ WHITE :=
          disc_at_level g hwf s h k htopo hsW hF hlt v hk
        rcases htri v hv with hc | hc | hc
        · exact absurd hc hvnw
        · exfalso
          have hvq := hgin v hv hc
          have := hq2u v hvq
          have := minHops_unique g s v k (k + 1) hk this
          omega
        · exact hc
    · rw [List.cons_append] at hq12
      have hu1 : u = u1 ∧ rest = q1t ++ q2 := by
        have := List.cons.inj hq12
        exact this
      refine ⟨d, q1t, q2, hu1.2, ?_, fun x hx => hq1 x (List.mem_cons_of_mem u1 hx),
        hq2, hlt⟩
      rw [hu1.1]
      exact hq1 u1 (List.mem_cons_self u1 q1t)
  obtain ⟨dd, qa, qb, hrest, hud, hqa, hqb, hltd⟩ := hnorm
  have hdistu : h.distOf u s = (dd : Int) := by
    obtain ⟨⟨n, hn, hdn⟩, _, _⟩ := hD u hust hunw
    rw [hdn, minHops_unique g s u n dd hn hud]
  -- every newly discovered vertex sits exactly one level deeper
  have hdisc : ∀ x ∈ nw, (∃ w, edgeW g u x = some w) ∧ MinHops g s x (dd + 1) := by
    intro x hx
    have hxadj := hmemnw x hx
    have hadjg : (((h.get_vertex u).map Vertex.connected_to).getD []) =
        (((g.get_vertex u).map Vertex.connected_to).getD []) := by
      rw [adj_eq_of_topo h g htopo u]
    rw [hadjg] at hxadj
    have hug : (g.get_vertex u).isSome = true := by
      rw [← isSome_eq_of_topo h g htopo u]
      exact hust
    obtain ⟨w, hw⟩ : ∃ w, edgeW g u x = some w := by
      rcases hvu : g.get_vertex u with _ | vu
      · rw [hvu] at hug
        exact absurd hug (by simp)
      · rw [hvu] at hxadj
        simp only [Option.map_some', Option.getD_some] at hxadj
        have : (alookup vu.connected_to x).isSome = true :=
          (alookup_isSome_iff_mem_keys _ x).mpr hxadj
        rcases hax : alookup vu.connected_to x with _ | w
        · rw [hax] at this
          exact absurd this (by simp)
        · refine ⟨w, ?_⟩
          unfold edgeW
          unfold Graph.get_vertex at hvu
          rw [hvu]
          exact hax
    have hrx : ReachHops g s x (dd + 1) := reach_step_edgeW g s u x w dd hud.1 hw
    obtain ⟨m, hm⟩ := exists_minHops g s x (dd + 1) hrx
    have hmle : m ≤ dd + 1 := hm.2 (dd + 1) hrx
    have hxst : (h.get_vertex x).isSome = true := by
      rw [isSome_eq_of_topo h g htopo x]
      unfold Graph.get_vertex
      rw [alookup_isSome_iff_mem_keys]
      exact edgeW_target_stored g hwf u x w hw
    have hxw : h.colorAt x = WHITE := hwhites x hx
    have hm1 : ¬m < dd := by
      intro hlt'
      have := hltd x hxst m hm hlt'
      rw [hxw] at this
      simp [WHITE, BLACK] at this
    have hm2 : m ≠ dd := by
      intro he
      subst he
      exact disc_at_level g hwf s h m htopo hsW hF hltd x hm hxw
    have : m = dd + 1 := by omega
    subst this
    exact ⟨⟨w, hw⟩, hm⟩
  refine ⟨htopo2, hpresv s hsW, ?_, ?_, ?_, ?_, ?_, ?_, ?_, ?_⟩
  · refine hndr.append hndnw ?_
    intro x hxr hxnw
    have h1 := hgq x (List.mem_cons_of_mem u hxr)
    have h2 := hwhites x hxnw
    rw [h1] at h2
    simp [GRAY, WHITE] at h2
  · intro x hx
    rcases List.mem_append.mp hx with hxr | hxnw
    · have hxg := hgq x (List.mem_cons_of_mem u hxr)
      have hxu : x ≠ u := fun he => hunr (he ▸ hxr)
      have hxnw' : x ∉ nw := by
        intro hm
        have := hwhites x hm
        rw [hxg] at this
        simp [GRAY, WHITE] at this
      rw [(hfields2 x hxu hxnw').1]
      exact hxg
    · exact (hnwfields2 x hxnw).2.1
  · intro x hxs hxg
    by_cases hxu : x = u
    · rw [hxu, hufields2.1] at hxg
      simp [GRAY, BLACK] at hxg
    · by_cases hxnw : x ∈ nw
      · exact List.mem_append.mpr (Or.inr hxnw)
      · rw [(hfields2 x hxu hxnw).1] at hxg
        have := hgin x (by rw [← hiso2 x]; exact hxs) hxg
        rcases List.mem_cons.mp this with he | hr
        · exact absurd he hxu
        · exact List.mem_append.mpr (Or.inl hr)
  · intro x hxs
    by_cases hxu : x = u
    · rw [hxu, hufields2.1]
      exact Or.inr (Or.inr rfl)
    · by_cases hxnw : x ∈ nw
      · rw [(hnwfields2 x hxnw).2.1]
        exact Or.inr (Or.inl rfl)
      · rw [(hfields2 x hxu hxnw).1]
        exact htri x (by rw [← hiso2 x]; exact hxs)
  · intro x hxs hxnwh
    by_cases hxu : x = u
    · subst hxu
      obtain ⟨hdist, hps, hpne⟩ := hD x hust hunw
      refine ⟨?_, ?_, ?_⟩
      · obtain ⟨n, hn, hdn⟩ := hdist
        exact ⟨n, hn, by rw [hufields2.2.1, hdn]⟩
      · intro he
        rw [hufields2.2.2]
        exact hps he
      · intro hne
        obtain ⟨u0, hpu0, hedge, hmm, hu0st, hu0nw⟩ := hpne hne
        exact ⟨u0, by rw [hufields2.2.2]; exact hpu0, hedge, hmm,
          by rw [hiso2 u0]; exact hu0st, hpresv u0 hu0nw⟩
    · by_cases hxnw : x ∈ nw
      · obtain ⟨hxu', hcg, hd1, hp1⟩ := hnwfields2 x hxnw
        have hxwh : h.colorAt x = WHITE := hwhites x hxnw
        have hxsth : (h.get_vertex x).isSome = true := by
          rw [← hiso2 x]
          exact hxs
        have hxns : x ≠ s := (hE x hxsth hxwh).2.2
        obtain ⟨hedge, hmh⟩ := hdisc x hxnw
        refine ⟨⟨dd + 1, hmh, ?_⟩, fun he => absurd he hxns, ?_⟩
        · rw [hd1, hdistu]
          push_cast
          ring
        · intro _
          exact ⟨u, hp1, hedge, ⟨dd, hud, hmh⟩, by rw [hiso2 u]; exact hust,
            by rw [hufields2.1]; simp [BLACK, WHITE]⟩
      · obtain ⟨hc2, hd2, hp2⟩ := hfields2 x hxu hxnw
        have hxsth : (h.get_vertex x).isSome = true := by
          rw [← hiso2 x]
          exact hxs
        have hxnwh' : h.colorAt x ≠ WHITE := by
          rw [← hc2]
          exact hxnwh
        obtain ⟨hdist, hps, hpne⟩ := hD x hxsth hxnwh'
        refine ⟨?_, ?_, ?_⟩
        · obtain ⟨n, hn, hdn⟩ := hdist
          exact ⟨n, hn, by rw [hd2, hdn]⟩
        · intro he
          rw [hp2]
          exact hps he
        · intro hne
          obtain ⟨u0, hpu0, hedge, hmm, hu0st, hu0nw⟩ := hpne hne
          exact ⟨u0, by rw [hp2]; exact hpu0, hedge, hmm,
            by rw [hiso2 u0]; exact hu0st, hpresv u0 hu0nw⟩
  · intro x hxs hxw
    have hxu : x ≠ u := by
      intro he
      rw [he, hufields2.1] at hxw
      simp [BLACK, WHITE] at hxw
    have hxnw : x ∉ nw := by
      intro hm
      rw [(hnwfields2 x hm).2.1] at hxw
      simp [GRAY, WHITE] at hxw
    obtain ⟨hc2, hd2, hp2⟩ := hfields2 x hxu hxnw
    have hxsth : (h.get_vertex x).isSome = true := by
      rw [← hiso2 x]
      exact hxs
    have hxwh : h.colorAt x = WHITE := by
      rw [← hc2]
      exact hxw
    obtain ⟨he1, he2, he3⟩ := hE x hxsth hxwh
    exact ⟨by rw [hd2]; exact he1, by rw [hp2]; exact he2, he3⟩
  · intro x hxs hxb
    by_cases hxu : x = u
    · subst hxu
      intro q0 hq0
      rw [hadj2 x] at hq0
      have := hS3 q0.1 (List.mem_map_of_mem Prod.fst hq0)
      by_cases hq0u : q0.1 = x
      · rw [hq0u, hufields2.1]
        simp [BLACK, WHITE]
      · rw [(hfields2ne q0.1 hq0u).1]
        exact this
    · have hxnw : x ∉ nw := by
        intro hm
        rw [(hnwfields2 x hm).2.1] at hxb
        simp [GRAY, BLACK] at hxb
      obtain ⟨hc2, _, _⟩ := hfields2 x hxu hxnw
      have hxsth : (h.get_vertex x).isSome = true := by
        rw [← hiso2 x]
        exact hxs
      have hxbh : h.colorAt x = BLACK := by
        rw [← hc2]
        exact hxb
      intro q0 hq0
      rw [hadj2 x] at hq0
      exact hpresv q0.1 (hF x hxsth hxbh q0 hq0)
  · refine ⟨dd, qa, qb ++ nw, by rw [hrest, List.append_assoc], hqa, ?_, ?_⟩
    · intro x hx
      rcases List.mem_append.mp hx with hxq | hxn
      · exact hqb x hxq
      · exact (hdisc x hxn).2
    · intro v hvs k hk hkd
      have hvsth : (h.get_vertex v).isSome = true := by
        rw [← hiso2 v]
        exact hvs
      have hvb : h.colorAt v = BLACK := hltd v hvsth k hk hkd
      have hvu : v ≠ u := by
        intro he
        rw [he, hugray] at hvb
        simp [GRAY, BLACK] at hvb
      have hvnw : v ∉ nw := by
        intro hm
        have := hwhites v hm
        rw [hvb] at this
        simp [WHITE, BLACK] at this
      rw [(hfields2 v hvu hvnw).1]
      exact hvb


theorem bfs_loop_spec (g : Graph) (hwf : WF g) (s : Key) :
    ∀ (fuel : Nat) (h : Graph) (q : List Key),
      BInv g s h q → h.whiteCount + q.length < fuel →
      ∀ x, (g.get_vertex x).isSome = true →
        (Reachable g s x → ∃ n, MinHops g s x n ∧
          (Graph.bfs_loop s fuel h q).distOf x s = (n : Int) ∧
          PredsToSource g (Graph.bfs_loop s fuel h q) s x n) ∧
        (¬Reachable g s x →
          (Graph.bfs_loop s fuel h q).distOf x s = maxsize ∧
          (Graph.bfs_loop s fuel h q).predOf x = none) := by
  intro fuel
  induction fuel with
  | zero => intro h q _ hm; omega
  | succ f ih =>
    intro h q hbinv hm
    rcases q with _ | ⟨u, rest⟩
    · simp only [Graph.bfs_loop]
      exact binv_final g hwf s h hbinv
    · simp only [Graph.bfs_loop]
      have hstep := binv_step g hwf s h u rest hbinv
      apply ih _ _ hstep
      have h1 := bfs_scan_whiteCount s u
        (((h.get_vertex u).map Vertex.connected_to).getD []) h []
      have h2 := whiteCount_modify_le
        (h.bfs_scan s u [] (((h.get_vertex u).map Vertex.connected_to).getD [])).1 u
        (fun v => { v with color := BLACK }) (fun v => by simp [BLACK, WHITE])
      simp only [List.length_append, List.length_cons, List.length_nil] at h1 hm ⊢
      omega

/-- C1: after `bfs(source)` on a well-formed graph with the source stored,
every reachable vertex's `dist[source]` is its minimum hop count from the
source and its predecessor chain climbs real edges back to the source in
exactly that many steps; every unreachable vertex keeps the `sys.maxsize`
sentinel and no predecessor. -/
theorem bfs_spec (g : Graph) (s : Key) (hwf : WF g)
    (hs : (g.get_vertex s).isSome = true) :
    ∃ g', g.bfs s = some g' ∧
      ∀ x, (g.get_vertex x).isSome = true →
        (Reachable g s x → ∃ n, MinHops g s x n ∧
          g'.distOf x s = (n : Int) ∧ PredsToSource g g' s x n) ∧
        (¬Reachable g s x → g'.distOf x s = maxsize ∧ g'.predOf x = none) := by
  rcases hvs : g.get_vertex s with _ | vs
  · rw [hvs] at hs
    exact absurd hs (by simp)
  · refine ⟨Graph.bfs_loop s ((g.bfs_init s).whiteCount + 2) (g.bfs_init s) [s], ?_, ?_⟩
    · unfold Graph.bfs
      rw [hvs]
    · intro x hx
      exact bfs_loop_spec g hwf s ((g.bfs_init s).whiteCount + 2) (g.bfs_init s) [s]
        (binv_init g s hs) (by simp) x hx

/-- C1, witness: the BFS specification applied to the graph with the
isolated vertex `0` and the edge `1 → 2`, from source `1`: vertex `2` is
reachable, vertex `0` is not. -/
theorem bfs_spec_witness :
    WF strayGraph ∧ (strayGraph.get_vertex 1).isSome = true ∧
      (∃ g', strayGraph.bfs 1 = some g' ∧
        ∀ x, (strayGraph.get_vertex x).isSome = true →
          (Reachable strayGraph 1 x → ∃ n, MinHops strayGraph 1 x n ∧
            g'.distOf x 1 = (n : Int) ∧ PredsToSource strayGraph g' 1 x n) ∧
          (¬Reachable strayGraph 1 x →
            g'.distOf x 1 = maxsize ∧ g'.predOf x = none)) :=
  ⟨by decide, by decide, bfs_spec strayGraph 1 (by decide) (by decide)⟩

end CLRSGraph
